import Mathlib

/-!
# jsonf: a verification development

A shallow embedding of `main.go` of `cbednarski/jsonf` together with the
parts of the Go standard library it calls (`strings`, `path/filepath`,
`bytes`, `encoding/json`), and theorems about the embedded functions.

Go strings and byte slices are modelled as lists of characters.  All the
delimiters the program inspects are ASCII, for which a UTF-8 byte and a
code point coincide.

The standard library is embedded as it is documented and implemented since
Go 1.15: `filepath.Walk` reads the sorted names of a directory, the scanner of
`encoding/json` limits the nesting depth, `json.Compact` elides white space
and nothing else.  The file system is a tree of files and directories that can
all be read; symbolic links are left out, so that `os.Stat` and `os.Lstat`
agree.  The command line is taken after `flag.Parse()` has accepted it.

What `format` should return is stated against JSON as RFC 8259 defines it: a
type of values, a parser that follows the grammar rule by rule, and the
compact and the indented serialisation of a value.  None of them uses the
scanner of `encoding/json`.
-/

namespace Jsonf

/-- A Go `string` (or `[]byte`), as the list of its characters. -/
abbrev GoString := List Char

/-! ## Package `strings` -/

/-- Go `strings.HasPrefix(s, prefix)`. -/
def stringsHasPrefix : GoString → GoString → Bool
  | _, [] => true
  | [], _ :: _ => false
  | c :: s, p :: ps => c == p && stringsHasPrefix s ps

/-- Go `strings.HasSuffix(s, suffix)`:
`len(s) >= len(suffix) && s[len(s)-len(suffix):] == suffix`. -/
def stringsHasSuffix (s suffix : GoString) : Bool :=
  decide (suffix.length ≤ s.length) && (s.drop (s.length - suffix.length) == suffix)

/-- Go `strings.Contains(s, substr)`, that is `strings.Index(s, substr) >= 0`:
some position of `s` starts an occurrence of `substr`. -/
def stringsContains : GoString → GoString → Bool
  | [], substr => stringsHasPrefix [] substr
  | c :: s, substr => stringsHasPrefix (c :: s) substr || stringsContains s substr

/-- The scan of `strings.Replace` for a non-empty `old`: occurrences are
found left to right and do not overlap.  The counter is the number of
characters of the current occurrence still to be skipped. -/
def replaceScan (old new : GoString) : Nat → GoString → GoString
  | _, [] => []
  | skip + 1, _ :: s => replaceScan old new skip s
  | 0, c :: s =>
    if stringsHasPrefix (c :: s) old then new ++ replaceScan old new (old.length - 1) s
    else c :: replaceScan old new 0 s

/-- Go `strings.Replace(s, old, new, -1)`: every non-overlapping occurrence
of `old` is replaced by `new`; an empty `old` matches before every character
and at the end. -/
def stringsReplace (s old new : GoString) : GoString :=
  match old with
  | [] => new ++ s.flatMap (fun c => c :: new)
  | _ :: _ => replaceScan old new 0 s

/-! ## `main.go`: constants and `indentString` -/

def formatCompact : GoString := ['c']
def formatString : GoString := ['s']
def formatTab : GoString := ['t']

/-- The function `indentString` of `main.go`. -/
def indentString (input : GoString) : GoString :=
  -- Special case for compaction
  if stringsContains input formatCompact then formatCompact
  else
    let input := stringsReplace input formatString [' ']
    let input := stringsReplace input formatTab ['\t']
    input

/-- The character map of the indent specifier: `s` is a space, `t` a tab. -/
def indentChar (c : Char) : Char :=
  if c = 's' then ' ' else if c = 't' then '\t' else c

/-! ## Errors -/

/-- The Go `error` values the program handles. -/
inductive GoError
  /-- The sentinel `filepath.SkipDir`. -/
  | skipDir
  /-- An `*os.PathError` of `os.Stat`, `ioutil.ReadFile` or `ioutil.WriteFile`. -/
  | pathError (op path : GoString)
  /-- A `*json.SyntaxError` of the scanner of `encoding/json`. -/
  | syntaxError (msg : String)
  /-- An error of `errors.New` or `fmt.Errorf`. -/
  | errorString (msg : GoString)
  deriving DecidableEq, Repr

/-! ## The file system -/

/-- A file-system object: a file with its content, or a directory with its
entries (name and object) in the order the directory stores them. -/
inductive Node
  | file (content : GoString)
  | dir (entries : List (GoString × Node))

/-- The `IsDir()` of the `os.FileInfo` of an object. -/
def Node.isDir : Node → Bool
  | .file _ => false
  | .dir _ => true

/-- The part of `os.FileInfo` the program reads: `Name()` and `IsDir()`. -/
structure FileInfo where
  name : GoString
  isDir : Bool

/-- The file system as the program sees it: `stat path` is the base name and
the object `os.Stat` (and `os.Lstat`) finds at `path`, `none` when the call
fails; `writable path` tells whether `ioutil.WriteFile` on `path` succeeds. -/
structure FileSystem where
  stat : GoString → Option (GoString × Node)
  writable : GoString → Bool

/-! ## Package `path/filepath` -/

/-- Byte-wise order of Go strings, `a <= b`; on UTF-8 it is the order of the
code points. -/
def stringLE : GoString → GoString → Bool
  | [], _ => true
  | _ :: _, [] => false
  | a :: s, b :: t => decide (a.toNat < b.toNat) || (a == b && stringLE s t)

/-- The order of `sort.Strings` on the names of a directory, as done by
`readDirNames`, carried by whatever is attached to each name. -/
def sortByName {α : Type} (l : List (GoString × α)) : List (GoString × α) :=
  l.insertionSort (fun a b => stringLE a.1 b.1 = true)

/-- Go `filepath.Join(dir, name)` for a clean `dir` and a plain `name`.  The
functions below take the join as a parameter, and so hold for `filepath.Join`
on any operands; this one serves in the examples. -/
def filepathJoin (dir name : GoString) : GoString := dir ++ '/' :: name

/-- The type `filepath.WalkFunc`, over the state `σ` its closure updates.  The
`err` argument is not passed: every `Lstat` and directory read succeeds in a
`Node`, so it is always `nil`. -/
abbrev WalkFunc (σ : Type) := GoString → FileInfo → σ → σ × Option GoError

/-- The loop of `filepath.walk` over the sorted names of a directory.  Each
item is a name, the `IsDir()` of its `Lstat` and the walk of that entry. -/
def walkLoop {σ : Type} (join : GoString → GoString → GoString) (path : GoString) :
    List (GoString × Bool × (GoString → σ → σ × Option GoError)) → σ → σ × Option GoError
  | [], st => (st, none)
  | (name, isDir, walkEntry) :: rest, st =>
    let filename := join path name
    match walkEntry filename st with
    | (st1, none) => walkLoop join path rest st1
    | (st1, some err) =>
      if !isDir || err ≠ GoError.skipDir then (st1, some err)
      else walkLoop join path rest st1

mutual
/-- Go `filepath.walk(path, info, walkFn)`, where `info` is the `Lstat` of the
object `name` at `path`. -/
def walk {σ : Type} (join : GoString → GoString → GoString) (walkFn : WalkFunc σ) :
    Node → GoString → GoString → σ → σ × Option GoError
  | .file _, name, path, st => walkFn path ⟨name, false⟩ st
  | .dir entries, name, path, st =>
    match walkFn path ⟨name, true⟩ st with
    | (st1, some err1) => (st1, some err1)
    | (st1, none) => walkLoop join path (sortByName (walkEntries join walkFn entries)) st1
/-- The walks of the entries of a directory, each with its name. -/
def walkEntries {σ : Type} (join : GoString → GoString → GoString) (walkFn : WalkFunc σ) :
    List (GoString × Node) → List (GoString × Bool × (GoString → σ → σ × Option GoError))
  | [] => []
  | (name, node) :: rest =>
    (name, node.isDir, walk join walkFn node name) :: walkEntries join walkFn rest
end

/-- Go `filepath.Walk(root, walkFn)`.  When `Lstat(root)` fails Go calls
`walkFn(root, nil, err)`; `listJSONFiles` walks only a path it has just
stat'ed, so its closure never sees that call, and the error is returned
here. -/
def filepathWalk {σ : Type} (join : GoString → GoString → GoString) (fs : FileSystem)
    (root : GoString) (walkFn : WalkFunc σ) (st : σ) : σ × Option GoError :=
  match fs.stat root with
  | none => (st, some (GoError.pathError "lstat".toList root))
  | some (name, node) =>
    match walk join walkFn node name root st with
    | (st1, some GoError.skipDir) => (st1, none)
    | r => r

/-! ## `main.go`: `isDir` and `listJSONFiles` -/

/-- The function `isDir` of `main.go`. -/
def isDir (fs : FileSystem) (path : GoString) : Bool :=
  match fs.stat path with
  | none => false
  | some (_, node) => node.isDir

/-- The suffix `".json"` tested by `listJSONFiles`. -/
def jsonSuffix : GoString := ".json".toList

/-- The closure `listJSONFiles` passes to `filepath.Walk`; its state is the
slice `files`. -/
def listJSONFilesFunc (path : GoString) (recurse : Bool) : WalkFunc (List GoString) :=
  fun innerPath info files =>
    -- We always want to walk the current directory, but not any
    -- subdirectories, unless recurse is true.
    if !recurse && info.isDir && innerPath != path then (files, some GoError.skipDir)
    else if !info.isDir && stringsHasSuffix info.name jsonSuffix then
      (files ++ [innerPath], none)
    else (files, none)

/-- The function `listJSONFiles` of `main.go`.  The result of `filepath.Walk`
is dropped and the returned error is always `nil`. -/
def listJSONFiles (join : GoString → GoString → GoString) (fs : FileSystem)
    (path : GoString) (recurse : Bool) : List GoString × Option GoError :=
  if isDir fs path then
    let files := (filepathWalk join fs path (listJSONFilesFunc path recurse) []).1
    (files, none)
  else
    ([path], none)

/-! ## What the listing should be, in the words of the specification -/

/-- Whether an entry is selected: not a directory, and its name ends with
the suffix `.json`. -/
def isJSONFile (name : GoString) (node : Node) : Bool :=
  !node.isDir && stringsHasSuffix name jsonSuffix

mutual
/-- The paths of the non-directory entries named `*.json` in the object
`name` at `path`, at any depth, top-down, the entries of each directory in
lexical order of name. -/
def jsonPaths (join : GoString → GoString → GoString) :
    Node → GoString → GoString → List GoString
  | .file _, name, path => if stringsHasSuffix name jsonSuffix then [path] else []
  | .dir entries, _, path =>
    (sortByName (jsonPathsEntries join entries)).flatMap (fun e => e.2 (join path e.1))
/-- The listing of each entry of a directory, with its name. -/
def jsonPathsEntries (join : GoString → GoString → GoString) :
    List (GoString × Node) → List (GoString × (GoString → List GoString))
  | [] => []
  | (name, node) :: rest => (name, jsonPaths join node name) :: jsonPathsEntries join rest
end

/-- The relation "`p` is the path of a non-directory entry named `*.json`
in the object `name` at `path`": the object itself when it is a file so
named, or such an entry of one of the entries of a directory. -/
inductive JSONEntry (join : GoString → GoString → GoString) :
    Node → GoString → GoString → GoString → Prop
  | file (content name path : GoString) (h : stringsHasSuffix name jsonSuffix = true) :
    JSONEntry join (.file content) name path path
  | dir (entries : List (GoString × Node)) (name path : GoString) (e : GoString × Node)
    (p : GoString) (he : e ∈ entries) (h : JSONEntry join e.2 e.1 (join path e.1) p) :
    JSONEntry join (.dir entries) name path p

mutual
/-- The number of non-directory entries named `*.json` in an object. -/
def countJSON : Node → GoString → Nat
  | .file _, name => if stringsHasSuffix name jsonSuffix then 1 else 0
  | .dir entries, _ => countJSONEntries entries
/-- The number of non-directory entries named `*.json` in a list of entries. -/
def countJSONEntries : List (GoString × Node) → Nat
  | [] => 0
  | (name, node) :: rest => countJSON node name + countJSONEntries rest
end

/-- The paths of the non-directory entries named `*.json` located directly
in the directory `dir`, in lexical order of name. -/
def directJSONPaths (join : GoString → GoString → GoString) (dir : GoString)
    (entries : List (GoString × Node)) : List GoString :=
  ((sortByName entries).filter (fun e => isJSONFile e.1 e.2)).map (fun e => join dir e.1)

/-- The tree of the test fixtures: `icecream.json`, `dogs/corgi.json`,
`dogs/dachshund.json`; the contents play no part in the listing. -/
def fixtureEntries : List (GoString × Node) :=
  [("icecream.json".toList, .file "{}".toList),
   ("dogs".toList, .dir [("dachshund.json".toList, .file "{}".toList),
                         ("corgi.json".toList, .file "{}".toList)])]

/-- A file system holding the test fixtures at `test-fixtures`, and the
regular file `main.go`. -/
def fixtureFS : FileSystem where
  stat := fun p =>
    if p = "test-fixtures".toList then some ("test-fixtures".toList, .dir fixtureEntries)
    else if p = "main.go".toList then some ("main.go".toList, .file "package main".toList)
    else none
  writable := fun _ => true

/-! ## Package `bytes` -/

/-- Go `unicode.IsSpace`: the Latin-1 spaces `\t`, `\n`, `\v`, `\f`, `\r`,
space, U+0085, U+00A0, and the characters of category Z and property
Pattern_White_Space beyond. -/
def unicodeIsSpace (c : Char) : Bool :=
  let n := c.toNat
  (9 ≤ n && n ≤ 13) || n == 32 || n == 0x85 || n == 0xA0 || n == 0x1680 ||
  (0x2000 ≤ n && n ≤ 0x200A) || n == 0x2028 || n == 0x2029 || n == 0x202F ||
  n == 0x205F || n == 0x3000

/-- Go `bytes.TrimSpace`: the input without its leading and trailing white
space, as defined by Unicode. -/
def bytesTrimSpace (s : GoString) : GoString :=
  (s.dropWhile unicodeIsSpace).rdropWhile unicodeIsSpace

/-! ## Package `encoding/json`: the scanner (`scanner.go`) -/

/-- The values returned by the state transition functions of the scanner, in
the order of their Go constants. -/
inductive Scan
  | continue_      -- scanContinue: uninteresting byte
  | beginLiteral   -- scanBeginLiteral
  | beginObject    -- scanBeginObject
  | objectKey      -- scanObjectKey: just finished object key (string)
  | objectValue    -- scanObjectValue: just finished non-last object value
  | endObject      -- scanEndObject
  | beginArray     -- scanBeginArray
  | arrayValue     -- scanArrayValue: just finished array value
  | endArray       -- scanEndArray
  | skipSpace      -- scanSkipSpace: space byte; last "continue" result
  | end_           -- scanEnd: top-level value ended before this byte
  | error          -- scanError: hit an error, scanner.err
  deriving DecidableEq, Repr

/-- The integer value of a scan code (`iota`). -/
def Scan.code : Scan → Nat
  | .continue_ => 0
  | .beginLiteral => 1
  | .beginObject => 2
  | .objectKey => 3
  | .objectValue => 4
  | .endObject => 5
  | .beginArray => 6
  | .arrayValue => 7
  | .endArray => 8
  | .skipSpace => 9
  | .end_ => 10
  | .error => 11

/-- The values stored in the parse-state stack. -/
inductive ParseState
  | objectKey     -- parseObjectKey: parsing object key (before colon)
  | objectValue   -- parseObjectValue: parsing object value (after colon)
  | arrayValue    -- parseArrayValue: parsing array value
  deriving DecidableEq, Repr

/-- The state transition function held in the field `step` of the scanner. -/
inductive Step
  | beginValueOrEmpty | beginValue | beginStringOrEmpty | beginString
  | endValue | endTop
  | inString | inStringEsc | inStringEscU | inStringEscU1 | inStringEscU12 | inStringEscU123
  | neg | s1 | s0 | dot | dot0 | e | eSign | e0
  | t | tr | tru | f | fa | fal | fals | n | nu | nul
  | error
  deriving DecidableEq, Repr

/-- The Go type `scanner`.  The stack `parseState` is kept innermost first;
the byte counter, which only feeds the offset of error messages, is left
out. -/
structure Scanner where
  step : Step
  endTop : Bool
  parseState : List ParseState
  err : Option GoError
  deriving DecidableEq, Repr

/-- The constant `maxNestingDepth`. -/
def maxNestingDepth : Nat := 10000

/-- The method `reset`. -/
def Scanner.reset : Scanner :=
  { step := .beginValue, endTop := false, parseState := [], err := none }

/-- The function `isSpace` of the scanner. -/
def isSpace (c : Char) : Bool :=
  c == ' ' || c == '\t' || c == '\r' || c == '\n'

/-- The method `error`: records an error and switches to the error state.  The
message quotes the character plainly. -/
def Scanner.error (s : Scanner) (c : Char) (context : String) : Scanner × Scan :=
  ({ s with step := .error,
            err := some (.syntaxError ("invalid character " ++ c.toString ++ " " ++ context)) },
    .error)

/-- The method `pushParseState`. -/
def Scanner.pushParseState (s : Scanner) (c : Char) (newParseState : ParseState)
    (successState : Scan) : Scanner × Scan :=
  let s := { s with parseState := newParseState :: s.parseState }
  if s.parseState.length ≤ maxNestingDepth then (s, successState)
  else s.error c "exceeded max depth"

/-- The method `popParseState`. -/
def Scanner.popParseState (s : Scanner) : Scanner :=
  let s := { s with parseState := s.parseState.tail }
  if s.parseState.length = 0 then { s with step := .endTop, endTop := true }
  else { s with step := .endValue }

/-- The function `stateEndTop`: only space characters are left. -/
def stateEndTop (s : Scanner) (c : Char) : Scanner × Scan :=
  if !isSpace c then
    -- Complain about non-space byte on next call.
    ((s.error c "after top-level value").1, .end_)
  else (s, .end_)

/-- The function `stateEndValue`: after a value, such as after the closing
quote of a string or the last digit of a number read one character ahead. -/
def stateEndValue (s : Scanner) (c : Char) : Scanner × Scan :=
  match s.parseState with
  | [] =>
    -- Completed top-level before the current byte.
    stateEndTop { s with step := .endTop, endTop := true } c
  | ps :: stack =>
    if isSpace c then ({ s with step := .endValue }, .skipSpace)
    else match ps with
    | .objectKey =>
      if c == ':' then
        ({ s with parseState := .objectValue :: stack, step := .beginValue }, .objectKey)
      else s.error c "after object key"
    | .objectValue =>
      if c == ',' then
        ({ s with parseState := .objectKey :: stack, step := .beginString }, .objectValue)
      else if c == '}' then (s.popParseState, .endObject)
      else s.error c "after object key:value pair"
    | .arrayValue =>
      if c == ',' then ({ s with step := .beginValue }, .arrayValue)
      else if c == ']' then (s.popParseState, .endArray)
      else s.error c "after array element"

/-- The function `stateBeginValue`: at the beginning of the input. -/
def stateBeginValue (s : Scanner) (c : Char) : Scanner × Scan :=
  if isSpace c then (s, .skipSpace)
  else if c == '{' then
    { s with step := .beginStringOrEmpty }.pushParseState c .objectKey .beginObject
  else if c == '[' then
    { s with step := .beginValueOrEmpty }.pushParseState c .arrayValue .beginArray
  else if c == '"' then ({ s with step := .inString }, .beginLiteral)
  else if c == '-' then ({ s with step := .neg }, .beginLiteral)
  else if c == '0' then ({ s with step := .s0 }, .beginLiteral)
  else if c == 't' then ({ s with step := .t }, .beginLiteral)
  else if c == 'f' then ({ s with step := .f }, .beginLiteral)
  else if c == 'n' then ({ s with step := .n }, .beginLiteral)
  else if '1' ≤ c && c ≤ '9' then ({ s with step := .s1 }, .beginLiteral)
  else s.error c "looking for beginning of value"

/-- The function `stateBeginValueOrEmpty`: after reading `[`. -/
def stateBeginValueOrEmpty (s : Scanner) (c : Char) : Scanner × Scan :=
  if isSpace c then (s, .skipSpace)
  else if c == ']' then stateEndValue s c
  else stateBeginValue s c

/-- The function `stateBeginString`: after reading `{"key": value,`. -/
def stateBeginString (s : Scanner) (c : Char) : Scanner × Scan :=
  if isSpace c then (s, .skipSpace)
  else if c == '"' then ({ s with step := .inString }, .beginLiteral)
  else s.error c "looking for beginning of object key string"

/-- The function `stateBeginStringOrEmpty`: after reading `{`. -/
def stateBeginStringOrEmpty (s : Scanner) (c : Char) : Scanner × Scan :=
  if isSpace c then (s, .skipSpace)
  else if c == '}' then
    stateEndValue { s with parseState := .objectValue :: s.parseState.tail } c
  else stateBeginString s c

/-- The function `stateInString`: after reading a quote. -/
def stateInString (s : Scanner) (c : Char) : Scanner × Scan :=
  if c == '"' then ({ s with step := .endValue }, .continue_)
  else if c == '\\' then ({ s with step := .inStringEsc }, .continue_)
  else if c.toNat < 0x20 then s.error c "in string literal"
  else (s, .continue_)

/-- The function `stateInStringEsc`: after reading a backslash in a string. -/
def stateInStringEsc (s : Scanner) (c : Char) : Scanner × Scan :=
  if c == 'b' || c == 'f' || c == 'n' || c == 'r' || c == 't' || c == '\\' || c == '/'
      || c == '"' then
    ({ s with step := .inString }, .continue_)
  else if c == 'u' then ({ s with step := .inStringEscU }, .continue_)
  else s.error c "in string escape code"

/-- The test of a hexadecimal digit in the states of a `\u` escape. -/
def isHex (c : Char) : Bool :=
  ('0' ≤ c && c ≤ '9') || ('a' ≤ c && c ≤ 'f') || ('A' ≤ c && c ≤ 'F')

/-- The functions `stateInStringEscU`, `stateInStringEscU1`,
`stateInStringEscU12` and `stateInStringEscU123`, which differ by the state
that follows. -/
def stateInStringEscHex (next : Step) (s : Scanner) (c : Char) : Scanner × Scan :=
  if isHex c then ({ s with step := next }, .continue_)
  else s.error c "in \\u hexadecimal character escape"

/-- The function `stateNeg`: after reading `-` during a number. -/
def stateNeg (s : Scanner) (c : Char) : Scanner × Scan :=
  if c == '0' then ({ s with step := .s0 }, .continue_)
  else if '1' ≤ c && c ≤ '9' then ({ s with step := .s1 }, .continue_)
  else s.error c "in numeric literal"

/-- The function `state0`: after reading `0` during a number. -/
def state0 (s : Scanner) (c : Char) : Scanner × Scan :=
  if c == '.' then ({ s with step := .dot }, .continue_)
  else if c == 'e' || c == 'E' then ({ s with step := .e }, .continue_)
  else stateEndValue s c

/-- The function `state1`: after reading a non-zero integer during a number. -/
def state1 (s : Scanner) (c : Char) : Scanner × Scan :=
  if '0' ≤ c && c ≤ '9' then ({ s with step := .s1 }, .continue_)
  else state0 s c

/-- The function `stateDot`: after reading the integer and decimal point. -/
def stateDot (s : Scanner) (c : Char) : Scanner × Scan :=
  if '0' ≤ c && c ≤ '9' then ({ s with step := .dot0 }, .continue_)
  else s.error c "after decimal point in numeric literal"

/-- The function `stateDot0`: after reading a digit after the decimal point. -/
def stateDot0 (s : Scanner) (c : Char) : Scanner × Scan :=
  if '0' ≤ c && c ≤ '9' then (s, .continue_)
  else if c == 'e' || c == 'E' then ({ s with step := .e }, .continue_)
  else stateEndValue s c

/-- The function `stateESign`: after reading the mantissa, `e` and a sign. -/
def stateESign (s : Scanner) (c : Char) : Scanner × Scan :=
  if '0' ≤ c && c ≤ '9' then ({ s with step := .e0 }, .continue_)
  else s.error c "in exponent of numeric literal"

/-- The function `stateE`: after reading the mantissa and `e`. -/
def stateE (s : Scanner) (c : Char) : Scanner × Scan :=
  if c == '+' || c == '-' then ({ s with step := .eSign }, .continue_)
  else stateESign s c

/-- The function `stateE0`: after reading a digit of the exponent. -/
def stateE0 (s : Scanner) (c : Char) : Scanner × Scan :=
  if '0' ≤ c && c ≤ '9' then (s, .continue_)
  else stateEndValue s c

/-- The functions `stateT` to `stateNul`, inside the literals `true`, `false`
and `null`: one expected character, one following state.  The context of the
error names the expected character without quotes. -/
def stateLiteral (expected : Char) (next : Step) (context : String) (s : Scanner)
    (c : Char) : Scanner × Scan :=
  if c == expected then ({ s with step := next }, .continue_)
  else s.error c context

/-- The function `stateError`: after an error. -/
def stateError (s : Scanner) (_ : Char) : Scanner × Scan := (s, .error)

/-- The call `s.step(s, c)` of the state transition function in the field
`step`. -/
def Scanner.call (s : Scanner) (c : Char) : Scanner × Scan :=
  match s.step with
  | .beginValueOrEmpty => stateBeginValueOrEmpty s c
  | .beginValue => stateBeginValue s c
  | .beginStringOrEmpty => stateBeginStringOrEmpty s c
  | .beginString => stateBeginString s c
  | .endValue => stateEndValue s c
  | .endTop => stateEndTop s c
  | .inString => stateInString s c
  | .inStringEsc => stateInStringEsc s c
  | .inStringEscU => stateInStringEscHex .inStringEscU1 s c
  | .inStringEscU1 => stateInStringEscHex .inStringEscU12 s c
  | .inStringEscU12 => stateInStringEscHex .inStringEscU123 s c
  | .inStringEscU123 => stateInStringEscHex .inString s c
  | .neg => stateNeg s c
  | .s1 => state1 s c
  | .s0 => state0 s c
  | .dot => stateDot s c
  | .dot0 => stateDot0 s c
  | .e => stateE s c
  | .eSign => stateESign s c
  | .e0 => stateE0 s c
  | .t => stateLiteral 'r' .tr "in literal true (expecting r)" s c
  | .tr => stateLiteral 'u' .tru "in literal true (expecting u)" s c
  | .tru => stateLiteral 'e' .endValue "in literal true (expecting e)" s c
  | .f => stateLiteral 'a' .fa "in literal false (expecting a)" s c
  | .fa => stateLiteral 'l' .fal "in literal false (expecting l)" s c
  | .fal => stateLiteral 's' .fals "in literal false (expecting s)" s c
  | .fals => stateLiteral 'e' .endValue "in literal false (expecting e)" s c
  | .n => stateLiteral 'u' .nu "in literal null (expecting u)" s c
  | .nu => stateLiteral 'l' .nul "in literal null (expecting l)" s c
  | .nul => stateLiteral 'l' .endValue "in literal null (expecting l)" s c
  | .error => stateError s c

/-- The method `eof`: tells the scanner that the end of input has been
reached; returns `scanError` or `scanEnd`. -/
def Scanner.eof (s : Scanner) : Scanner × Scan :=
  if s.err ≠ none then (s, .error)
  else if s.endTop then (s, .end_)
  else
    let s := (s.call ' ').1
    if s.endTop then (s, .end_)
    else if s.err = none then
      ({ s with err := some (.syntaxError "unexpected end of JSON input") }, .error)
    else (s, .error)

/-- The loop of `checkValid`: stops at the first `scanError`. -/
def checkValidLoop : Scanner → GoString → Scanner
  | s, [] => s
  | s, c :: rest =>
    match s.call c with
    | (s1, .error) => s1
    | (s1, _) => checkValidLoop s1 rest

/-- Go `json.Valid(data)`, that is `checkValid(data, scan) == nil`. -/
def jsonValid (data : GoString) : Bool :=
  (checkValidLoop Scanner.reset data).eof.2 != Scan.error

/-! ## Package `encoding/json`: `Compact` and `Indent` (`indent.go`) -/

/-- The loop of `compact` (without escaping): the characters of `src` the
scanner does not skip, up to a `scanError`.  Go copies them in runs
`src[start:i]`; here they are copied one at a time. -/
def compactLoop : Scanner → GoString → Scanner × GoString
  | s, [] => (s, [])
  | s, c :: rest =>
    match s.call c with
    | (s1, v) =>
      if Scan.skipSpace.code ≤ v.code then
        if v = .error then (s1, [])
        else compactLoop s1 rest
      else
        let r := compactLoop s1 rest
        (r.1, c :: r.2)

/-- Go `json.Compact(dst, src)`: appends to `dst` the JSON-encoded `src` with
insignificant space characters elided; on error `dst` is left as it was. -/
def jsonCompact (dst src : GoString) : GoString × Option GoError :=
  let r := compactLoop Scanner.reset src
  let e := r.1.eof
  if e.2 = .error then (dst, e.1.err)
  else (dst ++ r.2, none)

/-- The function `newline` of `indent.go`. -/
def newline (pre indent : GoString) (depth : Int) : GoString :=
  '\n' :: (pre ++ (List.replicate depth.toNat indent).flatten)

/-- The body of the loop of `Indent` for a character `c` whose scan code `v`
is neither `scanSkipSpace` nor `scanError`: what is written to `dst`, and the
new values of the variables `needIndent` and `depth`. -/
def indentStep (pre indent : GoString) (needIndent : Bool) (depth : Int) (c : Char)
    (v : Scan) : GoString × Bool × Int :=
  let doIndent := needIndent && v != .endObject && v != .endArray
  let out := if doIndent then newline pre indent (depth + 1) else []
  let needIndent := if doIndent then false else needIndent
  let depth := if doIndent then depth + 1 else depth
  -- Emit semantically uninteresting bytes
  -- (in particular, punctuation in strings) unmodified.
  if v = .continue_ then (out ++ [c], needIndent, depth)
  -- Add spacing around real punctuation.
  else if c == '{' || c == '[' then
    -- delay indent so that empty object and array are formatted as {} and [].
    (out ++ [c], true, depth)
  else if c == ',' then (out ++ c :: newline pre indent depth, needIndent, depth)
  else if c == ':' then (out ++ [c, ' '], needIndent, depth)
  else if c == '}' || c == ']' then
    if needIndent then
      -- suppress indent in empty object/array
      (out ++ [c], false, depth)
    else (out ++ (newline pre indent (depth - 1) ++ [c]), needIndent, depth - 1)
  else (out ++ [c], needIndent, depth)

/-- The loop of `Indent`, with its variables `needIndent` and `depth`; the
result is the scanner and what was written to `dst`. -/
def indentLoop (pre indent : GoString) :
    Scanner → Bool → Int → GoString → Scanner × GoString
  | s, _, _, [] => (s, [])
  | s, needIndent, depth, c :: rest =>
    match s.call c with
    | (s1, v) =>
      if v = .skipSpace then indentLoop pre indent s1 needIndent depth rest
      else if v = .error then (s1, [])
      else
        let w := indentStep pre indent needIndent depth c v
        let r := indentLoop pre indent s1 w.2.1 w.2.2 rest
        (r.1, w.1 ++ r.2)

/-- Go `json.Indent(dst, src, prefix, indent)`: appends to `dst` an indented
form of the JSON-encoded `src`; on error `dst` is left as it was. -/
def jsonIndent (dst src pre indent : GoString) : GoString × Option GoError :=
  let r := indentLoop pre indent Scanner.reset false 0 src
  let e := r.1.eof
  if e.2 = .error then (dst, e.1.err)
  else (dst ++ r.2, none)

/-! ## `main.go`: `format` -/

/-- Go `ioutil.ReadFile(filename)`: the content of a regular file. -/
def readFile (fs : FileSystem) (filename : GoString) : Except GoError GoString :=
  match fs.stat filename with
  | some (_, .file content) => .ok content
  | some (_, .dir _) => .error (.pathError "read".toList filename)
  | none => .error (.pathError "open".toList filename)

/-- The body of `format` after the file has been read: the output buffer, or
the error. -/
def formatInput (input indent : GoString) : Except GoError GoString :=
  let output : GoString := []
  let input := bytesTrimSpace input
  if indent = formatCompact then
    match jsonCompact output input with
    | (_, some err) => .error err
    | (output, none) => .ok output
  else
    match jsonIndent output input [] indent with
    | (_, some err) => .error err
    | (output, none) => .ok (output ++ ['\n'])

/-- The function `format` of `main.go`. -/
def format (fs : FileSystem) (filename indent : GoString) : Except GoError GoString :=
  match readFile fs filename with
  | .error err => .error err
  | .ok input => formatInput input indent

/-! ## What `format` should return, in the words of the specification: JSON as
RFC 8259 defines it, its values, its grammar and its serialisations -/

/-- A JSON value.  A number and a string keep the text they are written with;
the members of an object keep their order and their duplicates. -/
inductive JValue
  | null
  | true_
  | false_
  | number (text : GoString)
  | string (body : GoString)
  | array (elements : List JValue)
  | object (members : List (GoString × JValue))

/-- The white space of the JSON grammar: space, horizontal tab, line feed and
carriage return. -/
def jsonWs (c : Char) : Bool :=
  c == ' ' || c == '\t' || c == '\n' || c == '\r'

/-- The text without its leading JSON white space. -/
def skipWs (s : GoString) : GoString := s.dropWhile jsonWs

/-- The grammar rule `DIGIT`. -/
def isDigit (c : Char) : Bool := '0' ≤ c && c ≤ '9'

/-- The grammar rule `HEXDIG`, in either case. -/
def isHexDigit (c : Char) : Bool :=
  isDigit c || ('a' ≤ c && c ≤ 'f') || ('A' ≤ c && c ≤ 'F')

/-- The characters that may follow the backslash of a two-character escape. -/
def isEscape (c : Char) : Bool :=
  c == '"' || c == '\\' || c == '/' || c == 'b' || c == 'f' || c == 'n' || c == 'r' || c == 't'

/-- The rest of a string after its opening quote: the body, made of unescaped
characters (not below U+0020), two-character escapes and `\uXXXX` escapes, up
to the closing quote, and the text after that quote. -/
def parseStringBody : GoString → Option (GoString × GoString)
  | [] => none
  | c :: rest =>
    if c = '"' then some ([], rest)
    else if c = '\\' then
      match rest with
      | [] => none
      | e :: rest1 =>
        if e = 'u' then
          match rest1 with
          | h1 :: h2 :: h3 :: h4 :: rest2 =>
            if isHexDigit h1 && isHexDigit h2 && isHexDigit h3 && isHexDigit h4 then
              match parseStringBody rest2 with
              | none => none
              | some (b, r) => some (c :: e :: h1 :: h2 :: h3 :: h4 :: b, r)
            else none
          | _ => none
        else if isEscape e then
          match parseStringBody rest1 with
          | none => none
          | some (b, r) => some (c :: e :: b, r)
        else none
    else if c.toNat < 0x20 then none
    else
      match parseStringBody rest with
      | none => none
      | some (b, r) => some (c :: b, r)

/-- The grammar rule `int = zero / ( digit1-9 *DIGIT )`. -/
def parseInt : GoString → Option (GoString × GoString)
  | [] => none
  | c :: rest =>
    if c = '0' then some ([c], rest)
    else if '1' ≤ c && c ≤ '9' then some (c :: rest.takeWhile isDigit, rest.dropWhile isDigit)
    else none

/-- The optional grammar rule `frac = decimal-point 1*DIGIT`. -/
def parseFrac : GoString → Option (GoString × GoString)
  | [] => some ([], [])
  | c :: rest =>
    if c = '.' then
      if rest.takeWhile isDigit = [] then none
      else some (c :: rest.takeWhile isDigit, rest.dropWhile isDigit)
    else some ([], c :: rest)

/-- The optional sign of an exponent. -/
def parseSign : GoString → GoString × GoString
  | [] => ([], [])
  | c :: rest => if c = '+' ∨ c = '-' then ([c], rest) else ([], c :: rest)

/-- The optional grammar rule `exp = e [ minus / plus ] 1*DIGIT`. -/
def parseExp : GoString → Option (GoString × GoString)
  | [] => some ([], [])
  | c :: rest =>
    if c = 'e' ∨ c = 'E' then
      if (parseSign rest).2.takeWhile isDigit = [] then none
      else some (c :: ((parseSign rest).1 ++ (parseSign rest).2.takeWhile isDigit),
        (parseSign rest).2.dropWhile isDigit)
    else some ([], c :: rest)

/-- The optional minus sign of a number. -/
def parseMinus : GoString → GoString × GoString
  | [] => ([], [])
  | c :: rest => if c = '-' then ([c], rest) else ([], c :: rest)

/-- The grammar rule `number = [ minus ] int [ frac ] [ exp ]`, on a text that
starts with the number: its text and what follows it. -/
def parseNumber (s : GoString) : Option (GoString × GoString) :=
  match parseInt (parseMinus s).2 with
  | none => none
  | some (int, s1) =>
    match parseFrac s1 with
    | none => none
    | some (frac, s2) =>
      match parseExp s2 with
      | none => none
      | some (exp, s3) => some ((parseMinus s).1 ++ (int ++ (frac ++ exp)), s3)

/-- One of the literal names `true`, `false` and `null`. -/
def parseLiteral (name : GoString) (v : JValue) (s : GoString) : Option (JValue × GoString) :=
  if name.isPrefixOf s then some (v, s.drop name.length) else none

mutual

/-- The grammar rule `value`, with white space before it: the value and the
text that follows it.  The fuel bounds the number of nested calls; the length
of the text is always enough. -/
def parseValue : Nat → GoString → Option (JValue × GoString)
  | 0, _ => none
  | fuel + 1, s =>
    match skipWs s with
    | [] => none
    | c :: rest =>
      if c = '\x7b' then
        match skipWs rest with
        | [] => none
        | c1 :: rest1 =>
          if c1 = '\x7d' then some (.object [], rest1)
          else
            match parseMember fuel rest with
            | none => none
            | some (m, rest2) =>
              match parseMembers fuel rest2 with
              | none => none
              | some (ms, rest3) => some (.object (m :: ms), rest3)
      else if c = '[' then
        match skipWs rest with
        | [] => none
        | c1 :: rest1 =>
          if c1 = ']' then some (.array [], rest1)
          else
            match parseValue fuel rest with
            | none => none
            | some (v, rest2) =>
              match parseElements fuel rest2 with
              | none => none
              | some (vs, rest3) => some (.array (v :: vs), rest3)
      else if c = '"' then
        match parseStringBody rest with
        | none => none
        | some (b, rest1) => some (.string b, rest1)
      else if c = '-' ∨ isDigit c = true then
        match parseNumber (c :: rest) with
        | none => none
        | some (n, rest1) => some (.number n, rest1)
      else if c = 't' then parseLiteral "true".toList .true_ (c :: rest)
      else if c = 'f' then parseLiteral "false".toList .false_ (c :: rest)
      else if c = 'n' then parseLiteral "null".toList .null (c :: rest)
      else none

/-- The elements of an array after the first one, each after a comma, up to
the closing bracket. -/
def parseElements : Nat → GoString → Option (List JValue × GoString)
  | 0, _ => none
  | fuel + 1, s =>
    match skipWs s with
    | [] => none
    | c :: rest =>
      if c = ']' then some ([], rest)
      else if c = ',' then
        match parseValue fuel rest with
        | none => none
        | some (v, rest1) =>
          match parseElements fuel rest1 with
          | none => none
          | some (vs, rest2) => some (v :: vs, rest2)
      else none

/-- The grammar rule `member = string name-separator value`, with white space
before the name and before the colon. -/
def parseMember : Nat → GoString → Option ((GoString × JValue) × GoString)
  | 0, _ => none
  | fuel + 1, s =>
    match skipWs s with
    | [] => none
    | c :: rest =>
      if c = '"' then
        match parseStringBody rest with
        | none => none
        | some (k, rest1) =>
          match skipWs rest1 with
          | [] => none
          | c1 :: rest2 =>
            if c1 = ':' then
              match parseValue fuel rest2 with
              | none => none
              | some (v, rest3) => some ((k, v), rest3)
            else none
      else none

/-- The members of an object after the first one, each after a comma, up to
the closing brace. -/
def parseMembers : Nat → GoString → Option (List (GoString × JValue) × GoString)
  | 0, _ => none
  | fuel + 1, s =>
    match skipWs s with
    | [] => none
    | c :: rest =>
      if c = '\x7d' then some ([], rest)
      else if c = ',' then
        match parseMember fuel rest with
        | none => none
        | some (m, rest1) =>
          match parseMembers fuel rest1 with
          | none => none
          | some (ms, rest2) => some (m :: ms, rest2)
      else none

end

/-- The grammar rule `JSON-text = ws value ws`: the value a text denotes, or
none when the text is not syntactically valid JSON. -/
def parseJSON (t : GoString) : Option JValue :=
  match parseValue (t.length + 1) t with
  | none => none
  | some (v, rest) => if skipWs rest = [] then some v else none

mutual

/-- The number of arrays and objects around the most deeply nested place of a
value. -/
def JValue.depth : JValue → Nat
  | .array vs => depthElements vs + 1
  | .object ms => depthMembers ms + 1
  | _ => 0

/-- The largest depth among the elements of an array. -/
def depthElements : List JValue → Nat
  | [] => 0
  | v :: vs => max v.depth (depthElements vs)

/-- The largest depth among the values of the members of an object. -/
def depthMembers : List (GoString × JValue) → Nat
  | [] => 0
  | (_, v) :: ms => max v.depth (depthMembers ms)

end

/-- A string in its quotes. -/
def quoted (body : GoString) : GoString := '"' :: (body ++ ['"'])

mutual

/-- The compact serialisation of a value: its tokens with no white space
between them. -/
def serializeCompact : JValue → GoString
  | .null => "null".toList
  | .true_ => "true".toList
  | .false_ => "false".toList
  | .number text => text
  | .string body => quoted body
  | .array [] => "[]".toList
  | .array (v :: vs) => '[' :: (serializeCompact v ++ (compactElements vs ++ [']']))
  | .object [] => ['\x7b', '\x7d']
  | .object ((k, v) :: ms) =>
    '\x7b' :: (quoted k ++ ':' :: (serializeCompact v ++ (compactMembers ms ++ ['\x7d'])))

/-- The elements of an array after the first one, each after a comma. -/
def compactElements : List JValue → GoString
  | [] => []
  | v :: vs => ',' :: (serializeCompact v ++ compactElements vs)

/-- The members of an object after the first one, each after a comma. -/
def compactMembers : List (GoString × JValue) → GoString
  | [] => []
  | (k, v) :: ms => ',' :: (quoted k ++ ':' :: (serializeCompact v ++ compactMembers ms))

end

/-- The start of a line at nesting depth `d`: a line feed and `d` copies of
the indent. -/
def indentedLine (indent : GoString) (d : Nat) : GoString :=
  '\n' :: (List.replicate d indent).flatten

mutual

/-- The indented serialisation of a value that stands at nesting depth `d`:
every element and member on a line of its own, one copy of the indent deeper
than the array or object that holds it; a colon and a space after a member
name; an empty array or object on one line. -/
def serializeIndented (indent : GoString) : Nat → JValue → GoString
  | _, .null => "null".toList
  | _, .true_ => "true".toList
  | _, .false_ => "false".toList
  | _, .number text => text
  | _, .string body => quoted body
  | _, .array [] => "[]".toList
  | d, .array (v :: vs) =>
    '[' :: (indentedLine indent (d + 1) ++ (serializeIndented indent (d + 1) v ++
      (indentedElements indent (d + 1) vs ++ (indentedLine indent d ++ [']']))))
  | _, .object [] => ['\x7b', '\x7d']
  | d, .object ((k, v) :: ms) =>
    '\x7b' :: (indentedLine indent (d + 1) ++ (quoted k ++ ':' :: ' ' ::
      (serializeIndented indent (d + 1) v ++
        (indentedMembers indent (d + 1) ms ++ (indentedLine indent d ++ ['\x7d'])))))

/-- The elements of an array after the first one, at depth `d`. -/
def indentedElements (indent : GoString) : Nat → List JValue → GoString
  | _, [] => []
  | d, v :: vs =>
    ',' :: (indentedLine indent d ++ (serializeIndented indent d v ++
      indentedElements indent d vs))

/-- The members of an object after the first one, at depth `d`. -/
def indentedMembers (indent : GoString) : Nat → List (GoString × JValue) → GoString
  | _, [] => []
  | d, (k, v) :: ms =>
    ',' :: (indentedLine indent d ++ (quoted k ++ ':' :: ' ' ::
      (serializeIndented indent d v ++ indentedMembers indent d ms)))

end

/-! ## `main.go`: the program state, `formatFile`, `formatPath`, `main` -/

/-- The text `err.Error()` of an error; an `*os.PathError` is rendered without
the cause the system reports. -/
def GoError.text : GoError → GoString
  | .skipDir => "skip this directory".toList
  | .pathError op path => op ++ ' ' :: path
  | .syntaxError msg => msg.toList
  | .errorString msg => msg

/-- The constant `helpText`, abridged to its title and to the example with a
directory as last argument. -/
def helpText : GoString :=
  ("jsonf - A simple JSON formatter\n\n" ++
   "  jsonf -r file1 file2 dir    Rewrite file1, file2, and all .json files under dir\n").toList

/-- The state the program acts on: the file system, what was written to the
standard output and error, and the global `exitCode`.  The field `formatted`
is a record kept for the statement of theorems only: one item per call of
`formatFile`, the file name and whether the call returned an error. -/
structure State where
  fs : FileSystem
  stdout : GoString
  stderr : GoString
  exitCode : Nat
  formatted : List (GoString × Bool)

/-- The state when `main` starts: `exitCode = 0`, nothing written. -/
def State.init (fs : FileSystem) : State :=
  { fs := fs, stdout := [], stderr := [], exitCode := 0, formatted := [] }

/-- The function `printError` of `main.go`. -/
def printError (err : GoError) (st : State) : State :=
  { st with stderr := st.stderr ++ err.text ++ ['\n'], exitCode := 1 }

/-- Go `ioutil.WriteFile(filename, data, perm)`: replaces the content of the
file.  The object found at the path of the file is replaced; a directory
that holds the file keeps its entry, whose name and kind do not change. -/
def writeFile (fs : FileSystem) (filename data : GoString) : FileSystem × Option GoError :=
  match fs.writable filename, fs.stat filename with
  | true, some (name, .file _) =>
    ({ fs with stat := fun p => if p = filename then some (name, .file data) else fs.stat p },
      none)
  | true, none =>
    ({ fs with stat := fun p => if p = filename then some (filename, .file data)
                                else fs.stat p }, none)
  | _, _ => (fs, some (.pathError "open".toList filename))

/-- The function `formatFile` of `main.go`, before the call is recorded. -/
def formatFileCall (filename indent : GoString) (replace : Bool) (st : State) :
    State × Option GoError :=
  match format st.fs filename (indentString indent) with
  | .error err => (st, some err)
  | .ok data =>
    if replace then
      match st.fs.stat filename with
      | none => (st, some (.pathError "stat".toList filename))
      | some _ =>
        match writeFile st.fs filename data with
        | (_, some err) => (st, some err)
        | (fs1, none) => ({ st with fs := fs1 }, none)
    else
      ({ st with stdout := st.stdout ++ data }, none)

/-- The function `formatFile` of `main.go`; the call is recorded in
`formatted`. -/
def formatFile (filename indent : GoString) (replace : Bool) (st : State) :
    State × Option GoError :=
  match formatFileCall filename indent replace st with
  | (st1, err) => ({ st1 with formatted := st1.formatted ++ [(filename, err.isSome)] }, err)

/-- The function `header` of `main.go`. -/
def header (filename : GoString) (st : State) : State :=
  { st with stdout := st.stdout ++ "--- ".toList ++ filename ++ ['\n'] }

/-- The loop of `formatPath` over the files of a directory. -/
def formatFiles (indent : GoString) (replace : Bool) : List GoString → State → State
  | [], st => st
  | f :: rest, st =>
    let st := header f st
    match formatFile f indent replace st with
    | (st1, some err) => formatFiles indent replace rest (printError err st1)
    | (st1, none) => formatFiles indent replace rest st1

/-- The function `formatPath` of `main.go`; `arg0` is `flag.Args()[0]`. -/
def formatPath (join : GoString → GoString → GoString) (arg0 : GoString)
    (path indent : GoString) (replace recurse headers : Bool) (st : State) :
    State × Option GoError :=
  if isDir st.fs path then
    match listJSONFiles join st.fs arg0 recurse with
    | (_, some err) => (st, some err)
    | (files, none) =>
      let errors := 0
      let st := formatFiles indent replace files st
      if errors > 0 then
        (st, some (.errorString ("Encountered ".toList ++ (Nat.repr errors).toList ++
          " errors in ".toList ++ path)))
      else (st, none)
  else
    let st := if headers then header path st else st
    match formatFile path indent replace st with
    | (st1, some err) => (st1, some err)
    | (st1, none) => (st1, none)

/-- The command line after `flag.Parse()`: the flags `-w`, `-r`, `-c`, `-i`,
`-h` and the remaining arguments `flag.Args()`.  A command line that
`flag.Parse()` rejects ends the process inside the package `flag`, before
`wrappedMain` goes on, and is not described here. -/
structure Flags where
  replace : Bool
  recurse : Bool
  compact : Bool
  indent : GoString
  help : Bool
  args : List GoString

/-- How `wrappedMain` ends: by `os.Exit(code)`, or by returning an error. -/
inductive Outcome
  | exited (code : Nat)
  | returned (err : Option GoError)

/-- The loop of `wrappedMain` over the arguments. -/
def formatPaths (join : GoString → GoString → GoString) (arg0 indent : GoString)
    (replace recurse headers : Bool) : List GoString → State → State
  | [], st => st
  | path :: rest, st =>
    match formatPath join arg0 path indent replace recurse headers st with
    | (st1, some err) =>
      formatPaths join arg0 indent replace recurse headers rest (printError err st1)
    | (st1, none) => formatPaths join arg0 indent replace recurse headers rest st1

/-- The function `wrappedMain` of `main.go`, after `flag.Parse()`. -/
def wrappedMain (join : GoString → GoString → GoString) (flags : Flags) (st : State) :
    State × Outcome :=
  if flags.help then
    ({ st with stdout := st.stdout ++ helpText ++ ['\n'] }, .exited 0)
  else
    let indent := if flags.compact then formatCompact else flags.indent
    match flags.args with
    | [] => (st, .returned (some (.errorString helpText)))
    | arg0 :: more =>
      let headers := decide ((arg0 :: more).length > 1)
      (formatPaths join arg0 indent flags.replace flags.recurse headers (arg0 :: more) st,
        .returned none)

/-- The function `main` of `main.go`: the final state and the exit status. -/
def main (join : GoString → GoString → GoString) (flags : Flags) (fs : FileSystem) :
    State × Nat :=
  match wrappedMain join flags (State.init fs) with
  | (st, .exited code) => (st, code)
  | (st, .returned (some err)) => ({ st with stderr := st.stderr ++ err.text ++ ['\n'] }, 1)
  | (st, .returned none) => (st, st.exitCode)

/-- A file system for the documented example `jsonf -r file1 file2 dir`: two
JSON files, and a directory holding `x.json`. -/
def exampleFS : FileSystem where
  stat := fun p =>
    if p = "file1".toList then some ("file1".toList, .file "[1]".toList)
    else if p = "file2".toList then some ("file2".toList, .file "[2]".toList)
    else if p = "dir".toList then
      some ("dir".toList, .dir [("x.json".toList, .file "[3]".toList)])
    else if p = "dir/x.json".toList then some ("x.json".toList, .file "[3]".toList)
    else none
  writable := fun _ => true

/-- The command line `jsonf -r file1 file2 dir`. -/
def exampleFlags : Flags :=
  { replace := false, recurse := true, compact := false, indent := "  ".toList, help := false,
    args := ["file1".toList, "file2".toList, "dir".toList] }

/-- The content of the test fixture `icecream.json`. -/
def icecream : GoString :=
  "\x7b\"icecream\":[\"chocolate\",\"strawberry\",\"vanilla\"]\x7d\n".toList

/-- A file system holding the test fixture `test-fixtures/icecream.json`. -/
def icecreamFS : FileSystem where
  stat := fun p =>
    if p = "test-fixtures/icecream.json".toList then some ("icecream.json".toList, .file icecream)
    else none
  writable := fun _ => true

/-- The value `expectedFormatSpaces` of `main_test.go`. -/
def expectedFormatSpaces : GoString :=
  ("\x7b\n  \"icecream\": [\n    \"chocolate\",\n    \"strawberry\",\n" ++
   "    \"vanilla\"\n  ]\n\x7d\n").toList

/-- The value `expectedFormatTabs` of `main_test.go`. -/
def expectedFormatTabs : GoString :=
  ("\x7b\n\t\"icecream\": [\n\t\t\"chocolate\",\n\t\t\"strawberry\",\n" ++
   "\t\t\"vanilla\"\n\t]\n\x7d\n").toList

/-- The value `expectedFormatCompact` of `main_test.go`. -/
def expectedFormatCompact : GoString :=
  "\x7b\"icecream\":[\"chocolate\",\"strawberry\",\"vanilla\"]\x7d".toList

/-- The text of 10001 opening brackets followed by 10001 closing brackets:
an array in an array and so on, 10001 deep. -/
def deepArray : GoString := List.replicate 10001 '[' ++ List.replicate 10001 ']'

/-- The value of `n + 1` arrays nested in one another. -/
def deepValue : Nat → JValue
  | 0 => .array []
  | n + 1 => .array [deepValue n]

/-- A file system holding `deep.json`. -/
def deepFS : FileSystem where
  stat := fun p =>
    if p = "deep.json".toList then some ("deep.json".toList, .file deepArray) else none
  writable := fun _ => true

/-- The value that the test fixture `icecream.json` denotes. -/
def icecreamValue : JValue :=
  .object [("icecream".toList,
    .array [.string "chocolate".toList, .string "strawberry".toList, .string "vanilla".toList])]

/-- A JSON text with white space around its tokens, a number with a fraction
and an exponent, an escape in a string, and an empty object. -/
def spaced : GoString :=
  " \x7b \"a\" : [ 1 , -2.5e+3 , true ] ,\n\t\"b\\n\" : \x7b \x7d \x7d\n".toList

/-- The value that the text `spaced` denotes. -/
def spacedValue : JValue :=
  .object [("a".toList, .array [.number "1".toList, .number "-2.5e+3".toList, .true_]),
    ("b\\n".toList, .object [])]

/-- A file system holding the text `spaced` as `spaced.json`, and as
`comma.json` an array with a comma before its closing bracket, which the
grammar does not allow. -/
def spacedFS : FileSystem where
  stat := fun p =>
    if p = "spaced.json".toList then some ("spaced.json".toList, .file spaced)
    else if p = "comma.json".toList then some ("comma.json".toList, .file "[1,]".toList)
    else none
  writable := fun _ => true

/-! ## Notions used to state and prove the theorems -/

/-- The steps in which the scanner skips a space and stays as it is. -/
def Step.stable : Step → Bool
  | .beginValueOrEmpty | .beginValue | .beginStringOrEmpty | .beginString => true
  | _ => false

/-- The steps of a number that ends at the first character not part of it. -/
def Step.numEnd : Step → Bool
  | .s1 | .s0 | .dot0 | .e0 => true
  | _ => false

/-- The steps inside a literal where the next character is part of it. -/
def Step.inner : Step → Bool
  | .inString | .inStringEsc | .inStringEscU | .inStringEscU1 | .inStringEscU12
  | .inStringEscU123 | .neg | .dot | .e | .eSign
  | .t | .tr | .tru | .f | .fa | .fal | .fals | .n | .nu | .nul => true
  | _ => false

/-- The steps that follow the first character of a literal. -/
def Step.literalStart : Step → Bool
  | .inString | .neg | .s0 | .s1 | .t | .f | .n => true
  | _ => false

/-- The punctuation on which `Indent` acts. -/
def isPunct (c : Char) : Bool :=
  c == '{' || c == '[' || c == ',' || c == ':' || c == '}' || c == ']'

/-- What holds of every scanner reached from `reset`: an error state carries
an error, and `endTop` is set only at the end of the top-level value. -/
def Scanner.WF (s : Scanner) : Prop :=
  (s.step = .error → s.err ≠ none) ∧ (s.endTop = true → s.step = .endTop ∨ s.step = .error)

/-- The scanner skips every space and stays as it is. -/
def Scanner.Skips (s : Scanner) : Prop :=
  ∀ w, isSpace w = true → s.call w = (s, .skipSpace)

/-- The run of the scanner over `src` meets neither `scanError` nor
`scanEnd`. -/
def cleanRun : Scanner → GoString → Bool
  | _, [] => true
  | s, c :: rest =>
    match s.call c with
    | (s1, v) => v != .error && v != .end_ && cleanRun s1 rest

/-- Two scanners that read the same significant characters, the second one
possibly still in a number that the first one has left on a space. -/
def Sim (s s' : Scanner) : Prop :=
  s' = s ∨ (s.step = .endValue ∧ s.parseState ≠ [] ∧
    ∃ st, st.numEnd = true ∧ s' = { s with step := st })

/-- The scanner is at a place where a closing bracket may come: at the start
of an empty object or array, or after a value inside one. -/
def Closing (s : Scanner) (c : Char) : Prop :=
  s.step.stable = true ∨
  ((s.step = .endValue ∨ s.step.numEnd = true) ∧ s.parseState ≠ [] ∧
    s.call c = stateEndValue s c)

/-- What the scan code `v` and the scanner `s1` returned by `s.call c` tell
about the character `c` and about the scanners. -/
structure CallSpec (s : Scanner) (c : Char) (s1 : Scanner) (v : Scan) : Prop where
  skip : v = .skipSpace → isSpace c = true ∧
    ((s1 = s ∧ (s.step.stable = true ∨ (s.step = .endValue ∧ s.parseState ≠ []))) ∨
     (s.step.numEnd = true ∧ s.parseState ≠ [] ∧ s1 = { s with step := .endValue }))
  literal : v = .beginLiteral → isSpace c = false ∧ isPunct c = false
  beginObject : v = .beginObject → c = '{' ∧ s1.step.stable = true
  beginArray : v = .beginArray → c = '[' ∧ s1.step.stable = true
  objectKey : v = .objectKey → c = ':' ∧ s1.step.stable = true
  objectValue : v = .objectValue → c = ',' ∧ s1.step.stable = true
  arrayValue : v = .arrayValue → c = ',' ∧ s1.step.stable = true
  endObject : v = .endObject → c = '}' ∧ Closing s c
  endArray : v = .endArray → c = ']' ∧ Closing s c
  end_ : v = .end_ → s1.err ≠ none ∨ (isSpace c = true ∧ s1.step = .endTop)
  error : v = .error → s.WF → s1.err ≠ none
  errMono : s.err ≠ none → s1.err ≠ none
  wf : s.WF → s1.WF

/-- The round trip: formatting the content `c` with the indent `i`, compacting
the result and formatting the compacted text again with `i` all succeed, and
the last output is the first one. -/
def RoundTrip (c i : GoString) : Prop :=
  ∃ p k, formatInput c i = .ok p ∧ formatInput p formatCompact = .ok k ∧
    formatInput k i = .ok p

/-- A text without white space, as defined by Unicode, at either end. -/
def Trimmed (x : GoString) : Prop :=
  (∀ a, x.head? = some a → unicodeIsSpace a = false) ∧
  (∀ b, x.getLast? = some b → unicodeIsSpace b = false)

/-- The relation between the global `exitCode` and the recorded calls that
every step of `main` maintains. -/
def ExitInv (st : State) : Prop :=
  (st.exitCode = 1 ↔ ∃ e ∈ st.formatted, e.2 = true) ∧ (st.exitCode = 0 ∨ st.exitCode = 1)

/-! ## Notions used to compare the scanner with the grammar -/

/-- The scanner in the step `st` with the stack `σ`, before any error and
before the end of the top-level value. -/
def scanAt (st : Step) (σ : List ParseState) : Scanner :=
  { step := st, endTop := false, parseState := σ, err := none }

/-- The scanner after the closing bracket of a top-level array or object. -/
def scanDone : Scanner :=
  { step := .endTop, endTop := true, parseState := [], err := none }

/-- The scanner after the closing bracket of an array or object held by the
stack `σ`. -/
def afterPop (σ : List ParseState) : Scanner :=
  if σ.length = 0 then scanDone else scanAt .endValue σ

/-- The scanner started in `s` does not accept the text `y`: it meets an
error in it or at its end. -/
def Rejected (s : Scanner) (y : GoString) : Prop :=
  (checkValidLoop s y).eof.2 = .error

/-- The loops of `Compact` and of `Indent` (with the indent `i`), started in
the scanner `s` and the variables `ni`, `d` on the text `y`, come to the
scanner `s'` and the variables `ni'`, `d'` with the text `rest` left to read,
having written `oc` and `oi`. -/
structure RunsTo (i : GoString) (s : Scanner) (ni : Bool) (d : Nat) (y : GoString)
    (s' : Scanner) (ni' : Bool) (d' : Nat) (rest : GoString) (oc oi : GoString) : Prop where
  compact : compactLoop s y = ((compactLoop s' rest).1, oc ++ (compactLoop s' rest).2)
  indent : indentLoop [] i s ni (d : Int) y
    = ((indentLoop [] i s' ni' (d' : Int) rest).1,
       oi ++ (indentLoop [] i s' ni' (d' : Int) rest).2)

/-- The scanner `s'` has read a value held by the stack `σ`, and `rest`
follows: it is after a string, a literal name or a closing bracket, or in a
number that the first character of `rest` does not continue. -/
def After (s' : Scanner) (σ : List ParseState) (rest : GoString) : Prop :=
  (∃ st, s' = scanAt st σ ∧ (st = .endValue ∨ (st.numEnd = true ∧
    ∀ c r, rest = c :: r → (scanAt st σ).call c = stateEndValue (scanAt st σ) c))) ∨
  (σ = [] ∧ s' = scanDone)

/-- The depth of the first element of an array or object, or of a value
elsewhere: `Indent` goes one level deeper before the first element. -/
def bump (ni : Bool) (d : Nat) : Nat := if ni then d + 1 else d

/-- The line start that `Indent` writes before the first element of an array
or object. -/
def lead (i : GoString) (ni : Bool) (d : Nat) : GoString :=
  if ni then indentedLine i (d + 1) else []

/-- The steps inside a `\u` escape and the step after each. -/
def hexNext : Step → Option Step
  | .inStringEscU => some .inStringEscU1
  | .inStringEscU1 => some .inStringEscU12
  | .inStringEscU12 => some .inStringEscU123
  | .inStringEscU123 => some .inString
  | _ => none

/-- What the scanner does on the rest `y` of a string, given what the
grammar finds in it. -/
def StringGoal (i : GoString) (σ : List ParseState) (d : Nat) (y : GoString) :
    Option (GoString × GoString) → Prop
  | none => Rejected (scanAt .inString σ) y
  | some (b, rest) => rest <:+ y ∧ rest.length < y.length ∧
      RunsTo i (scanAt .inString σ) false d y (scanAt .endValue σ) false d rest
        (b ++ ['"']) (b ++ ['"'])

/-- The steps inside a literal name: the character each expects and the step
that follows. -/
def litNext : Step → Option (Char × Step)
  | .t => some ('r', .tr)
  | .tr => some ('u', .tru)
  | .tru => some ('e', .endValue)
  | .f => some ('a', .fa)
  | .fa => some ('l', .fal)
  | .fal => some ('s', .fals)
  | .fals => some ('e', .endValue)
  | .n => some ('u', .nu)
  | .nu => some ('l', .nul)
  | .nul => some ('l', .endValue)
  | _ => none

/-- The characters `es` lead the scanner from the step `st` to the step
`fin` inside a literal name. -/
def litChain : Step → List Char → Step → Prop
  | st, [], fin => st = fin
  | st, e :: es, fin => ∃ nx, litNext st = some (e, nx) ∧ litChain nx es fin

/-- The optional fraction and exponent of a number. -/
def parseFracExp (z : GoString) : Option (GoString × GoString) :=
  match parseFrac z with
  | none => none
  | some (frac, s2) =>
    match parseExp s2 with
    | none => none
    | some (ex, s3) => some (frac ++ ex, s3)

/-- What the scanner does from the step `st` of a number on the text `y`,
given what the grammar finds in it. -/
def NumGoal (i : GoString) (σ : List ParseState) (st : Step) (d : Nat) (y : GoString) :
    Option (GoString × GoString) → Prop
  | none => Rejected (scanAt st σ) y
  | some (n, rest) => rest <:+ y ∧ ∃ st', st'.numEnd = true ∧
      (∀ c r, rest = c :: r → (scanAt st' σ).call c = stateEndValue (scanAt st' σ) c) ∧
      RunsTo i (scanAt st σ) false d y (scanAt st' σ) false d rest n n

/-- The number steps from which an exponent may start. -/
def Step.beforeExp : Step → Bool
  | .s0 | .s1 | .dot0 => true
  | _ => false

/-- The integer part, fraction and exponent of a number after its minus
sign. -/
def parseIntFracExp (z : GoString) : Option (GoString × GoString) :=
  match parseInt z with
  | none => none
  | some (int, s1) =>
    match parseFracExp s1 with
    | none => none
    | some (fe, s3) => some (int ++ fe, s3)

/-- What the scanner, started in `s` with the stack `σ` before a value, does
on the text `y`, given what the grammar finds in it: it rejects a text without
a value and a value nested too deep; else it reads the value, and `Compact`
and `Indent` write its serialisations. -/
def ValueGoal (i : GoString) (s : Scanner) (σ : List ParseState) (ni : Bool) (d : Nat)
    (y : GoString) : Option (JValue × GoString) → Prop
  | none => Rejected s y
  | some (v, rest) =>
      if σ.length + v.depth ≤ maxNestingDepth then
        rest <:+ y ∧ rest.length < y.length ∧ ∃ s', After s' σ rest ∧
          RunsTo i s ni d y s' false (bump ni d) rest (serializeCompact v)
            (lead i ni d ++ serializeIndented i (bump ni d) v)
      else Rejected s y

/-- What the scanner does on a number at the place of a value. -/
def NumberGoal (i : GoString) (s : Scanner) (σ : List ParseState) (ni : Bool) (d : Nat)
    (y : GoString) : Option (GoString × GoString) → Prop
  | none => Rejected s y
  | some (n, rest) => rest <:+ y ∧ rest.length < y.length ∧ ∃ st', st'.numEnd = true ∧
      (∀ c r, rest = c :: r → (scanAt st' σ).call c = stateEndValue (scanAt st' σ) c) ∧
      RunsTo i s ni d y (scanAt st' σ) false (bump ni d) rest n (lead i ni d ++ n)

/-- What the scanner, after an element of an array held by the stack `τ`,
does on the text `y`, given the elements the grammar finds up to the closing
bracket. -/
def ElementsGoal (i : GoString) (s' : Scanner) (τ : List ParseState) (d : Nat) (y : GoString) :
    Option (List JValue × GoString) → Prop
  | none => Rejected s' y
  | some (vs, rest) =>
      if τ.length + 1 + depthElements vs ≤ maxNestingDepth then
        rest <:+ y ∧ rest.length < y.length ∧
          RunsTo i s' false (d + 1) y (afterPop τ) false d rest (compactElements vs ++ [']'])
            (indentedElements i (d + 1) vs ++ (indentedLine i d ++ [']']))
      else Rejected s' y

/-- What the scanner, before a member of an object held by the stack `τ`,
does on the text `y`, given the member the grammar finds. -/
def MemberGoal (i : GoString) (s : Scanner) (τ : List ParseState) (ni : Bool) (d : Nat)
    (y : GoString) : Option ((GoString × JValue) × GoString) → Prop
  | none => Rejected s y
  | some (m, rest) =>
      if τ.length + 1 + m.2.depth ≤ maxNestingDepth then
        rest <:+ y ∧ rest.length < y.length ∧ ∃ s', After s' (.objectValue :: τ) rest ∧
          RunsTo i s ni d y s' false (bump ni d) rest
            (quoted m.1 ++ ':' :: serializeCompact m.2)
            (lead i ni d ++ (quoted m.1 ++ ':' :: ' ' :: serializeIndented i (bump ni d) m.2))
      else Rejected s y

/-- What the scanner, after a member of an object held by the stack `τ`,
does on the text `y`, given the members the grammar finds up to the closing
brace. -/
def MembersGoal (i : GoString) (s' : Scanner) (τ : List ParseState) (d : Nat) (y : GoString) :
    Option (List (GoString × JValue) × GoString) → Prop
  | none => Rejected s' y
  | some (ms, rest) =>
      if τ.length + 1 + depthMembers ms ≤ maxNestingDepth then
        rest <:+ y ∧ rest.length < y.length ∧
          RunsTo i s' false (d + 1) y (afterPop τ) false d rest (compactMembers ms ++ ['\x7d'])
            (indentedMembers i (d + 1) ms ++ (indentedLine i d ++ ['\x7d']))
      else Rejected s' y

/-- The scanner follows `parseValue` with the fuel `fuel`. -/
def ValueSim (i : GoString) (fuel : Nat) : Prop :=
  ∀ (y : GoString) (σ : List ParseState) (st : Step) (ni : Bool) (d : Nat),
    σ.length ≤ maxNestingDepth →
    (st = .beginValue ∨ (st = .beginValueOrEmpty ∧ ∀ r, skipWs y ≠ ']' :: r)) →
    y.length < fuel →
    ValueGoal i (scanAt st σ) σ ni d y (parseValue fuel y)

/-- The scanner follows `parseElements` with the fuel `fuel`. -/
def ElementsSim (i : GoString) (fuel : Nat) : Prop :=
  ∀ (y : GoString) (τ : List ParseState) (s' : Scanner) (d : Nat),
    τ.length + 1 ≤ maxNestingDepth → After s' (.arrayValue :: τ) y → y.length < fuel →
    ElementsGoal i s' τ d y (parseElements fuel y)

/-- The scanner follows `parseMember` with the fuel `fuel`. -/
def MemberSim (i : GoString) (fuel : Nat) : Prop :=
  ∀ (y : GoString) (τ : List ParseState) (st : Step) (ni : Bool) (d : Nat),
    τ.length + 1 ≤ maxNestingDepth →
    (st = .beginString ∨ (st = .beginStringOrEmpty ∧ ∀ r, skipWs y ≠ '\x7d' :: r)) →
    y.length < fuel →
    MemberGoal i (scanAt st (.objectKey :: τ)) τ ni d y (parseMember fuel y)

/-- The scanner follows `parseMembers` with the fuel `fuel`. -/
def MembersSim (i : GoString) (fuel : Nat) : Prop :=
  ∀ (y : GoString) (τ : List ParseState) (s' : Scanner) (d : Nat),
    τ.length + 1 ≤ maxNestingDepth → After s' (.objectValue :: τ) y → y.length < fuel →
    MembersGoal i s' τ d y (parseMembers fuel y)


/-! ## Lemmas on `strings` -/

theorem stringsContains_singleton (c : Char) (s : GoString) :
    stringsContains s [c] = true ↔ c ∈ s := by
  induction s with
  | nil => simp [stringsContains, stringsHasPrefix]
  | cons d s ih =>
    simp only [stringsContains, stringsHasPrefix, Bool.and_true, Bool.or_eq_true, beq_iff_eq,
      List.mem_cons, ih]
    constructor
    · rintro (h | h)
      · exact Or.inl h.symm
      · exact Or.inr h
    · rintro (h | h)
      · exact Or.inl h.symm
      · exact Or.inr h

theorem replaceScan_singleton (a b : Char) (s : GoString) :
    replaceScan [a] [b] 0 s = s.map (fun c => if c = a then b else c) := by
  induction s with
  | nil => simp [replaceScan]
  | cons d s ih =>
    by_cases h : d = a
    · simp [replaceScan, stringsHasPrefix, h, ih]
    · simp [replaceScan, stringsHasPrefix, h, ih]

theorem stringsReplace_singleton (a b : Char) (s : GoString) :
    stringsReplace s [a] [b] = s.map (fun c => if c = a then b else c) := by
  simp [stringsReplace, replaceScan_singleton]

theorem indentString_of_not_mem (x : GoString) (h : 'c' ∉ x) :
    indentString x = x.map indentChar := by
  have hc : stringsContains x formatCompact = false := by
    rw [Bool.eq_false_iff]
    intro hh
    exact h ((stringsContains_singleton 'c' x).1 hh)
  simp only [indentString, hc, formatString, formatTab, stringsReplace_singleton, List.map_map]
  simp only [Bool.false_eq_true, if_false]
  apply List.map_congr_left
  intro c _
  simp only [Function.comp, indentChar]
  by_cases h1 : c = 's'
  · subst h1; decide
  · simp [h1]

theorem indentChar_ne_s (c : Char) : indentChar c ≠ 's' := by
  unfold indentChar
  split
  · decide
  · split
    · decide
    · assumption

theorem indentChar_ne_t (c : Char) : indentChar c ≠ 't' := by
  unfold indentChar
  split
  · decide
  · split
    · decide
    · assumption

/-! ## Claims on `indentString` -/

/-- C1: every string that contains the character `c`, at any position and
whatever else it contains, is resolved by `indentString` to exactly the
compact marker `"c"`. -/
theorem indentString_compact (x : GoString) (h : 'c' ∈ x) :
    indentString x = ['c'] := by
  have hc : stringsContains x formatCompact = true := (stringsContains_singleton 'c' x).2 h
  simp only [indentString, hc, if_true]
  rfl

theorem indentString_compact_witness :
    'c' ∈ "cststs".toList ∧ indentString "cststs".toList = ['c'] :=
  ⟨by decide, indentString_compact "cststs".toList (by decide)⟩

/-- C2: on a string without the character `c`, `indentString` is the
character-by-character image under `s` to space, `t` to tab, any other
character to itself; the result has the length of the input and contains
neither `s` nor `t`. -/
theorem indentString_literal (x : GoString) (h : 'c' ∉ x) :
    indentString x = x.map indentChar ∧
    (indentString x).length = x.length ∧
    's' ∉ indentString x ∧ 't' ∉ indentString x := by
  rw [indentString_of_not_mem x h]
  refine ⟨rfl, by simp, ?_, ?_⟩
  · intro hm
    obtain ⟨c, _, hc⟩ := List.mem_map.1 hm
    exact indentChar_ne_s c hc
  · intro hm
    obtain ⟨c, _, hc⟩ := List.mem_map.1 hm
    exact indentChar_ne_t c hc

theorem indentString_literal_witness :
    'c' ∉ "sts ".toList ∧ indentString "sts ".toList = " \t  ".toList :=
  ⟨by decide, by
    have h := (indentString_literal "sts ".toList (by decide)).1
    rw [h]; decide⟩


/-! ## Lemmas on the directory walk -/

@[simp] theorem Node.isDir_file (c : GoString) : (Node.file c).isDir = false := rfl

@[simp] theorem Node.isDir_dir (es : List (GoString × Node)) : (Node.dir es).isDir = true := rfl

theorem sortByName_map {α β : Type} (f : GoString × α → β) (l : List (GoString × α)) :
    sortByName (l.map (fun e => (e.1, f e))) = (sortByName l).map (fun e => (e.1, f e)) := by
  unfold sortByName
  exact (List.map_insertionSort (fun a b : GoString × α => stringLE a.1 b.1 = true)
    (fun a b : GoString × β => stringLE a.1 b.1 = true)
    (fun e => (e.1, f e)) l (fun _ _ _ _ => Iff.rfl)).symm

theorem mem_sortByName {α : Type} (l : List (GoString × α)) (e : GoString × α) :
    e ∈ sortByName l ↔ e ∈ l := by
  unfold sortByName
  exact List.mem_insertionSort _

theorem walkEntries_eq_map {σ : Type} (join : GoString → GoString → GoString)
    (walkFn : WalkFunc σ) (es : List (GoString × Node)) :
    walkEntries join walkFn es
      = es.map (fun e => (e.1, e.2.isDir, walk join walkFn e.2 e.1)) := by
  induction es with
  | nil => simp [walkEntries]
  | cons e rest ih =>
    obtain ⟨name, node⟩ := e
    simp [walkEntries, ih]

theorem jsonPathsEntries_eq_map (join : GoString → GoString → GoString)
    (es : List (GoString × Node)) :
    jsonPathsEntries join es = es.map (fun e => (e.1, jsonPaths join e.2 e.1)) := by
  induction es with
  | nil => simp [jsonPathsEntries]
  | cons e rest ih =>
    obtain ⟨name, node⟩ := e
    simp [jsonPathsEntries, ih]

theorem walk_dir_eq {σ : Type} (join : GoString → GoString → GoString) (walkFn : WalkFunc σ)
    (es : List (GoString × Node)) (name path : GoString) (st : σ) :
    walk join walkFn (.dir es) name path st =
      match walkFn path ⟨name, true⟩ st with
      | (st1, some err1) => (st1, some err1)
      | (st1, none) =>
        walkLoop join path
          ((sortByName es).map (fun e => (e.1, e.2.isDir, walk join walkFn e.2 e.1))) st1 := by
  rw [walk, walkEntries_eq_map]
  rw [sortByName_map (fun e => (e.2.isDir, walk join walkFn e.2 e.1)) es]

theorem jsonPaths_dir_eq (join : GoString → GoString → GoString)
    (es : List (GoString × Node)) (name path : GoString) :
    jsonPaths join (.dir es) name path
      = (sortByName es).flatMap (fun e => jsonPaths join e.2 e.1 (join path e.1)) := by
  rw [jsonPaths, jsonPathsEntries_eq_map]
  rw [sortByName_map (fun e => jsonPaths join e.2 e.1) es]
  simp [List.flatMap_map]

/-- The loop over entries whose walks all succeed and append their listing. -/
theorem walkLoop_append (join : GoString → GoString → GoString) (path : GoString)
    (walkFn : WalkFunc (List GoString)) (l : List (GoString × Node))
    (h : ∀ e ∈ l, ∀ p files,
      walk join walkFn e.2 e.1 p files = (files ++ jsonPaths join e.2 e.1 p, none))
    (files : List GoString) :
    walkLoop join path (l.map (fun e => (e.1, e.2.isDir, walk join walkFn e.2 e.1))) files
      = (files ++ l.flatMap (fun e => jsonPaths join e.2 e.1 (join path e.1)), none) := by
  induction l generalizing files with
  | nil => simp [walkLoop]
  | cons e rest ih =>
    have he := h e (List.mem_cons_self _ _) (join path e.1) files
    have hrest := ih (fun e1 h1 => h e1 (List.mem_cons_of_mem _ h1))
    simp only [List.map_cons, walkLoop, he, hrest, List.flatMap_cons, List.append_assoc]

mutual
theorem walk_recursive (join : GoString → GoString → GoString) (root : GoString) :
    ∀ (node : Node) (name path : GoString) (files : List GoString),
      walk join (listJSONFilesFunc root true) node name path files
        = (files ++ jsonPaths join node name path, none)
  | .file _, name, path, files => by
    by_cases hs : stringsHasSuffix name jsonSuffix = true
    · simp [walk, jsonPaths, listJSONFilesFunc, hs]
    · simp [walk, jsonPaths, listJSONFilesFunc, hs]
  | .dir es, name, path, files => by
    have ih := walkAll_recursive join root es
    rw [walk_dir_eq, jsonPaths_dir_eq]
    have h0 : listJSONFilesFunc root true path ⟨name, true⟩ files = (files, none) := by
      simp [listJSONFilesFunc]
    rw [h0]
    exact walkLoop_append join path _ _
      (fun e he => ih e ((mem_sortByName es e).1 he)) files
theorem walkAll_recursive (join : GoString → GoString → GoString) (root : GoString) :
    ∀ (es : List (GoString × Node)), ∀ e ∈ es, ∀ (path : GoString) (files : List GoString),
      walk join (listJSONFilesFunc root true) e.2 e.1 path files
        = (files ++ jsonPaths join e.2 e.1 path, none)
  | [], _, he => by simp at he
  | (name, node) :: rest, e, he => by
    rcases List.mem_cons.1 he with h1 | h1
    · subst h1
      exact walk_recursive join root node name
    · exact walkAll_recursive join root rest e h1
end

/-- The loop of a non-recursive listing over the entries of the root. -/
theorem walkLoop_direct (join : GoString → GoString → GoString) (root : GoString)
    (l : List (GoString × Node))
    (h : ∀ e ∈ l, e.2.isDir = true → join root e.1 ≠ root) (files : List GoString) :
    walkLoop join root
        (l.map (fun e => (e.1, e.2.isDir, walk join (listJSONFilesFunc root false) e.2 e.1)))
        files
      = (files ++ (l.filter (fun e => isJSONFile e.1 e.2)).map (fun e => join root e.1),
          none) := by
  induction l generalizing files with
  | nil => simp [walkLoop]
  | cons e rest ih =>
    have hrest := ih (fun e1 h1 => h e1 (List.mem_cons_of_mem _ h1))
    obtain ⟨name, node⟩ := e
    cases node with
    | file c =>
      by_cases hs : stringsHasSuffix name jsonSuffix = true
      · simp [walkLoop, walk, listJSONFilesFunc, isJSONFile, hs, hrest]
      · simp [walkLoop, walk, listJSONFilesFunc, isJSONFile, hs, hrest]
    | dir es =>
      have hne : join root name ≠ root := h (name, .dir es) (List.mem_cons_self _ _) rfl
      simp [walkLoop, walk_dir_eq, listJSONFilesFunc, isJSONFile, hne, hrest]

theorem countJSONEntries_eq_sum (es : List (GoString × Node)) :
    countJSONEntries es = (es.map (fun e => countJSON e.2 e.1)).sum := by
  induction es with
  | nil => simp [countJSONEntries]
  | cons e rest ih =>
    obtain ⟨name, node⟩ := e
    simp [countJSONEntries, ih]

theorem length_flatMap_eq_sum {α β : Type} (f : α → List β) (l : List α) :
    (l.flatMap f).length = (l.map (fun a => (f a).length)).sum := by
  induction l with
  | nil => simp
  | cons a rest ih => simp [List.flatMap_cons, ih]

mutual
theorem length_jsonPaths (join : GoString → GoString → GoString) :
    ∀ (node : Node) (name path : GoString),
      (jsonPaths join node name path).length = countJSON node name
  | .file _, name, path => by
    by_cases hs : stringsHasSuffix name jsonSuffix = true
    · simp [jsonPaths, countJSON, hs]
    · simp [jsonPaths, countJSON, hs]
  | .dir es, name, path => by
    have ih := length_jsonPathsAll join es
    rw [jsonPaths_dir_eq, countJSON, countJSONEntries_eq_sum, length_flatMap_eq_sum]
    have hperm : List.Perm (sortByName es) es := List.perm_insertionSort _ es
    have h1 : (sortByName es).map (fun e => (jsonPaths join e.2 e.1 (join path e.1)).length)
        = (sortByName es).map (fun e => countJSON e.2 e.1) :=
      List.map_congr_left (fun e he => ih e ((mem_sortByName es e).1 he) _)
    rw [h1]
    exact (hperm.map _).sum_eq
theorem length_jsonPathsAll (join : GoString → GoString → GoString) :
    ∀ (es : List (GoString × Node)), ∀ e ∈ es, ∀ (path : GoString),
      (jsonPaths join e.2 e.1 path).length = countJSON e.2 e.1
  | [], _, he => by simp at he
  | (name, node) :: rest, e, he => by
    rcases List.mem_cons.1 he with h1 | h1
    · subst h1
      exact length_jsonPaths join node name
    · exact length_jsonPathsAll join rest e h1
end

mutual
theorem mem_jsonPaths (join : GoString → GoString → GoString) :
    ∀ (node : Node) (name path p : GoString),
      p ∈ jsonPaths join node name path ↔ JSONEntry join node name path p
  | .file c, name, path, p => by
    constructor
    · intro h
      by_cases hs : stringsHasSuffix name jsonSuffix = true
      · simp [jsonPaths, hs] at h
        subst h
        exact JSONEntry.file c name p hs
      · simp [jsonPaths, hs] at h
    · intro h
      cases h with
      | file _ _ _ hs => simp [jsonPaths, hs]
  | .dir es, name, path, p => by
    have ih := mem_jsonPathsAll join es
    rw [jsonPaths_dir_eq, List.mem_flatMap]
    constructor
    · rintro ⟨e, he, hp⟩
      have he1 := (mem_sortByName es e).1 he
      exact JSONEntry.dir es name path e p he1 ((ih e he1 _ p).1 hp)
    · intro h
      cases h with
      | dir _ _ _ e _ he hp => exact ⟨e, (mem_sortByName es e).2 he, (ih e he _ p).2 hp⟩
theorem mem_jsonPathsAll (join : GoString → GoString → GoString) :
    ∀ (es : List (GoString × Node)), ∀ e ∈ es, ∀ (path p : GoString),
      p ∈ jsonPaths join e.2 e.1 path ↔ JSONEntry join e.2 e.1 path p
  | [], _, he => by simp at he
  | (name, node) :: rest, e, he => by
    rcases List.mem_cons.1 he with h1 | h1
    · subst h1
      exact mem_jsonPaths join node name
    · exact mem_jsonPathsAll join rest e h1
end

/-! ## Claims on `listJSONFiles` -/

/-- C3: for a directory `dir`, `listJSONFiles(dir, true)` returns, with a nil
error, the listing `jsonPaths`: top-down, the entries of each directory in
lexical order of name.  Its members are exactly the paths of the
non-directory entries at any depth whose name ends with `.json`, and it has
one element per such entry. -/
theorem listJSONFiles_recursive (join : GoString → GoString → GoString) (fs : FileSystem)
    (dir name : GoString) (entries : List (GoString × Node))
    (h : fs.stat dir = some (name, .dir entries)) :
    listJSONFiles join fs dir true = (jsonPaths join (.dir entries) name dir, none) ∧
    (∀ p, p ∈ (listJSONFiles join fs dir true).1 ↔ JSONEntry join (.dir entries) name dir p) ∧
    (listJSONFiles join fs dir true).1.length = countJSONEntries entries := by
  have heq : listJSONFiles join fs dir true
      = (jsonPaths join (.dir entries) name dir, none) := by
    simp [listJSONFiles, isDir, filepathWalk, h, walk_recursive]
  rw [heq]
  refine ⟨rfl, fun p => mem_jsonPaths join _ name dir p, ?_⟩
  rw [length_jsonPaths, countJSON]

theorem listJSONFiles_recursive_witness :
    listJSONFiles filepathJoin fixtureFS "test-fixtures".toList true =
      (["test-fixtures/dogs/corgi.json".toList, "test-fixtures/dogs/dachshund.json".toList,
        "test-fixtures/icecream.json".toList], none) :=
  ((listJSONFiles_recursive filepathJoin fixtureFS "test-fixtures".toList
    "test-fixtures".toList fixtureEntries rfl).1).trans (by decide)

/-- C4: for a directory `dir`, `listJSONFiles(dir, false)` returns, with a nil
error, exactly the paths of the non-directory entries located directly in
`dir` whose name ends with `.json`, in lexical order of name; every returned
path is that of a direct entry, none of an entry of a subdirectory.  The
hypothesis is that joining a name to `dir` never gives back `dir`. -/
theorem listJSONFiles_direct (join : GoString → GoString → GoString) (fs : FileSystem)
    (dir name : GoString) (entries : List (GoString × Node))
    (h : fs.stat dir = some (name, .dir entries))
    (hjoin : ∀ e ∈ entries, e.2.isDir = true → join dir e.1 ≠ dir) :
    listJSONFiles join fs dir false = (directJSONPaths join dir entries, none) ∧
    ∀ p ∈ (listJSONFiles join fs dir false).1,
      ∃ e ∈ entries, e.2.isDir = false ∧ p = join dir e.1 := by
  have hw : walk join (listJSONFilesFunc dir false) (.dir entries) name dir []
      = (directJSONPaths join dir entries, none) := by
    rw [walk_dir_eq]
    have h0 : listJSONFilesFunc dir false dir ⟨name, true⟩ [] = ([], none) := by
      simp [listJSONFilesFunc]
    rw [h0]
    have := walkLoop_direct join dir (sortByName entries)
      (fun e he => hjoin e ((mem_sortByName entries e).1 he)) []
    simpa [directJSONPaths] using this
  have heq : listJSONFiles join fs dir false = (directJSONPaths join dir entries, none) := by
    simp [listJSONFiles, isDir, filepathWalk, h, hw]
  refine ⟨heq, ?_⟩
  rw [heq]
  intro p hp
  simp only [directJSONPaths, List.mem_map, List.mem_filter] at hp
  obtain ⟨e, ⟨he, hj⟩, rfl⟩ := hp
  refine ⟨e, (mem_sortByName entries e).1 he, ?_, rfl⟩
  simp only [isJSONFile, Bool.and_eq_true, Bool.not_eq_true'] at hj
  exact hj.1

theorem listJSONFiles_direct_witness :
    listJSONFiles filepathJoin fixtureFS "test-fixtures".toList false =
      (["test-fixtures/icecream.json".toList], none) :=
  ((listJSONFiles_direct filepathJoin fixtureFS "test-fixtures".toList
    "test-fixtures".toList fixtureEntries rfl (by decide)).1).trans (by decide)

/-- C5, as the code has it: for a path whose stat fails, `listJSONFiles`
returns the one-element list of that path and a nil error, for either value
of `recurse`. -/
theorem listJSONFiles_stat_fails (join : GoString → GoString → GoString) (fs : FileSystem)
    (root : GoString) (recurse : Bool) (h : fs.stat root = none) :
    listJSONFiles join fs root recurse = ([root], none) := by
  simp [listJSONFiles, isDir, h]

theorem listJSONFiles_stat_fails_witness :
    listJSONFiles filepathJoin fixtureFS "missing.json".toList true
      = (["missing.json".toList], none) :=
  listJSONFiles_stat_fails filepathJoin fixtureFS "missing.json".toList true rfl

/-- C5 as stated fails: the path `missing` cannot be stat'ed, and
`listJSONFiles` returns a file list, the path itself, with a nil error. -/
theorem listJSONFiles_missing_counterexample :
    fixtureFS.stat "missing".toList = none ∧
    (listJSONFiles filepathJoin fixtureFS "missing".toList false).2 = none ∧
    (listJSONFiles filepathJoin fixtureFS "missing".toList false).1 = ["missing".toList] :=
  ⟨rfl, by decide, by decide⟩

/-- C6: for a path that is a regular file, whatever its name, `listJSONFiles`
returns the one-element list of that path and a nil error, for either value
of `recurse`. -/
theorem listJSONFiles_file (join : GoString → GoString → GoString) (fs : FileSystem)
    (p name content : GoString) (recurse : Bool)
    (h : fs.stat p = some (name, .file content)) :
    listJSONFiles join fs p recurse = ([p], none) := by
  simp [listJSONFiles, isDir, h]

theorem listJSONFiles_file_witness :
    listJSONFiles filepathJoin fixtureFS "main.go".toList false = (["main.go".toList], none) :=
  listJSONFiles_file filepathJoin fixtureFS "main.go".toList "main.go".toList
    "package main".toList false rfl

/-! ## Lemmas on the exit code -/

theorem formatFileCall_frame (filename indent : GoString) (replace : Bool) (st : State) :
    (formatFileCall filename indent replace st).1.exitCode = st.exitCode ∧
    (formatFileCall filename indent replace st).1.formatted = st.formatted := by
  unfold formatFileCall
  split
  · exact ⟨rfl, rfl⟩
  · split
    · split
      · exact ⟨rfl, rfl⟩
      · split
        · exact ⟨rfl, rfl⟩
        · exact ⟨rfl, rfl⟩
    · exact ⟨rfl, rfl⟩

theorem formatFile_frame (filename indent : GoString) (replace : Bool) (st : State) :
    (formatFile filename indent replace st).1.exitCode = st.exitCode ∧
    (formatFile filename indent replace st).1.formatted
      = st.formatted ++ [(filename, (formatFile filename indent replace st).2.isSome)] := by
  have h := formatFileCall_frame filename indent replace st
  simp only [formatFile]
  exact ⟨h.1, by rw [h.2]⟩

theorem ExitInv.printError {st : State} {f : GoString} (err : GoError)
    (h : (f, true) ∈ st.formatted) : ExitInv (printError err st) := by
  refine ⟨⟨fun _ => ⟨(f, true), h, rfl⟩, fun _ => rfl⟩, Or.inr rfl⟩

/-- One call of `formatFile` on a state with the invariant: if it fails, the
invariant holds once the error is printed; if not, it holds at once. -/
theorem formatFile_inv (filename indent : GoString) (replace : Bool) (st : State)
    (h : ExitInv st) :
    match formatFile filename indent replace st with
    | (st1, some err) => ExitInv (printError err st1)
    | (st1, none) => ExitInv st1 := by
  have hf := formatFile_frame filename indent replace st
  generalize formatFile filename indent replace st = r at hf
  obtain ⟨st1, err⟩ := r
  cases err with
  | some err =>
    refine ExitInv.printError err (f := filename) ?_
    simp only [Option.isSome_some] at hf
    rw [hf.2]
    simp
  | none =>
    simp only [Option.isSome_none] at hf
    obtain ⟨h1, h2⟩ := hf
    unfold ExitInv
    simp only at h1 h2 ⊢
    rw [h1, h2]
    refine ⟨?_, h.2⟩
    rw [h.1]
    constructor
    · rintro ⟨e, he, ht⟩
      exact ⟨e, List.mem_append_left _ he, ht⟩
    · rintro ⟨e, he, ht⟩
      rcases List.mem_append.1 he with h3 | h3
      · exact ⟨e, h3, ht⟩
      · simp only [List.mem_singleton] at h3
        subst h3
        simp at ht

theorem header_inv (filename : GoString) (st : State) (h : ExitInv st) :
    ExitInv (header filename st) := h

theorem formatFiles_inv (indent : GoString) (replace : Bool) (files : List GoString)
    (st : State) (h : ExitInv st) : ExitInv (formatFiles indent replace files st) := by
  induction files generalizing st with
  | nil => exact h
  | cons f rest ih =>
    have hf := formatFile_inv f indent replace (header f st) (header_inv f st h)
    simp only [formatFiles]
    generalize formatFile f indent replace (header f st) = r at hf
    obtain ⟨st1, err⟩ := r
    cases err with
    | some err => exact ih _ hf
    | none => exact ih _ hf

theorem formatPath_inv (join : GoString → GoString → GoString) (arg0 path indent : GoString)
    (replace recurse headers : Bool) (st : State) (h : ExitInv st) :
    match formatPath join arg0 path indent replace recurse headers st with
    | (st1, some err) => ExitInv (printError err st1)
    | (st1, none) => ExitInv st1 := by
  unfold formatPath
  by_cases hd : isDir st.fs path = true
  · have hl : (listJSONFiles join st.fs arg0 recurse).2 = none := by
      unfold listJSONFiles
      split <;> rfl
    simp only [hd, if_true]
    generalize listJSONFiles join st.fs arg0 recurse = l at hl
    obtain ⟨files, e⟩ := l
    simp only at hl
    subst hl
    simp only [gt_iff_lt, lt_self_iff_false, if_false]
    exact formatFiles_inv indent replace files st h
  · simp only [hd, Bool.false_eq_true, if_false]
    have hh : ExitInv (if headers = true then header path st else st) := by
      split
      · exact header_inv path st h
      · exact h
    have hf := formatFile_inv path indent replace _ hh
    generalize formatFile path indent replace (if headers = true then header path st else st)
      = r at hf
    obtain ⟨st1, err⟩ := r
    cases err with
    | some err => exact hf
    | none => exact hf

theorem formatPaths_inv (join : GoString → GoString → GoString) (arg0 indent : GoString)
    (replace recurse headers : Bool) (paths : List GoString) (st : State) (h : ExitInv st) :
    ExitInv (formatPaths join arg0 indent replace recurse headers paths st) := by
  induction paths generalizing st with
  | nil => exact h
  | cons path rest ih =>
    have hf := formatPath_inv join arg0 path indent replace recurse headers st h
    simp only [formatPaths]
    generalize formatPath join arg0 path indent replace recurse headers st = r at hf
    obtain ⟨st1, err⟩ := r
    cases err with
    | some err => exact ih _ hf
    | none => exact ih _ hf

theorem ExitInv.init (fs : FileSystem) : ExitInv (State.init fs) := by
  refine ⟨⟨fun h => ?_, fun h => ?_⟩, Or.inl rfl⟩
  · simp [State.init] at h
  · simp [State.init] at h

/-! ## Claims on `formatPath` and `main` -/

/-- C7, at the documented command line `jsonf -r file1 file2 dir`: the
directory `dir` holds `x.json`, which `listJSONFiles(dir, true)` selects, but
`formatPath` on `dir` lists `flag.Args()[0]`, so that the whole run formats
`file1`, `file2` and `file1` again, and never `dir/x.json`. -/
theorem formatPath_dir_lists_first_argument :
    (listJSONFiles filepathJoin exampleFS "dir".toList true).1 = ["dir/x.json".toList] ∧
    (formatPath filepathJoin "file1".toList "dir".toList "  ".toList false true true
        (State.init exampleFS)).1.formatted = [("file1".toList, false)] ∧
    (main filepathJoin exampleFlags exampleFS).1.formatted
      = [("file1".toList, false), ("file2".toList, false), ("file1".toList, false)] := by
  refine ⟨by decide, ?_, ?_⟩
  · set_option maxRecDepth 100000 in rfl
  · set_option maxRecDepth 100000 in rfl

/-- C8: in a run without `-h` the exit status is 1 if and only if no path
argument was given or some call of `formatFile`, on a file given directly or
found through a directory argument, returned an error; otherwise it is 0. -/
theorem main_exit_status (join : GoString → GoString → GoString) (flags : Flags)
    (fs : FileSystem) (h : flags.help = false) :
    ((main join flags fs).2 = 1 ↔
      (flags.args = [] ∨ ∃ e ∈ (main join flags fs).1.formatted, e.2 = true)) ∧
    ((main join flags fs).2 = 0 ∨ (main join flags fs).2 = 1) := by
  unfold main wrappedMain
  simp only [h, Bool.false_eq_true, if_false]
  cases hargs : flags.args with
  | nil => simp
  | cons arg0 more =>
    simp only
    have hinv := formatPaths_inv join arg0
      (if flags.compact = true then formatCompact else flags.indent) flags.replace
      flags.recurse (decide ((arg0 :: more).length > 1)) (arg0 :: more) (State.init fs)
      (ExitInv.init fs)
    refine ⟨?_, hinv.2⟩
    rw [hinv.1]
    simp

theorem main_exit_status_witness :
    ((main filepathJoin exampleFlags exampleFS).2 = 1 ↔
      (exampleFlags.args = [] ∨
        ∃ e ∈ (main filepathJoin exampleFlags exampleFS).1.formatted, e.2 = true)) ∧
    ((main filepathJoin exampleFlags exampleFS).2 = 0 ∨
      (main filepathJoin exampleFlags exampleFS).2 = 1) :=
  main_exit_status filepathJoin exampleFlags exampleFS rfl


/-! ## Lemmas on `Compact`, `Indent` and validity -/

theorem compactLoop_scanner (s : Scanner) (src : GoString) :
    (compactLoop s src).1 = checkValidLoop s src := by
  induction src generalizing s with
  | nil => rfl
  | cons c rest ih =>
    simp only [compactLoop, checkValidLoop]
    generalize s.call c = r
    obtain ⟨s1, v⟩ := r
    cases v <;> simp [Scan.code, ih]

theorem indentLoop_scanner (pre indent : GoString) (s : Scanner) (needIndent : Bool)
    (depth : Int) (src : GoString) :
    (indentLoop pre indent s needIndent depth src).1 = checkValidLoop s src := by
  induction src generalizing s needIndent depth with
  | nil => rfl
  | cons c rest ih =>
    simp only [indentLoop, checkValidLoop]
    generalize s.call c = r
    obtain ⟨s1, v⟩ := r
    cases v <;> simp [ih]

theorem eof_err_isSome (s : Scanner) (h : s.eof.2 = Scan.error) : s.eof.1.err.isSome = true := by
  unfold Scanner.eof at h ⊢
  by_cases h1 : s.err = none
  · simp only [h1, ne_eq, not_true_eq_false, if_false] at h ⊢
    by_cases h2 : s.endTop = true
    · simp [h2] at h
    · simp only [h2, Bool.false_eq_true, if_false] at h ⊢
      by_cases h3 : (s.call ' ').1.endTop = true
      · simp [h3] at h
      · simp only [h3, Bool.false_eq_true, if_false]
        by_cases h4 : (s.call ' ').1.err = none
        · simp [h4]
        · simp only [h4, if_false]
          cases h5 : (s.call ' ').1.err with
          | none => exact absurd h5 h4
          | some e => rfl
  · simp only [ne_eq, h1, not_false_eq_true, if_true]
    cases h5 : s.err with
    | none => exact absurd h5 h1
    | some e => rfl

theorem jsonCompact_valid (dst src : GoString) (h : jsonValid src = true) :
    jsonCompact dst src = (dst ++ (compactLoop Scanner.reset src).2, none) := by
  have h1 : (checkValidLoop Scanner.reset src).eof.2 ≠ Scan.error := by
    simpa [jsonValid] using h
  simp [jsonCompact, compactLoop_scanner, h1]

theorem jsonCompact_invalid (dst src : GoString) (h : jsonValid src = false) :
    ∃ e, jsonCompact dst src = (dst, some e) := by
  have h1 : (checkValidLoop Scanner.reset src).eof.2 = Scan.error := by
    simpa [jsonValid] using h
  have h2 := eof_err_isSome _ h1
  obtain ⟨e, he⟩ := Option.isSome_iff_exists.1 h2
  exact ⟨e, by simp [jsonCompact, compactLoop_scanner, h1, he]⟩

theorem jsonIndent_valid (dst src pre indent : GoString) (h : jsonValid src = true) :
    jsonIndent dst src pre indent
      = (dst ++ (indentLoop pre indent Scanner.reset false 0 src).2, none) := by
  have h1 : (checkValidLoop Scanner.reset src).eof.2 ≠ Scan.error := by
    simpa [jsonValid] using h
  simp [jsonIndent, indentLoop_scanner, h1]

theorem jsonIndent_invalid (dst src pre indent : GoString) (h : jsonValid src = false) :
    ∃ e, jsonIndent dst src pre indent = (dst, some e) := by
  have h1 : (checkValidLoop Scanner.reset src).eof.2 = Scan.error := by
    simpa [jsonValid] using h
  have h2 := eof_err_isSome _ h1
  obtain ⟨e, he⟩ := Option.isSome_iff_exists.1 h2
  exact ⟨e, by simp [jsonIndent, indentLoop_scanner, h1, he]⟩

theorem formatInput_valid (input indent : GoString)
    (h : jsonValid (bytesTrimSpace input) = true) :
    formatInput input indent =
      if indent = formatCompact then .ok (jsonCompact [] (bytesTrimSpace input)).1
      else .ok ((jsonIndent [] (bytesTrimSpace input) [] indent).1 ++ ['\n']) := by
  unfold formatInput
  simp only [jsonCompact_valid _ _ h, jsonIndent_valid _ _ _ _ h]

theorem formatInput_invalid (input indent : GoString)
    (h : jsonValid (bytesTrimSpace input) = false) :
    ∃ e, formatInput input indent = .error e := by
  unfold formatInput
  obtain ⟨e1, h1⟩ := jsonCompact_invalid [] _ h
  obtain ⟨e2, h2⟩ := jsonIndent_invalid [] _ [] indent h
  simp only [h1, h2]
  split
  · exact ⟨e1, rfl⟩
  · exact ⟨e2, rfl⟩

/-! ## The scanner: what a call returns -/

theorem isSpace_iff (c : Char) :
    isSpace c = true ↔ c = ' ' ∨ c = '\t' ∨ c = '\r' ∨ c = '\n' := by
  simp [isSpace, or_assoc]

theorem isPunct_iff (c : Char) :
    isPunct c = true ↔ c = '{' ∨ c = '[' ∨ c = ',' ∨ c = ':' ∨ c = '}' ∨ c = ']' := by
  simp [isPunct, or_assoc]

/-- A test that fails on the spaces and on the punctuation holds of neither. -/
theorem not_space_punct_of (p : Char → Bool) (c : Char) (hp : p c = true)
    (h : ∀ d, d = ' ' ∨ d = '\t' ∨ d = '\r' ∨ d = '\n' ∨ d = '{' ∨ d = '[' ∨ d = ',' ∨ d = ':' ∨
      d = '}' ∨ d = ']' → p d = false) :
    isSpace c = false ∧ isPunct c = false := by
  constructor
  · by_contra hc
    rw [Bool.not_eq_false, isSpace_iff] at hc
    have := h c (by tauto)
    rw [hp] at this
    cases this
  · by_contra hc
    rw [Bool.not_eq_false, isPunct_iff] at hc
    have := h c (by tauto)
    rw [hp] at this
    cases this

theorem digit_not_space_punct (c : Char) (h : ('0' ≤ c && c ≤ '9') = true) :
    isSpace c = false ∧ isPunct c = false :=
  not_space_punct_of (fun d => '0' ≤ d && d ≤ '9') c h (by
    rintro d (h | h | h | h | h | h | h | h | h | h) <;> subst h <;> decide)

theorem digit19_not_space_punct (c : Char) (h : ('1' ≤ c && c ≤ '9') = true) :
    isSpace c = false ∧ isPunct c = false :=
  not_space_punct_of (fun d => '1' ≤ d && d ≤ '9') c h (by
    rintro d (h | h | h | h | h | h | h | h | h | h) <;> subst h <;> decide)

theorem dot_not_space_punct (c : Char) (h : (c == '.') = true) :
    isSpace c = false ∧ isPunct c = false :=
  not_space_punct_of (fun d => d == '.') c h (by
    rintro d (h | h | h | h | h | h | h | h | h | h) <;> subst h <;> decide)

theorem exp_not_space_punct (c : Char) (h : (c == 'e' || c == 'E') = true) :
    isSpace c = false ∧ isPunct c = false :=
  not_space_punct_of (fun d => d == 'e' || d == 'E') c h (by
    rintro d (h | h | h | h | h | h | h | h | h | h) <;> subst h <;> decide)

theorem start_not_space_punct (c : Char)
    (h : (c == '"' || c == '-' || c == '0' || c == 't' || c == 'f' || c == 'n') = true) :
    isSpace c = false ∧ isPunct c = false :=
  not_space_punct_of (fun d => d == '"' || d == '-' || d == '0' || d == 't' || d == 'f' ||
    d == 'n') c h (by
    rintro d (h | h | h | h | h | h | h | h | h | h) <;> subst h <;> decide)

/-! ### The shapes of the results of the scanner -/

theorem WF.with_step (s : Scanner) (st : Step) (h : s.WF) (h1 : s.step ≠ .endTop)
    (h2 : s.step ≠ .error) (h3 : st ≠ .error) : Scanner.WF { s with step := st } := by
  refine ⟨fun h => absurd h h3, fun h4 => ?_⟩
  rcases h.2 h4 with h5 | h5
  · exact absurd h5 h1
  · exact absurd h5 h2

theorem WF.error (s : Scanner) (c : Char) (m : String) : (s.error c m).1.WF :=
  ⟨fun _ => by simp [Scanner.error], fun _ => Or.inr rfl⟩

/-- The result of an error. -/
theorem CallSpec.of_error (s s1 : Scanner) (c : Char) (h1 : s1.step = .error)
    (h2 : s1.err ≠ none) : CallSpec s c s1 .error := by
  constructor <;> intro h <;> (try (cases h; done))
  · exact fun _ => h2
  · exact h2
  · exact ⟨fun _ => h2, fun _ => Or.inr h1⟩

theorem CallSpec.of_error_call (s s0 : Scanner) (c : Char) (m : String) :
    CallSpec s c (s0.error c m).1 (s0.error c m).2 :=
  CallSpec.of_error s _ c rfl (by simp [Scanner.error])

/-- The result of skipping a space in a state that stays. -/
theorem CallSpec.of_skip (s : Scanner) (c : Char) (hc : isSpace c = true)
    (hs : s.step.stable = true ∨ (s.step = .endValue ∧ s.parseState ≠ [])) :
    CallSpec s c s .skipSpace := by
  constructor <;> intro h <;> (try (cases h; done))
  · exact ⟨hc, Or.inl ⟨rfl, hs⟩⟩
  · exact h
  · exact h

/-- The result of a character inside a literal. -/
theorem CallSpec.of_continue (s : Scanner) (c : Char) (st : Step) (h1 : s.step ≠ .endTop)
    (h2 : s.step ≠ .error) (h3 : st ≠ .error) :
    CallSpec s c { s with step := st } .continue_ := by
  constructor <;> intro h <;> (try (cases h; done))
  · exact h
  · exact WF.with_step s st h h1 h2 h3

/-- The result of the first character of a literal. -/
theorem CallSpec.of_literal (s : Scanner) (c : Char) (st : Step) (h1 : s.step ≠ .endTop)
    (h2 : s.step ≠ .error) (h3 : st ≠ .error) (hc : isSpace c = false ∧ isPunct c = false) :
    CallSpec s c { s with step := st } .beginLiteral := by
  constructor <;> intro h <;> (try (cases h; done))
  · exact hc
  · exact h
  · exact WF.with_step s st h h1 h2 h3


/-- The result of skipping a space at the end of a number. -/
theorem CallSpec.of_numEnd_skip (s : Scanner) (c : Char) (hc : isSpace c = true)
    (hs : s.step.numEnd = true) (hp : s.parseState ≠ []) :
    CallSpec s c { s with step := .endValue } .skipSpace := by
  constructor <;> intro h <;> (try (cases h; done))
  · exact ⟨hc, Or.inr ⟨hs, hp, rfl⟩⟩
  · exact h
  · refine WF.with_step s _ h ?_ ?_ (by decide)
    · intro h1; rw [h1] at hs; cases hs
    · intro h1; rw [h1] at hs; cases hs

/-- The result of an opening bracket, a colon or a comma. -/
theorem CallSpec.of_open (s s1 : Scanner) (c : Char) (v : Scan)
    (hv : (v = .beginObject ∧ c = '{') ∨ (v = .beginArray ∧ c = '[') ∨
      (v = .objectKey ∧ c = ':') ∨ (v = .objectValue ∧ c = ',') ∨ (v = .arrayValue ∧ c = ','))
    (hst : s1.step.stable = true) (h0 : s1.endTop = s.endTop) (h0e : s1.err = s.err)
    (h1 : s.step ≠ .endTop) (h2 : s.step ≠ .error) : CallSpec s c s1 v := by
  have hne : s1.step ≠ .error := by intro h; rw [h] at hst; cases hst
  have hwf : s.WF → s1.WF := fun h => ⟨fun h3 => absurd h3 hne, fun h4 => by
    rw [h0] at h4
    rcases h.2 h4 with h5 | h5
    · exact absurd h5 h1
    · exact absurd h5 h2⟩
  rcases hv with ⟨rfl, rfl⟩ | ⟨rfl, rfl⟩ | ⟨rfl, rfl⟩ | ⟨rfl, rfl⟩ | ⟨rfl, rfl⟩ <;>
    constructor <;> intro h <;> (try (cases h; done)) <;>
    first
      | exact ⟨rfl, hst⟩
      | exact hwf h
      | (rw [h0e]; exact h)

/-- The result of a closing bracket. -/
theorem CallSpec.of_close (s s0 : Scanner) (c : Char) (v : Scan)
    (hv : (v = .endObject ∧ c = '}') ∨ (v = .endArray ∧ c = ']'))
    (hcl : Closing s c) (h0 : s0.endTop = s.endTop) (h0e : s0.err = s.err)
    (h1 : s.step ≠ .endTop) (h2 : s.step ≠ .error) : CallSpec s c s0.popParseState v := by
  have herr : s0.popParseState.err = s.err := by
    rw [← h0e]; unfold Scanner.popParseState; simp only; split <;> rfl
  have hwf : s.WF → s0.popParseState.WF := by
    intro h
    have hf : s.endTop = false := by
      by_contra h3
      rw [Bool.not_eq_false] at h3
      rcases h.2 h3 with h5 | h5
      · exact absurd h5 h1
      · exact absurd h5 h2
    unfold Scanner.popParseState
    simp only
    split
    · exact ⟨fun h3 => (by cases h3), fun _ => Or.inl rfl⟩
    · refine ⟨fun h3 => (by cases h3), fun h3 => ?_⟩
      simp only [h0, hf] at h3
      cases h3
  rcases hv with ⟨rfl, rfl⟩ | ⟨rfl, rfl⟩ <;>
    constructor <;> intro h <;> (try (cases h; done)) <;>
    first
      | exact ⟨rfl, hcl⟩
      | exact hwf h
      | (rw [herr]; exact h)

/-- The result of a character after the top-level value. -/
theorem CallSpec.of_endTop (s s0 : Scanner) (c : Char) (h : s0.step = .endTop)
    (herr : s0.err = s.err) (hwf : s.WF → s0.WF) :
    CallSpec s c (stateEndTop s0 c).1 (stateEndTop s0 c).2 := by
  unfold stateEndTop
  by_cases hc : isSpace c = true
  · simp only [hc, Bool.not_true, Bool.false_eq_true, if_false]
    constructor <;> intro h3 <;> (try (cases h3; done))
    · exact Or.inr ⟨hc, h⟩
    · rw [herr]; exact h3
    · exact hwf h3
  · simp only [hc, Bool.not_false, if_true]
    constructor <;> intro h3 <;> (try (cases h3; done))
    · exact Or.inl (by simp [Scanner.error])
    · simp [Scanner.error]
    · exact WF.error s0 c _

/-- The result of the error state. -/
theorem CallSpec.of_stateError (s : Scanner) (c : Char) (h : s.step = .error) :
    CallSpec s c s .error := by
  constructor <;> intro h3 <;> (try (cases h3; done))
  · exact fun hw => hw.1 h
  · exact h3
  · exact h3


/-! ### The results of the scanner, state by state -/

theorem Step.ne_of_numEnd (st : Step) (h : st = .endValue ∨ st.numEnd = true) :
    st ≠ .endTop ∧ st ≠ .error := by
  rcases h with h | h
  · subst h; exact ⟨by decide, by decide⟩
  · constructor <;> (intro h1; rw [h1] at h; cases h)

theorem Step.ne_of_stable (st : Step) (h : st.stable = true) :
    st ≠ .endTop ∧ st ≠ .error ∧ st ≠ .endValue ∧ st.numEnd = false := by
  cases st <;> first | (cases h; done) | exact ⟨by decide, by decide, by decide, rfl⟩

theorem stateEndValue_callSpec (s s0 : Scanner) (c : Char) (h1 : s.step ≠ .endTop)
    (h2 : s.step ≠ .error) (h0 : s0.endTop = s.endTop) (h0e : s0.err = s.err)
    (hcl : s0.parseState ≠ [] → Closing s c)
    (hskip : isSpace c = true → s0.parseState ≠ [] →
      CallSpec s c { s0 with step := .endValue } .skipSpace) :
    CallSpec s c (stateEndValue s0 c).1 (stateEndValue s0 c).2 := by
  cases hps : s0.parseState with
  | nil =>
    have : stateEndValue s0 c = stateEndTop { s0 with step := .endTop, endTop := true } c := by
      unfold stateEndValue; rw [hps]
    rw [this]
    exact CallSpec.of_endTop s _ c rfl h0e
      (fun _ => ⟨fun h => (by cases h), fun _ => Or.inl rfl⟩)
  | cons p stack =>
    have hne : s0.parseState ≠ [] := by rw [hps]; exact List.cons_ne_nil _ _
    by_cases hc : isSpace c = true
    · have : stateEndValue s0 c = ({ s0 with step := .endValue }, .skipSpace) := by
        unfold stateEndValue; rw [hps]; simp only; rw [if_pos hc]
      rw [this]
      exact hskip hc hne
    · cases p with
      | objectKey =>
        by_cases h3 : (c == ':') = true
        · have : stateEndValue s0 c
              = ({ s0 with parseState := .objectValue :: stack, step := .beginValue },
                  .objectKey) := by
            unfold stateEndValue; rw [hps]; simp only; rw [if_neg hc, if_pos h3]
          rw [this]
          exact CallSpec.of_open s _ c _ (Or.inr (Or.inr (Or.inl ⟨rfl, by simpa using h3⟩)))
            rfl h0 h0e h1 h2
        · have : stateEndValue s0 c = s0.error c "after object key" := by
            unfold stateEndValue; rw [hps]; simp only; rw [if_neg hc, if_neg h3]
          rw [this]
          exact CallSpec.of_error_call s s0 c _
      | objectValue =>
        by_cases h3 : (c == ',') = true
        · have : stateEndValue s0 c
              = ({ s0 with parseState := .objectKey :: stack, step := .beginString },
                  .objectValue) := by
            unfold stateEndValue; rw [hps]; simp only; rw [if_neg hc, if_pos h3]
          rw [this]
          exact CallSpec.of_open s _ c _
            (Or.inr (Or.inr (Or.inr (Or.inl ⟨rfl, by simpa using h3⟩)))) rfl h0 h0e h1 h2
        · by_cases h4 : (c == '}') = true
          · have : stateEndValue s0 c = (s0.popParseState, .endObject) := by
              unfold stateEndValue; rw [hps]; simp only; rw [if_neg hc, if_neg h3, if_pos h4]
            rw [this]
            exact CallSpec.of_close s s0 c _ (Or.inl ⟨rfl, by simpa using h4⟩) (hcl hne)
              h0 h0e h1 h2
          · have : stateEndValue s0 c = s0.error c "after object key:value pair" := by
              unfold stateEndValue; rw [hps]; simp only; rw [if_neg hc, if_neg h3, if_neg h4]
            rw [this]
            exact CallSpec.of_error_call s s0 c _
      | arrayValue =>
        by_cases h3 : (c == ',') = true
        · have : stateEndValue s0 c = ({ s0 with step := .beginValue }, .arrayValue) := by
            unfold stateEndValue; rw [hps]; simp only; rw [if_neg hc, if_pos h3]
          rw [this]
          exact CallSpec.of_open s _ c _
            (Or.inr (Or.inr (Or.inr (Or.inr ⟨rfl, by simpa using h3⟩)))) rfl h0 h0e h1 h2
        · by_cases h4 : (c == ']') = true
          · have : stateEndValue s0 c = (s0.popParseState, .endArray) := by
              unfold stateEndValue; rw [hps]; simp only; rw [if_neg hc, if_neg h3, if_pos h4]
            rw [this]
            exact CallSpec.of_close s s0 c _ (Or.inr ⟨rfl, by simpa using h4⟩) (hcl hne)
              h0 h0e h1 h2
          · have : stateEndValue s0 c = s0.error c "after array element" := by
              unfold stateEndValue; rw [hps]; simp only; rw [if_neg hc, if_neg h3, if_neg h4]
            rw [this]
            exact CallSpec.of_error_call s s0 c _

/-- The result of `stateEndValue` after a value. -/
theorem afterValue_callSpec (s : Scanner) (c : Char)
    (hs : s.step = .endValue ∨ s.step.numEnd = true) (hcall : s.call c = stateEndValue s c) :
    CallSpec s c (stateEndValue s c).1 (stateEndValue s c).2 := by
  obtain ⟨h1, h2⟩ := Step.ne_of_numEnd s.step hs
  refine stateEndValue_callSpec s s c h1 h2 rfl rfl (fun hne => Or.inr ⟨hs, hne, hcall⟩) ?_
  intro hc hne
  rcases hs with hs | hs
  · have he : ({ s with step := .endValue } : Scanner) = s := by
      cases s; simp only at hs; subst hs; rfl
    rw [he]
    exact CallSpec.of_skip s c hc (Or.inr ⟨hs, hne⟩)
  · exact CallSpec.of_numEnd_skip s c hc hs hne

theorem call_inner (s : Scanner) (c : Char) (hs : s.step.inner = true) :
    (∃ st, st ≠ .error ∧ s.call c = ({ s with step := st }, .continue_)) ∨
    (∃ m, s.call c = s.error c m) := by
  obtain ⟨st, et, ps, err⟩ := s
  cases st <;> simp only [Step.inner, Bool.false_eq_true] at hs <;>
    simp only [Scanner.call, stateInString, stateInStringEsc, stateInStringEscHex, stateNeg,
      stateDot, stateE, stateESign, stateLiteral] <;>
    split_ifs <;>
    first
      | exact Or.inr ⟨_, rfl⟩
      | exact Or.inl ⟨_, by decide, rfl⟩

theorem call_numEnd (s : Scanner) (c : Char) (hs : s.step.numEnd = true) :
    (isSpace c = false ∧ isPunct c = false ∧ ∃ st, st ≠ .error ∧
      s.call c = ({ s with step := st }, .continue_)) ∨
    s.call c = stateEndValue s c := by
  obtain ⟨st, et, ps, err⟩ := s
  cases st <;> simp only [Step.numEnd, Bool.false_eq_true] at hs <;>
    simp only [Scanner.call, state0, state1, stateDot0, stateE0]
  · -- state1
    by_cases h1 : ('0' ≤ c && c ≤ '9') = true
    · rw [if_pos h1]
      exact Or.inl ⟨(digit_not_space_punct c h1).1, (digit_not_space_punct c h1).2, _,
        by decide, rfl⟩
    rw [if_neg h1]
    by_cases h2 : (c == '.') = true
    · rw [if_pos h2]
      exact Or.inl ⟨(dot_not_space_punct c h2).1, (dot_not_space_punct c h2).2, _,
        by decide, rfl⟩
    rw [if_neg h2]
    by_cases h3 : (c == 'e' || c == 'E') = true
    · rw [if_pos h3]
      exact Or.inl ⟨(exp_not_space_punct c h3).1, (exp_not_space_punct c h3).2, _,
        by decide, rfl⟩
    rw [if_neg h3]
    exact Or.inr rfl
  · -- state0
    by_cases h2 : (c == '.') = true
    · rw [if_pos h2]
      exact Or.inl ⟨(dot_not_space_punct c h2).1, (dot_not_space_punct c h2).2, _,
        by decide, rfl⟩
    rw [if_neg h2]
    by_cases h3 : (c == 'e' || c == 'E') = true
    · rw [if_pos h3]
      exact Or.inl ⟨(exp_not_space_punct c h3).1, (exp_not_space_punct c h3).2, _,
        by decide, rfl⟩
    rw [if_neg h3]
    exact Or.inr rfl
  · -- stateDot0
    by_cases h1 : ('0' ≤ c && c ≤ '9') = true
    · rw [if_pos h1]
      exact Or.inl ⟨(digit_not_space_punct c h1).1, (digit_not_space_punct c h1).2, _,
        by decide, rfl⟩
    rw [if_neg h1]
    by_cases h3 : (c == 'e' || c == 'E') = true
    · rw [if_pos h3]
      exact Or.inl ⟨(exp_not_space_punct c h3).1, (exp_not_space_punct c h3).2, _,
        by decide, rfl⟩
    rw [if_neg h3]
    exact Or.inr rfl
  · -- stateE0
    by_cases h1 : ('0' ≤ c && c ≤ '9') = true
    · rw [if_pos h1]
      exact Or.inl ⟨(digit_not_space_punct c h1).1, (digit_not_space_punct c h1).2, _,
        by decide, rfl⟩
    rw [if_neg h1]
    exact Or.inr rfl

theorem call_endValue (s : Scanner) (c : Char) (hs : s.step = .endValue) :
    s.call c = stateEndValue s c := by
  unfold Scanner.call; rw [hs]

theorem stateBeginValue_cases (s : Scanner) (c : Char) :
    (isSpace c = true ∧ stateBeginValue s c = (s, .skipSpace)) ∨
    (c = '{' ∧ stateBeginValue s c
      = { s with step := .beginStringOrEmpty }.pushParseState c .objectKey .beginObject) ∨
    (c = '[' ∧ stateBeginValue s c
      = { s with step := .beginValueOrEmpty }.pushParseState c .arrayValue .beginArray) ∨
    (isSpace c = false ∧ isPunct c = false ∧
      ∃ st, st ≠ .error ∧ stateBeginValue s c = ({ s with step := st }, .beginLiteral)) ∨
    (∃ m, stateBeginValue s c = s.error c m) := by
  unfold stateBeginValue
  by_cases h0 : isSpace c = true
  · exact Or.inl ⟨h0, by rw [if_pos h0]⟩
  rw [if_neg h0]
  by_cases h1 : (c == '{') = true
  · exact Or.inr (Or.inl ⟨by simpa using h1, by rw [if_pos h1]⟩)
  rw [if_neg h1]
  by_cases h2 : (c == '[') = true
  · exact Or.inr (Or.inr (Or.inl ⟨by simpa using h2, by rw [if_pos h2]⟩))
  rw [if_neg h2]
  by_cases h3 : (c == '"') = true
  · exact Or.inr (Or.inr (Or.inr (Or.inl ⟨(start_not_space_punct c (by simp [h3])).1,
      (start_not_space_punct c (by simp [h3])).2, .inString, by decide, by rw [if_pos h3]⟩)))
  rw [if_neg h3]
  by_cases h4 : (c == '-') = true
  · exact Or.inr (Or.inr (Or.inr (Or.inl ⟨(start_not_space_punct c (by simp [h4])).1,
      (start_not_space_punct c (by simp [h4])).2, .neg, by decide, by rw [if_pos h4]⟩)))
  rw [if_neg h4]
  by_cases h5 : (c == '0') = true
  · exact Or.inr (Or.inr (Or.inr (Or.inl ⟨(start_not_space_punct c (by simp [h5])).1,
      (start_not_space_punct c (by simp [h5])).2, .s0, by decide, by rw [if_pos h5]⟩)))
  rw [if_neg h5]
  by_cases h6 : (c == 't') = true
  · exact Or.inr (Or.inr (Or.inr (Or.inl ⟨(start_not_space_punct c (by simp [h6])).1,
      (start_not_space_punct c (by simp [h6])).2, .t, by decide, by rw [if_pos h6]⟩)))
  rw [if_neg h6]
  by_cases h7 : (c == 'f') = true
  · exact Or.inr (Or.inr (Or.inr (Or.inl ⟨(start_not_space_punct c (by simp [h7])).1,
      (start_not_space_punct c (by simp [h7])).2, .f, by decide, by rw [if_pos h7]⟩)))
  rw [if_neg h7]
  by_cases h8 : (c == 'n') = true
  · exact Or.inr (Or.inr (Or.inr (Or.inl ⟨(start_not_space_punct c (by simp [h8])).1,
      (start_not_space_punct c (by simp [h8])).2, .n, by decide, by rw [if_pos h8]⟩)))
  rw [if_neg h8]
  by_cases h9 : ('1' ≤ c && c ≤ '9') = true
  · exact Or.inr (Or.inr (Or.inr (Or.inl ⟨(digit19_not_space_punct c h9).1,
      (digit19_not_space_punct c h9).2, .s1, by decide, by rw [if_pos h9]⟩)))
  rw [if_neg h9]
  exact Or.inr (Or.inr (Or.inr (Or.inr ⟨_, rfl⟩)))

theorem pushParseState_callSpec (s : Scanner) (c : Char) (st : Step) (p : ParseState)
    (v : Scan) (hs : s.step.stable = true) (hst : st.stable = true)
    (hv : (v = .beginObject ∧ c = '{') ∨ (v = .beginArray ∧ c = '[')) :
    CallSpec s c ({ s with step := st }.pushParseState c p v).1
      ({ s with step := st }.pushParseState c p v).2 := by
  obtain ⟨h1, h2, _, _⟩ := Step.ne_of_stable s.step hs
  unfold Scanner.pushParseState
  simp only
  split
  · refine CallSpec.of_open s _ c v ?_ hst rfl rfl h1 h2
    rcases hv with h | h
    · exact Or.inl h
    · exact Or.inr (Or.inl h)
  · exact CallSpec.of_error_call s _ c _

theorem stateBeginValue_callSpec (s : Scanner) (c : Char) (hs : s.step.stable = true) :
    CallSpec s c (stateBeginValue s c).1 (stateBeginValue s c).2 := by
  obtain ⟨h1, h2, _, _⟩ := Step.ne_of_stable s.step hs
  rcases stateBeginValue_cases s c with ⟨hc, h⟩ | ⟨hc, h⟩ | ⟨hc, h⟩ | ⟨hc, hp, st, hst, h⟩ | ⟨m, h⟩
  · rw [h]; exact CallSpec.of_skip s c hc (Or.inl hs)
  · rw [h]; exact pushParseState_callSpec s c _ _ _ hs rfl (Or.inl ⟨rfl, hc⟩)
  · rw [h]; exact pushParseState_callSpec s c _ _ _ hs rfl (Or.inr ⟨rfl, hc⟩)
  · rw [h]; exact CallSpec.of_literal s c st h1 h2 hst ⟨hc, hp⟩
  · rw [h]; exact CallSpec.of_error_call s s c m

theorem stateBeginString_callSpec (s : Scanner) (c : Char) (hs : s.step.stable = true) :
    CallSpec s c (stateBeginString s c).1 (stateBeginString s c).2 := by
  obtain ⟨h1, h2, _, _⟩ := Step.ne_of_stable s.step hs
  unfold stateBeginString
  by_cases h0 : isSpace c = true
  · rw [if_pos h0]; exact CallSpec.of_skip s c h0 (Or.inl hs)
  rw [if_neg h0]
  by_cases h3 : (c == '"') = true
  · rw [if_pos h3]
    exact CallSpec.of_literal s c _ h1 h2 (by decide) (start_not_space_punct c (by simp [h3]))
  rw [if_neg h3]
  exact CallSpec.of_error_call s s c _


theorem stateBeginValueOrEmpty_callSpec (s : Scanner) (c : Char) (hs : s.step.stable = true) :
    CallSpec s c (stateBeginValueOrEmpty s c).1 (stateBeginValueOrEmpty s c).2 := by
  obtain ⟨h1, h2, _, _⟩ := Step.ne_of_stable s.step hs
  unfold stateBeginValueOrEmpty
  by_cases h0 : isSpace c = true
  · rw [if_pos h0]; exact CallSpec.of_skip s c h0 (Or.inl hs)
  rw [if_neg h0]
  by_cases h3 : (c == ']') = true
  · rw [if_pos h3]
    exact stateEndValue_callSpec s s c h1 h2 rfl rfl (fun _ => Or.inl hs)
      (fun hc => absurd hc h0)
  rw [if_neg h3]
  exact stateBeginValue_callSpec s c hs

theorem stateBeginStringOrEmpty_callSpec (s : Scanner) (c : Char)
    (hs : s.step.stable = true) :
    CallSpec s c (stateBeginStringOrEmpty s c).1 (stateBeginStringOrEmpty s c).2 := by
  obtain ⟨h1, h2, _, _⟩ := Step.ne_of_stable s.step hs
  unfold stateBeginStringOrEmpty
  by_cases h0 : isSpace c = true
  · rw [if_pos h0]; exact CallSpec.of_skip s c h0 (Or.inl hs)
  rw [if_neg h0]
  by_cases h3 : (c == '}') = true
  · rw [if_pos h3]
    exact stateEndValue_callSpec s _ c h1 h2 rfl rfl (fun _ => Or.inl hs)
      (fun hc => absurd hc h0)
  rw [if_neg h3]
  exact stateBeginString_callSpec s c hs

theorem Step.cases_group (st : Step) :
    st.stable = true ∨ st = .endValue ∨ st.numEnd = true ∨ st.inner = true ∨ st = .endTop ∨
      st = .error := by
  cases st <;> simp [Step.stable, Step.numEnd, Step.inner]

/-- Every call of the scanner meets its specification. -/
theorem call_spec (s : Scanner) (c : Char) : CallSpec s c (s.call c).1 (s.call c).2 := by
  rcases Step.cases_group s.step with h | h | h | h | h | h
  · have hs := h
    obtain ⟨st, et, ps, err⟩ := s
    cases st <;> first | (cases h; done) | skip
    · exact stateBeginValueOrEmpty_callSpec _ c hs
    · exact stateBeginValue_callSpec _ c hs
    · exact stateBeginStringOrEmpty_callSpec _ c hs
    · exact stateBeginString_callSpec _ c hs
  · rw [call_endValue s c h]
    exact afterValue_callSpec s c (Or.inl h) (call_endValue s c h)
  · rcases call_numEnd s c h with ⟨_, _, st, hst, hcall⟩ | hcall
    · rw [hcall]
      obtain ⟨h1, h2⟩ := Step.ne_of_numEnd s.step (Or.inr h)
      exact CallSpec.of_continue s c st h1 h2 hst
    · rw [hcall]
      exact afterValue_callSpec s c (Or.inr h) hcall
  · have h1 : s.step ≠ .endTop := by intro h1; rw [h1] at h; cases h
    have h2 : s.step ≠ .error := by intro h1; rw [h1] at h; cases h
    rcases call_inner s c h with ⟨st, hst, hcall⟩ | ⟨m, hcall⟩
    · rw [hcall]; exact CallSpec.of_continue s c st h1 h2 hst
    · rw [hcall]; exact CallSpec.of_error_call s s c m
  · have : s.call c = stateEndTop s c := by unfold Scanner.call; rw [h]
    rw [this]
    exact CallSpec.of_endTop s s c h rfl id
  · have : s.call c = (s, .error) := by unfold Scanner.call; rw [h]; rfl
    rw [this]
    exact CallSpec.of_stateError s c h

/-! ## The scanner: steps that skip spaces -/

theorem call_eq_spec (s s1 : Scanner) (c : Char) (v : Scan) (h : s.call c = (s1, v)) :
    CallSpec s c s1 v := by
  have := call_spec s c
  rw [h] at this
  exact this

theorem stateEndValue_step (s : Scanner) (x : Step) (c : Char) :
    stateEndValue { s with step := x } c = stateEndValue s c := by
  obtain ⟨st, et, ps, err⟩ := s
  cases ps with
  | nil => simp [stateEndValue, stateEndTop, Scanner.error]
  | cons p stack =>
    cases p <;> simp [stateEndValue, Scanner.error, Scanner.popParseState]

theorem stateEndValue_not_punct (s : Scanner) (c : Char) (hne : s.parseState ≠ [])
    (h1 : isSpace c = false) (h2 : isPunct c = false) : (stateEndValue s c).2 = .error := by
  have hp : ∀ d, d = '{' ∨ d = '[' ∨ d = ',' ∨ d = ':' ∨ d = '}' ∨ d = ']' → (c == d) = false := by
    intro d hd
    by_contra h
    rw [Bool.not_eq_false, beq_iff_eq] at h
    subst h
    rw [(isPunct_iff c).2 hd] at h2
    cases h2
  have h3 := hp ':' (by simp)
  have h4 := hp ',' (by simp)
  have h5 := hp '}' (by simp)
  have h6 := hp ']' (by simp)
  cases hps : s.parseState with
  | nil => exact absurd hps hne
  | cons p stack =>
    unfold stateEndValue
    rw [hps]
    cases p <;> simp only [h1, h3, h4, h5, h6, Bool.false_eq_true, if_false] <;> rfl

theorem call_stable_space (s : Scanner) (w : Char) (hs : s.step.stable = true)
    (hw : isSpace w = true) : s.call w = (s, .skipSpace) := by
  obtain ⟨st, et, ps, err⟩ := s
  cases st <;> first | (cases hs; done) | skip
  all_goals
    simp only [Scanner.call, stateBeginValueOrEmpty, stateBeginValue, stateBeginStringOrEmpty,
      stateBeginString]
    rw [if_pos hw]

theorem call_endValue_space (s : Scanner) (w : Char) (hs : s.step = .endValue)
    (hp : s.parseState ≠ []) (hw : isSpace w = true) : s.call w = (s, .skipSpace) := by
  obtain ⟨st, et, ps, err⟩ := s
  simp only at hs hp
  subst hs
  cases ps with
  | nil => exact absurd rfl hp
  | cons p stack =>
    simp only [Scanner.call, stateEndValue]
    rw [if_pos hw]

theorem call_numEnd_space (s : Scanner) (w : Char) (hs : s.step.numEnd = true)
    (hp : s.parseState ≠ []) (hw : isSpace w = true) :
    s.call w = ({ s with step := .endValue }, .skipSpace) := by
  rcases call_numEnd s w hs with ⟨h1, _⟩ | h
  · rw [hw] at h1; cases h1
  · rw [h]
    cases hps : s.parseState with
    | nil => exact absurd hps hp
    | cons p stack =>
      unfold stateEndValue
      rw [hps]
      simp only
      rw [if_pos hw]

theorem Skips.of_stable (s : Scanner) (hs : s.step.stable = true) : s.Skips :=
  fun w hw => call_stable_space s w hs hw

theorem Skips.of_endValue (s : Scanner) (hs : s.step = .endValue) (hp : s.parseState ≠ []) :
    s.Skips :=
  fun w hw => call_endValue_space s w hs hp hw

theorem Sim.refl (s : Scanner) : Sim s s := Or.inl rfl

theorem Sim.eq_of_ne (s s' : Scanner) (h : Sim s s') (hs : s.step ≠ .endValue) : s' = s := by
  rcases h with h | ⟨h, _⟩
  · exact h
  · exact absurd h hs

theorem call_sim (s s' s1 : Scanner) (c : Char) (v : Scan) (hsim : Sim s s')
    (h : s.call c = (s1, v)) (he : v ≠ .error) : s'.call c = (s1, v) := by
  rcases hsim with hs | ⟨hs, hp, st, hst, hs'⟩
  · rw [hs]; exact h
  · subst hs'
    rw [call_endValue s c hs] at h
    rcases call_numEnd { s with step := st } c hst with ⟨h1, h2, _⟩ | h3
    · have := stateEndValue_not_punct s c hp h1 h2
      rw [h] at this
      exact absurd this he
    · rw [h3, stateEndValue_step, h]

theorem skip_sim (s s' s1 : Scanner) (c : Char) (hsim : Sim s s')
    (h : s.call c = (s1, .skipSpace)) : Sim s1 s' := by
  obtain ⟨_, h1⟩ := (call_eq_spec s s1 c _ h).skip rfl
  rcases h1 with ⟨h2, _⟩ | ⟨h2, h3, h4⟩
  · rw [h2]; exact hsim
  · have hne : s.step ≠ .endValue := by intro h5; rw [h5] at h2; cases h2
    rw [Sim.eq_of_ne s s' hsim hne, h4]
    exact Or.inr ⟨rfl, h3, s.step, h2, rfl⟩

theorem skip_stable (s s1 : Scanner) (c : Char) (h : s.call c = (s1, .skipSpace))
    (hs : s.step.stable = true) : s1 = s := by
  obtain ⟨_, h1⟩ := (call_eq_spec s s1 c _ h).skip rfl
  rcases h1 with ⟨h2, _⟩ | ⟨h2, _⟩
  · exact h2
  · rw [(Step.ne_of_stable s.step hs).2.2.2] at h2; cases h2

theorem call_open_sep (s s1 : Scanner) (c : Char) (v : Scan) (h : s.call c = (s1, v))
    (hc : c = '{' ∨ c = '[' ∨ c = ',' ∨ c = ':') (h1 : v ≠ .continue_) (h2 : v ≠ .error)
    (h3 : v ≠ .end_) : s1.step.stable = true := by
  have sp := call_eq_spec s s1 c v h
  have hsp : isSpace c = false := by
    rcases hc with h | h | h | h <;> subst h <;> decide
  have hpu : isPunct c = true := by
    rcases hc with h | h | h | h <;> subst h <;> decide
  cases v
  · exact absurd rfl h1
  · rw [(sp.literal rfl).2] at hpu; cases hpu
  · exact (sp.beginObject rfl).2
  · exact (sp.objectKey rfl).2
  · exact (sp.objectValue rfl).2
  · have := (sp.endObject rfl).1
    rcases hc with h | h | h | h <;> subst h <;> exact absurd this (by decide)
  · exact (sp.beginArray rfl).2
  · exact (sp.arrayValue rfl).2
  · have := (sp.endArray rfl).1
    rcases hc with h | h | h | h <;> subst h <;> exact absurd this (by decide)
  · rw [(sp.skip rfl).1] at hsp; cases hsp
  · exact absurd rfl h3
  · exact absurd rfl h2

theorem call_close (s s1 : Scanner) (c : Char) (v : Scan) (h : s.call c = (s1, v))
    (hc : c = '}' ∨ c = ']') (h1 : v ≠ .continue_) (h2 : v ≠ .error)
    (h3 : v ≠ .end_) : v = .endObject ∨ v = .endArray := by
  have sp := call_eq_spec s s1 c v h
  have hsp : isSpace c = false := by
    rcases hc with h | h <;> subst h <;> decide
  have hpu : isPunct c = true := by
    rcases hc with h | h <;> subst h <;> decide
  cases v
  · exact absurd rfl h1
  · rw [(sp.literal rfl).2] at hpu; cases hpu
  · have := (sp.beginObject rfl).1
    rcases hc with h | h <;> subst h <;> exact absurd this (by decide)
  · have := (sp.objectKey rfl).1
    rcases hc with h | h <;> subst h <;> exact absurd this (by decide)
  · have := (sp.objectValue rfl).1
    rcases hc with h | h <;> subst h <;> exact absurd this (by decide)
  · exact Or.inl rfl
  · have := (sp.beginArray rfl).1
    rcases hc with h | h <;> subst h <;> exact absurd this (by decide)
  · have := (sp.arrayValue rfl).1
    rcases hc with h | h <;> subst h <;> exact absurd this (by decide)
  · exact Or.inr rfl
  · rw [(sp.skip rfl).1] at hsp; cases hsp
  · exact absurd rfl h3
  · exact absurd rfl h2

theorem call_end_char (s s1 : Scanner) (c : Char) (v : Scan) (h : s.call c = (s1, v))
    (hv : v = .endObject ∨ v = .endArray) : c = '}' ∨ c = ']' := by
  have sp := call_eq_spec s s1 c v h
  rcases hv with h | h
  · exact Or.inl (sp.endObject h).1
  · exact Or.inr (sp.endArray h).1

theorem call_close_space (s s' s1 : Scanner) (c : Char) (v : Scan) (hsim : Sim s s')
    (h : s.call c = (s1, v)) (hv : v = .endObject ∨ v = .endArray) :
    ∃ s2, (∀ w, isSpace w = true → s'.call w = (s2, .skipSpace)) ∧ s2.Skips ∧
      s2.call c = (s1, v) := by
  have sp := call_eq_spec s s1 c v h
  have hcl : Closing s c := by
    rcases hv with h | h
    · exact (sp.endObject h).2
    · exact (sp.endArray h).2
  rcases hcl with hst | ⟨hst | hst, hp, hcall⟩
  · have hs' := Sim.eq_of_ne s s' hsim (Step.ne_of_stable s.step hst).2.2.1
    subst hs'
    exact ⟨s', fun w hw => call_stable_space s' w hst hw, Skips.of_stable s' hst, h⟩
  · refine ⟨s, fun w hw => ?_, Skips.of_endValue s hst hp, h⟩
    rcases hsim with hs | ⟨_, _, st, hnum, hs'⟩
    · rw [hs]; exact call_endValue_space s w hst hp hw
    · subst hs'
      rw [call_numEnd_space { s with step := st } w hnum hp hw]
      cases s
      simp only at hst
      subst hst
      rfl
  · have hne : s.step ≠ .endValue := by intro h5; rw [h5] at hst; cases hst
    have hs' := Sim.eq_of_ne s s' hsim hne
    subst hs'
    refine ⟨{ s' with step := .endValue }, fun w hw => call_numEnd_space s' w hst hp hw,
      Skips.of_endValue _ rfl hp, ?_⟩
    rw [call_endValue _ c rfl, stateEndValue_step, ← hcall, h]

/-! ## What one step of `Indent` writes -/

theorem newline_space (indent : GoString) (hind : ∀ x ∈ indent, isSpace x = true) (d : Int) :
    ∀ x ∈ newline [] indent d, isSpace x = true := by
  intro x hx
  simp only [newline, List.nil_append, List.mem_cons, List.mem_flatten, List.mem_replicate] at hx
  rcases hx with h | ⟨l, ⟨_, hl⟩, hx⟩
  · subst h; decide
  · subst hl; exact hind x hx

theorem newline_ne_nil (indent : GoString) (d : Int) : newline [] indent d ≠ [] := by
  simp [newline]

/-- The second part of `indentStep`, after the delayed indent. -/
theorem indentStep_eq (pre indent : GoString) (ni : Bool) (d : Int) (c : Char) (v : Scan) :
    indentStep pre indent ni d c v =
      if ni = true ∧ v ≠ .endObject ∧ v ≠ .endArray then
        (if v = .continue_ then (newline pre indent (d + 1) ++ [c], false, d + 1)
         else if (c == '{' || c == '[') = true then (newline pre indent (d + 1) ++ [c], true, d + 1)
         else if (c == ',') = true then
          (newline pre indent (d + 1) ++ c :: newline pre indent (d + 1), false, d + 1)
         else if (c == ':') = true then (newline pre indent (d + 1) ++ [c, ' '], false, d + 1)
         else if (c == '}' || c == ']') = true then
          (newline pre indent (d + 1) ++ (newline pre indent (d + 1 - 1) ++ [c]), false, d + 1 - 1)
         else (newline pre indent (d + 1) ++ [c], false, d + 1))
      else
        (if v = .continue_ then ([c], ni, d)
         else if (c == '{' || c == '[') = true then ([c], true, d)
         else if (c == ',') = true then (c :: newline pre indent d, ni, d)
         else if (c == ':') = true then ([c, ' '], ni, d)
         else if (c == '}' || c == ']') = true then
          (if ni = true then ([c], false, d) else (newline pre indent (d - 1) ++ [c], ni, d - 1))
         else ([c], ni, d)) := by
  unfold indentStep
  by_cases h : ni = true ∧ v ≠ .endObject ∧ v ≠ .endArray
  · rw [if_pos h]
    have hdo : (ni && v != .endObject && v != .endArray) = true := by
      simp [h.1, h.2.1, h.2.2]
    simp only [hdo, if_true, Bool.false_eq_true, if_false]
  · rw [if_neg h]
    have hdo : (ni && v != .endObject && v != .endArray) = false := by
      rw [Bool.eq_false_iff]
      intro h1
      apply h
      simpa [Bool.and_eq_true, and_assoc] using h1
    simp only [hdo, Bool.false_eq_true, if_false, List.nil_append]


theorem beq_or_iff (c a b : Char) : (c == a || c == b) = true ↔ c = a ∨ c = b := by
  simp

/-- What `indentStep` writes: the character, with white space before it only
for a delayed indent or before a closing bracket, and after it only after a
comma or a colon; and `needIndent` is set only by an opening bracket. -/
theorem indentStep_shape (indent : GoString) (ni : Bool) (d : Int) (c : Char) (v : Scan) :
    ∃ pre post, (indentStep [] indent ni d c v).1 = pre ++ c :: post ∧
      ((∀ x ∈ indent, isSpace x = true) →
        (∀ x ∈ pre, isSpace x = true) ∧ (∀ x ∈ post, isSpace x = true)) ∧
      (pre ≠ [] → (ni = true ∧ v ≠ .endObject ∧ v ≠ .endArray) ∨
        ((c = '}' ∨ c = ']') ∧ v ≠ .continue_)) ∧
      (post ≠ [] → (c = ',' ∨ c = ':') ∧ v ≠ .continue_) ∧
      ((indentStep [] indent ni d c v).2.1 = true →
        ((c = '{' ∨ c = '[') ∧ v ≠ .continue_) ∨
        (ni = true ∧ (v = .endObject ∨ v = .endArray) ∧ c ≠ '}' ∧ c ≠ ']')) := by
  have hnl := fun hind => newline_space indent hind
  have hsp : ∀ x ∈ [' '], isSpace x = true := by
    intro x hx
    rw [List.mem_singleton] at hx
    subst hx
    decide
  have hnil : ∀ x ∈ ([] : GoString), isSpace x = true := fun x hx => by cases hx
  have happ : ∀ a b : GoString, (∀ x ∈ a, isSpace x = true) → (∀ x ∈ b, isSpace x = true) →
      ∀ x ∈ a ++ b, isSpace x = true := by
    intro a b ha hb x hx
    rcases List.mem_append.1 hx with h | h
    · exact ha x h
    · exact hb x h
  rw [indentStep_eq]
  by_cases h : ni = true ∧ v ≠ .endObject ∧ v ≠ .endArray
  · rw [if_pos h]
    by_cases hv : v = .continue_
    · rw [if_pos hv]
      exact ⟨_, [], rfl, fun hind => ⟨hnl hind _, hnil⟩, fun _ => Or.inl h, fun h1 => absurd rfl h1,
        fun h1 => (by cases h1)⟩
    rw [if_neg hv]
    by_cases h1 : (c == '{' || c == '[') = true
    · rw [if_pos h1]
      exact ⟨_, [], rfl, fun hind => ⟨hnl hind _, hnil⟩, fun _ => Or.inl h, fun h2 => absurd rfl h2,
        fun _ => Or.inl ⟨(beq_or_iff c _ _).1 h1, hv⟩⟩
    rw [if_neg h1]
    by_cases h2 : (c == ',') = true
    · rw [if_pos h2]
      exact ⟨_, _, rfl, fun hind => ⟨hnl hind _, hnl hind _⟩, fun _ => Or.inl h,
        fun _ => ⟨Or.inl (by simpa using h2), hv⟩, fun h3 => (by cases h3)⟩
    rw [if_neg h2]
    by_cases h3 : (c == ':') = true
    · rw [if_pos h3]
      exact ⟨_, _, rfl, fun hind => ⟨hnl hind _, hsp⟩, fun _ => Or.inl h,
        fun _ => ⟨Or.inr (by simpa using h3), hv⟩, fun h4 => (by cases h4)⟩
    rw [if_neg h3]
    by_cases h4 : (c == '}' || c == ']') = true
    · rw [if_pos h4]
      refine ⟨newline [] indent (d + 1) ++ newline [] indent (d + 1 - 1), [], ?_,
        fun hind => ⟨happ _ _ (hnl hind _) (hnl hind _), hnil⟩, fun _ => Or.inl h, fun h5 => absurd rfl h5,
        fun h5 => (by cases h5)⟩
      simp only [List.append_assoc, List.singleton_append]
    rw [if_neg h4]
    exact ⟨_, [], rfl, fun hind => ⟨hnl hind _, hnil⟩, fun _ => Or.inl h, fun h5 => absurd rfl h5,
      fun h5 => (by cases h5)⟩
  · rw [if_neg h]
    have hni : ni = true → (v = .endObject ∨ v = .endArray) := by
      intro h1
      by_contra h2
      rw [not_or] at h2
      exact h ⟨h1, h2.1, h2.2⟩
    by_cases hv : v = .continue_
    · rw [if_pos hv]
      refine ⟨[], [], rfl, fun _ => ⟨hnil, hnil⟩, fun h1 => absurd rfl h1, fun h1 => absurd rfl h1,
        fun h1 => ?_⟩
      rcases hni h1 with h2 | h2 <;> (rw [hv] at h2; cases h2)
    rw [if_neg hv]
    by_cases h1 : (c == '{' || c == '[') = true
    · rw [if_pos h1]
      exact ⟨[], [], rfl, fun _ => ⟨hnil, hnil⟩, fun h2 => absurd rfl h2, fun h2 => absurd rfl h2,
        fun _ => Or.inl ⟨(beq_or_iff c _ _).1 h1, hv⟩⟩
    rw [if_neg h1]
    by_cases h4 : (c == '}' || c == ']') = true
    · have h2 : (c == ',') = false := by
        rcases (beq_or_iff c _ _).1 h4 with h5 | h5 <;> subst h5 <;> decide
      have h3 : (c == ':') = false := by
        rcases (beq_or_iff c _ _).1 h4 with h5 | h5 <;> subst h5 <;> decide
      simp only [h2, h3, Bool.false_eq_true, if_false]
      rw [if_pos h4]
      by_cases h5 : ni = true
      · rw [if_pos h5]
        exact ⟨[], [], rfl, fun _ => ⟨hnil, hnil⟩, fun h2 => absurd rfl h2, fun h2 => absurd rfl h2,
          fun h6 => (by cases h6)⟩
      · rw [if_neg h5]
        exact ⟨_, [], rfl, fun hind => ⟨hnl hind _, hnil⟩, fun _ => Or.inr ⟨(beq_or_iff c _ _).1 h4, hv⟩,
          fun h2 => absurd rfl h2, fun h6 => absurd h6 h5⟩
    have hc : c ≠ '}' ∧ c ≠ ']' := by
      constructor <;> (intro h5; subst h5; exact h4 (by decide))
    by_cases h2 : (c == ',') = true
    · rw [if_pos h2]
      exact ⟨[], _, rfl, fun hind => ⟨hnil, hnl hind _⟩, fun h5 => absurd rfl h5,
        fun _ => ⟨Or.inl (by simpa using h2), hv⟩, fun h5 => Or.inr ⟨h5, hni h5, hc⟩⟩
    rw [if_neg h2]
    by_cases h3 : (c == ':') = true
    · rw [if_pos h3]
      exact ⟨[], _, rfl, fun _ => ⟨hnil, hsp⟩, fun h5 => absurd rfl h5,
        fun _ => ⟨Or.inr (by simpa using h3), hv⟩, fun h5 => Or.inr ⟨h5, hni h5, hc⟩⟩
    rw [if_neg h3, if_neg h4]
    exact ⟨[], [], rfl, fun _ => ⟨hnil, hnil⟩, fun h5 => absurd rfl h5, fun h5 => absurd rfl h5,
      fun h5 => Or.inr ⟨h5, hni h5, hc⟩⟩

/-! ## `Compact` after `Indent`, `Indent` after `Compact` -/

theorem checkValidLoop_cons (s s1 : Scanner) (c : Char) (v : Scan) (rest : GoString)
    (h : s.call c = (s1, v)) (he : v ≠ .error) :
    checkValidLoop s (c :: rest) = checkValidLoop s1 rest := by
  rw [checkValidLoop, h]
  cases v <;> first | rfl | exact absurd rfl he

theorem checkValidLoop_error (s s1 : Scanner) (c : Char) (rest : GoString)
    (h : s.call c = (s1, .error)) : checkValidLoop s (c :: rest) = s1 := by
  rw [checkValidLoop, h]

theorem indentLoop_cons (pre indent : GoString) (s s1 : Scanner) (ni : Bool) (d : Int)
    (c : Char) (v : Scan) (rest : GoString) (h : s.call c = (s1, v)) (hk : v ≠ .skipSpace)
    (he : v ≠ .error) :
    indentLoop pre indent s ni d (c :: rest)
      = ((indentLoop pre indent s1 (indentStep pre indent ni d c v).2.1
            (indentStep pre indent ni d c v).2.2 rest).1,
         (indentStep pre indent ni d c v).1 ++
          (indentLoop pre indent s1 (indentStep pre indent ni d c v).2.1
            (indentStep pre indent ni d c v).2.2 rest).2) := by
  rw [indentLoop, h]
  simp only
  rw [if_neg hk, if_neg he]

theorem indentLoop_skip (pre indent : GoString) (s s1 : Scanner) (ni : Bool) (d : Int)
    (c : Char) (rest : GoString) (h : s.call c = (s1, .skipSpace)) :
    indentLoop pre indent s ni d (c :: rest) = indentLoop pre indent s1 ni d rest := by
  rw [indentLoop, h]
  simp only [if_true]

theorem compactLoop_cons (s s1 : Scanner) (c : Char) (v : Scan) (rest : GoString)
    (h : s.call c = (s1, v)) (hk : v ≠ .skipSpace) (he : v ≠ .error) (hend : v ≠ .end_) :
    compactLoop s (c :: rest) = ((compactLoop s1 rest).1, c :: (compactLoop s1 rest).2) := by
  have hcode : ¬ (Scan.skipSpace.code ≤ v.code) := by
    cases v <;> simp_all [Scan.code]
  rw [compactLoop, h]
  simp only
  rw [if_neg hcode]

theorem compactLoop_skip_one (s s2 : Scanner) (w : Char) (X : GoString)
    (h : s.call w = (s2, .skipSpace)) : compactLoop s (w :: X) = compactLoop s2 X := by
  rw [compactLoop, h]
  simp only
  rw [if_pos (by decide), if_neg (by decide)]

theorem compactLoop_skip (s : Scanner) (hs : s.Skips) (ws X : GoString)
    (hws : ∀ x ∈ ws, isSpace x = true) : compactLoop s (ws ++ X) = compactLoop s X := by
  induction ws with
  | nil => rfl
  | cons w rest ih =>
    rw [List.cons_append, compactLoop_skip_one s s w _ (hs w (hws w (List.mem_cons_self _ _)))]
    exact ih (fun x hx => hws x (List.mem_cons_of_mem _ hx))

theorem cleanRun_cons (s s1 : Scanner) (c : Char) (v : Scan) (rest : GoString)
    (h : s.call c = (s1, v)) (hclean : cleanRun s (c :: rest) = true) :
    v ≠ .error ∧ v ≠ .end_ ∧ cleanRun s1 rest = true := by
  simp only [cleanRun, h, Bool.and_eq_true, bne_iff_ne, ne_eq] at hclean
  exact ⟨hclean.1.1, hclean.1.2, hclean.2⟩

/-- Indenting the compacted text gives what indenting the text gives. -/
theorem indentLoop_compactLoop (pre indent : GoString) (src : GoString) :
    ∀ (s s' : Scanner) (ni : Bool) (d : Int), Sim s s' → cleanRun s src = true →
      (indentLoop pre indent s' ni d (compactLoop s src).2).2
          = (indentLoop pre indent s ni d src).2 ∧
      Sim (compactLoop s src).1 (indentLoop pre indent s' ni d (compactLoop s src).2).1 := by
  induction src with
  | nil =>
    intro s s' ni d hsim _
    exact ⟨rfl, hsim⟩
  | cons c rest ih =>
    intro s s' ni d hsim hclean
    rcases hcall : s.call c with ⟨s1, v⟩
    obtain ⟨he, hend, hrest⟩ := cleanRun_cons s s1 c v rest hcall hclean
    by_cases hk : v = .skipSpace
    · subst hk
      have hsim1 := skip_sim s s' s1 c hsim hcall
      rw [compactLoop_skip_one s s1 c rest hcall, indentLoop_skip pre indent s s1 ni d c rest hcall]
      exact ih s1 s' ni d hsim1 hrest
    · have hcall' := call_sim s s' s1 c v hsim hcall he
      have := ih s1 s1 (indentStep pre indent ni d c v).2.1 (indentStep pre indent ni d c v).2.2
        (Sim.refl s1) hrest
      rw [compactLoop_cons s s1 c v rest hcall hk he hend,
        indentLoop_cons pre indent s s1 ni d c v rest hcall hk he,
        indentLoop_cons pre indent s' s1 ni d c v _ hcall' hk he]
      exact ⟨by rw [this.1], this.2⟩

/-- Compacting the indented text gives what compacting the text gives. -/
theorem compactLoop_indentLoop (indent : GoString) (hind : ∀ x ∈ indent, isSpace x = true)
    (src : GoString) :
    ∀ (s s' : Scanner) (ni : Bool) (d : Int), Sim s s' → cleanRun s src = true →
      (ni = true → s.step.stable = true) →
      (compactLoop s' (indentLoop [] indent s ni d src).2).2 = (compactLoop s src).2 ∧
      Sim (compactLoop s src).1 (compactLoop s' (indentLoop [] indent s ni d src).2).1 := by
  induction src with
  | nil =>
    intro s s' ni d hsim _ _
    exact ⟨rfl, hsim⟩
  | cons c rest ih =>
    intro s s' ni d hsim hclean hni
    rcases hcall : s.call c with ⟨s1, v⟩
    obtain ⟨he, hend, hrest⟩ := cleanRun_cons s s1 c v rest hcall hclean
    by_cases hk : v = .skipSpace
    · subst hk
      have hsim1 := skip_sim s s' s1 c hsim hcall
      have hni1 : ni = true → s1.step.stable = true := by
        intro h
        rw [skip_stable s s1 c hcall (hni h)]
        exact hni h
      rw [compactLoop_skip_one s s1 c rest hcall, indentLoop_skip [] indent s s1 ni d c rest hcall]
      exact ih s1 s' ni d hsim1 hrest hni1
    · obtain ⟨pre, post, hshape, hsp, hpre1, hpost1, hni1⟩ := indentStep_shape indent ni d c v
      obtain ⟨hpre, hpost⟩ := hsp hind
      -- the characters written before `c`
      have hP : ∃ s2, (∀ X, compactLoop s' (pre ++ X) = compactLoop s2 X) ∧
          s2.call c = (s1, v) := by
        cases pre with
        | nil => exact ⟨s', fun X => rfl, call_sim s s' s1 c v hsim hcall he⟩
        | cons w pre1 =>
          rcases hpre1 (List.cons_ne_nil _ _) with ⟨h1, _, _⟩ | ⟨h1, h2⟩
          · have hst := hni h1
            have hss := Sim.eq_of_ne s s' hsim (Step.ne_of_stable s.step hst).2.2.1
            subst hss
            exact ⟨s', fun X => compactLoop_skip s' (Skips.of_stable s' hst) _ X hpre, hcall⟩
          · have hv := call_close s s1 c v hcall h1 h2 he hend
            obtain ⟨s2, hw, hskips, hc2⟩ := call_close_space s s' s1 c v hsim hcall hv
            refine ⟨s2, fun X => ?_, hc2⟩
            rw [List.cons_append,
              compactLoop_skip_one s' s2 w _ (hw w (hpre w (List.mem_cons_self _ _)))]
            exact compactLoop_skip s2 hskips _ X (fun x hx => hpre x (List.mem_cons_of_mem _ hx))
      obtain ⟨s2, hP1, hP2⟩ := hP
      -- the characters written after `c`
      have hQ : ∀ X, compactLoop s1 (post ++ X) = compactLoop s1 X := by
        intro X
        cases post with
        | nil => rfl
        | cons w post1 =>
          obtain ⟨h1, h2⟩ := hpost1 (List.cons_ne_nil _ _)
          have hst := call_open_sep s s1 c v hcall (Or.inr (Or.inr h1)) h2 he hend
          exact compactLoop_skip s1 (Skips.of_stable s1 hst) _ X hpost
      have hni2 : (indentStep [] indent ni d c v).2.1 = true → s1.step.stable = true := by
        intro h
        rcases hni1 h with ⟨h1, h2⟩ | ⟨_, h2, h3, h4⟩
        · exact call_open_sep s s1 c v hcall
            (h1.elim Or.inl (fun h => Or.inr (Or.inl h))) h2 he hend
        · rcases call_end_char s s1 c v hcall h2 with h5 | h5
          · exact absurd h5 h3
          · exact absurd h5 h4
      have := ih s1 s1 (indentStep [] indent ni d c v).2.1 (indentStep [] indent ni d c v).2.2
        (Sim.refl s1) hrest hni2
      rw [indentLoop_cons [] indent s s1 ni d c v rest hcall hk he, hshape]
      simp only [List.append_assoc, List.cons_append]
      rw [hP1, compactLoop_cons s2 s1 c v _ hP2 hk he hend, hQ,
        compactLoop_cons s s1 c v _ hcall hk he hend]
      exact ⟨by rw [this.1], this.2⟩


/-- Compacting the compacted text changes nothing. -/
theorem compactLoop_compactLoop (src : GoString) :
    ∀ (s s' : Scanner), Sim s s' → cleanRun s src = true →
      (compactLoop s' (compactLoop s src).2).2 = (compactLoop s src).2 ∧
      Sim (compactLoop s src).1 (compactLoop s' (compactLoop s src).2).1 := by
  induction src with
  | nil =>
    intro s s' hsim _
    exact ⟨rfl, hsim⟩
  | cons c rest ih =>
    intro s s' hsim hclean
    rcases hcall : s.call c with ⟨s1, v⟩
    obtain ⟨he, hend, hrest⟩ := cleanRun_cons s s1 c v rest hcall hclean
    by_cases hk : v = .skipSpace
    · subst hk
      rw [compactLoop_skip_one s s1 c rest hcall]
      exact ih s1 s' (skip_sim s s' s1 c hsim hcall) hrest
    · have hcall' := call_sim s s' s1 c v hsim hcall he
      have := ih s1 s1 (Sim.refl s1) hrest
      rw [compactLoop_cons s s1 c v rest hcall hk he hend,
        compactLoop_cons s' s1 c v _ hcall' hk he hend]
      exact ⟨by rw [this.1], this.2⟩

/-! ## `bytes.TrimSpace` -/

theorem unicodeIsSpace_of_isSpace (c : Char) (h : isSpace c = true) :
    unicodeIsSpace c = true := by
  rcases (isSpace_iff c).1 h with h | h | h | h <;> subst h <;> decide

theorem isSpace_false_of_unicode (c : Char) (h : unicodeIsSpace c = false) :
    isSpace c = false := by
  by_contra h1
  rw [Bool.not_eq_false] at h1
  rw [unicodeIsSpace_of_isSpace c h1] at h
  cases h

theorem trimmed_trim (c : GoString) : Trimmed (bytesTrimSpace c) := by
  constructor
  · intro a ha
    unfold bytesTrimSpace at ha
    have hpre : (c.dropWhile unicodeIsSpace).rdropWhile unicodeIsSpace
        <+: c.dropWhile unicodeIsSpace := List.rdropWhile_prefix _ _
    obtain ⟨t, ht⟩ := hpre
    have h1 : (c.dropWhile unicodeIsSpace).head? = some a := by
      rw [← ht, List.head?_append, ha]
      rfl
    have := List.head?_dropWhile_not unicodeIsSpace c
    rw [h1] at this
    exact this
  · intro b hb
    unfold bytesTrimSpace at hb
    have hne : (c.dropWhile unicodeIsSpace).rdropWhile unicodeIsSpace ≠ [] := by
      intro h
      rw [h] at hb
      cases hb
    have := List.rdropWhile_last_not unicodeIsSpace (c.dropWhile unicodeIsSpace) hne
    rw [List.getLast?_eq_getLast _ hne] at hb
    cases hb
    simpa using this

theorem dropWhile_of_trimmed (x : GoString) (h : Trimmed x) :
    x.dropWhile unicodeIsSpace = x := by
  cases x with
  | nil => rfl
  | cons a l => exact List.dropWhile_cons_of_neg (by simp [h.1 a rfl])

theorem rdropWhile_of_trimmed (x : GoString) (h : Trimmed x) :
    x.rdropWhile unicodeIsSpace = x := by
  rw [List.rdropWhile_eq_self_iff]
  intro hl
  have := h.2 _ (List.getLast?_eq_getLast x hl)
  simp [this]

theorem trim_of_trimmed (x : GoString) (h : Trimmed x) : bytesTrimSpace x = x := by
  unfold bytesTrimSpace
  rw [dropWhile_of_trimmed x h, rdropWhile_of_trimmed x h]

theorem trim_append_newline (x : GoString) (h : Trimmed x) :
    bytesTrimSpace (x ++ ['\n']) = x := by
  unfold bytesTrimSpace
  cases x with
  | nil => decide
  | cons a l =>
    have h1 : (a :: l ++ ['\n']).dropWhile unicodeIsSpace = a :: l ++ ['\n'] :=
      List.dropWhile_cons_of_neg (by simp [h.1 a rfl])
    rw [h1, List.rdropWhile_concat_pos _ _ _ (by decide)]
    exact rdropWhile_of_trimmed _ h

/-! ## Valid texts -/

theorem eof_of_err (s : Scanner) (h : s.err ≠ none) : s.eof.2 = .error := by
  unfold Scanner.eof
  rw [if_pos h]

theorem eof_of_stable (s : Scanner) (hwf : s.WF) (hs : s.step.stable = true) :
    s.eof.2 = .error := by
  obtain ⟨h1, h2, _, _⟩ := Step.ne_of_stable s.step hs
  have hf : s.endTop = false := by
    by_contra h3
    rw [Bool.not_eq_false] at h3
    rcases hwf.2 h3 with h5 | h5
    · exact absurd h5 h1
    · exact absurd h5 h2
  unfold Scanner.eof
  by_cases he : s.err ≠ none
  · rw [if_pos he]
  · rw [if_neg he]
    simp only [hf, Bool.false_eq_true, if_false, call_stable_space s ' ' hs (by decide)]
    split <;> rfl

theorem eof_sim (s s' : Scanner) (h : Sim s s') : s'.eof.2 = s.eof.2 := by
  rcases h with h | ⟨hs, hp, st, hst, h⟩
  · rw [h]
  · subst h
    have h1 : (s.call ' ').1 = s := by rw [call_endValue_space s ' ' hs hp (by decide)]
    have h2 : (({ s with step := st } : Scanner).call ' ').1 = s := by
      rw [call_numEnd_space { s with step := st } ' ' hst hp (by decide)]
      cases s
      simp only at hs
      subst hs
      rfl
    unfold Scanner.eof
    simp only [h1, h2]
    split
    · rfl
    · split
      · rfl
      · rfl

theorem checkValidLoop_err (src : GoString) :
    ∀ s : Scanner, s.err ≠ none → (checkValidLoop s src).err ≠ none := by
  induction src with
  | nil => exact fun s h => h
  | cons c rest ih =>
    intro s h
    rcases hcall : s.call c with ⟨s1, v⟩
    have h1 := (call_eq_spec s s1 c v hcall).errMono h
    by_cases he : v = .error
    · subst he
      rw [checkValidLoop_error s s1 c rest hcall]
      exact h1
    · rw [checkValidLoop_cons s s1 c v rest hcall he]
      exact ih s1 h1

/-- After the top-level value, a valid text has spaces only. -/
theorem endTop_spaces (src : GoString) :
    ∀ s : Scanner, s.step = .endTop → (checkValidLoop s src).eof.2 ≠ .error →
      ∀ x ∈ src, isSpace x = true := by
  induction src with
  | nil => exact fun _ _ _ x hx => by cases hx
  | cons c rest ih =>
    intro s hs hv x hx
    have hcall : s.call c = stateEndTop s c := by unfold Scanner.call; rw [hs]
    by_cases hc : isSpace c = true
    · have h1 : s.call c = (s, .end_) := by
        rw [hcall]; unfold stateEndTop; simp [hc]
      rw [checkValidLoop_cons s s c _ rest h1 (by decide)] at hv
      rcases List.mem_cons.1 hx with h | h
      · rw [h]; exact hc
      · exact ih s hs hv x h
    · exfalso
      have h1 : s.call c = ((s.error c "after top-level value").1, .end_) := by
        rw [hcall]; unfold stateEndTop; simp [hc]
      rw [checkValidLoop_cons s _ c _ rest h1 (by decide)] at hv
      exact hv (eof_of_err _ (checkValidLoop_err rest _ (by simp [Scanner.error])))

theorem getLast?_cons_of_ne_nil (c : Char) (rest : GoString) (h : rest ≠ []) :
    (c :: rest).getLast? = rest.getLast? := by
  cases rest with
  | nil => exact absurd rfl h
  | cons a l => exact List.getLast?_cons_cons

/-- A valid text that does not end with a space meets neither `scanError` nor
`scanEnd`. -/
theorem clean_of_valid (src : GoString) :
    ∀ s : Scanner, s.WF → (checkValidLoop s src).eof.2 ≠ .error →
      (∀ b, src.getLast? = some b → isSpace b = false) → cleanRun s src = true := by
  induction src with
  | nil => exact fun _ _ _ _ => rfl
  | cons c rest ih =>
    intro s hwf hv hlast
    rcases hcall : s.call c with ⟨s1, v⟩
    have sp := call_eq_spec s s1 c v hcall
    have he : v ≠ .error := by
      intro he
      subst he
      rw [checkValidLoop_error s s1 c rest hcall] at hv
      exact hv (eof_of_err s1 (sp.error rfl hwf))
    rw [checkValidLoop_cons s s1 c v rest hcall he] at hv
    have hend : v ≠ .end_ := by
      intro hend
      rcases sp.end_ hend with h1 | ⟨h1, h2⟩
      · exact hv (eof_of_err _ (checkValidLoop_err rest s1 h1))
      · have hsp := endTop_spaces rest s1 h2 hv
        cases hr : rest with
        | nil =>
          subst hr
          have := hlast c rfl
          rw [h1] at this
          cases this
        | cons a l =>
          have hne : rest ≠ [] := by rw [hr]; exact List.cons_ne_nil _ _
          have hl := List.getLast?_eq_getLast rest hne
          have := hlast _ (by rw [getLast?_cons_of_ne_nil c rest hne]; exact hl)
          rw [hsp _ (List.getLast_mem hne)] at this
          cases this
    have hrest : cleanRun s1 rest = true := by
      apply ih s1 (sp.wf hwf) hv
      intro b hb
      have hne : rest ≠ [] := by
        intro h
        rw [h] at hb
        cases hb
      exact hlast b (by rw [getLast?_cons_of_ne_nil c rest hne]; exact hb)
    simp only [cleanRun, hcall, Bool.and_eq_true, bne_iff_ne, ne_eq]
    exact ⟨⟨he, hend⟩, hrest⟩

theorem WF.reset : Scanner.reset.WF :=
  ⟨fun h => (by cases h), fun h => (by cases h)⟩


theorem call_not_skip (s s1 : Scanner) (c : Char) (v : Scan) (h : s.call c = (s1, v))
    (hc : isSpace c = false) : v ≠ .skipSpace := by
  intro hv
  have := ((call_eq_spec s s1 c v h).skip hv).1
  rw [hc] at this
  cases this

theorem head_compactLoop (s : Scanner) (c : Char) (rest : GoString) (hc : isSpace c = false)
    (hclean : cleanRun s (c :: rest) = true) :
    (compactLoop s (c :: rest)).2.head? = some c := by
  rcases hcall : s.call c with ⟨s1, v⟩
  obtain ⟨he, hend, _⟩ := cleanRun_cons s s1 c v rest hcall hclean
  rw [compactLoop_cons s s1 c v rest hcall (call_not_skip s s1 c v hcall hc) he hend]
  rfl

theorem last_compactLoop (src : GoString) :
    ∀ s : Scanner, cleanRun s src = true →
      (∀ b, src.getLast? = some b → isSpace b = false) →
      (compactLoop s src).2.getLast? = src.getLast? := by
  induction src with
  | nil => exact fun _ _ _ => rfl
  | cons c rest ih =>
    intro s hclean hlast
    rcases hcall : s.call c with ⟨s1, v⟩
    obtain ⟨he, hend, hrest⟩ := cleanRun_cons s s1 c v rest hcall hclean
    by_cases hr : rest = []
    · subst hr
      have hk := call_not_skip s s1 c v hcall (hlast c rfl)
      rw [compactLoop_cons s s1 c v [] hcall hk he hend]
      rfl
    · have hl : (c :: rest).getLast? = rest.getLast? := getLast?_cons_of_ne_nil c rest hr
      have h1 := ih s1 hrest (fun b hb => hlast b (by rw [hl]; exact hb))
      rw [hl]
      by_cases hk : v = .skipSpace
      · subst hk
        rw [compactLoop_skip_one s s1 c rest hcall]
        exact h1
      · rw [compactLoop_cons s s1 c v rest hcall hk he hend]
        have hne : (compactLoop s1 rest).2 ≠ [] := by
          intro h
          rw [h, List.getLast?_eq_getLast rest hr] at h1
          cases h1
        rw [getLast?_cons_of_ne_nil _ _ hne]
        exact h1

theorem pushParseState_snd (s : Scanner) (c : Char) (p : ParseState) (v : Scan) :
    (s.pushParseState c p v).2 = v ∨ (s.pushParseState c p v).2 = .error := by
  unfold Scanner.pushParseState
  simp only
  split
  · exact Or.inl rfl
  · exact Or.inr rfl

theorem beginValue_not_close (s s1 : Scanner) (c : Char) (v : Scan) (hs : s.step = .beginValue)
    (h : s.call c = (s1, v)) : v ≠ .endObject ∧ v ≠ .endArray := by
  have hcall : s.call c = stateBeginValue s c := by unfold Scanner.call; rw [hs]
  rw [hcall] at h
  have hv : (stateBeginValue s c).2 = v := by rw [h]
  have hx : ∀ w : Scan, w = .skipSpace ∨ w = .beginLiteral ∨ w = .error ∨ w = .beginObject ∨
      w = .beginArray → w ≠ .endObject ∧ w ≠ .endArray := by
    rintro w (h | h | h | h | h) <;> subst h <;> exact ⟨by decide, by decide⟩
  apply hx
  rw [← hv]
  rcases stateBeginValue_cases s c with ⟨_, h1⟩ | ⟨_, h1⟩ | ⟨_, h1⟩ | ⟨_, _, st, _, h1⟩ | ⟨m, h1⟩
  · rw [h1]; exact Or.inl rfl
  · rw [h1]
    rcases pushParseState_snd { s with step := .beginStringOrEmpty } c .objectKey .beginObject
      with h2 | h2
    · rw [h2]; exact Or.inr (Or.inr (Or.inr (Or.inl rfl)))
    · rw [h2]; exact Or.inr (Or.inr (Or.inl rfl))
  · rw [h1]
    rcases pushParseState_snd { s with step := .beginValueOrEmpty } c .arrayValue .beginArray
      with h2 | h2
    · rw [h2]; exact Or.inr (Or.inr (Or.inr (Or.inr rfl)))
    · rw [h2]; exact Or.inr (Or.inr (Or.inl rfl))
  · rw [h1]; exact Or.inr (Or.inl rfl)
  · rw [h1]; exact Or.inr (Or.inr (Or.inl rfl))

theorem head_indentLoop (indent : GoString) (s : Scanner) (d : Int) (c : Char) (rest : GoString) (hs : s.step = .beginValue)
    (hc : isSpace c = false) (hclean : cleanRun s (c :: rest) = true) :
    (indentLoop [] indent s false d (c :: rest)).2.head? = some c := by
  rcases hcall : s.call c with ⟨s1, v⟩
  obtain ⟨he, hend, _⟩ := cleanRun_cons s s1 c v rest hcall hclean
  have hk := call_not_skip s s1 c v hcall hc
  obtain ⟨pre, post, hshape, _, hpre1, _, _⟩ := indentStep_shape indent false d c v
  have hpre : pre = [] := by
    by_contra h
    rcases hpre1 h with ⟨h1, _⟩ | ⟨h1, h2⟩
    · cases h1
    · obtain ⟨h3, h4⟩ := beginValue_not_close s s1 c v hs hcall
      rcases call_close s s1 c v hcall h1 h2 he hend with h5 | h5
      · exact h3 h5
      · exact h4 h5
  rw [indentLoop_cons [] indent s s1 false d c v rest hcall hk he, hshape, hpre]
  rfl

theorem last_indentLoop (indent : GoString) (src : GoString) :
    ∀ (s : Scanner) (ni : Bool) (d : Int), s.WF → cleanRun s src = true →
      (checkValidLoop s src).eof.2 ≠ .error →
      (∀ b, src.getLast? = some b → isSpace b = false) →
      (indentLoop [] indent s ni d src).2.getLast? = src.getLast? := by
  induction src with
  | nil => exact fun _ _ _ _ _ _ _ => rfl
  | cons c rest ih =>
    intro s ni d hwf hclean hv hlast
    rcases hcall : s.call c with ⟨s1, v⟩
    obtain ⟨he, hend, hrest⟩ := cleanRun_cons s s1 c v rest hcall hclean
    rw [checkValidLoop_cons s s1 c v rest hcall he] at hv
    have hwf1 := (call_eq_spec s s1 c v hcall).wf hwf
    by_cases hr : rest = []
    · subst hr
      have hk := call_not_skip s s1 c v hcall (hlast c rfl)
      obtain ⟨pre, post, hshape, _, _, hpost1, _⟩ := indentStep_shape indent ni d c v
      have hpost : post = [] := by
        by_contra h
        obtain ⟨h1, h2⟩ := hpost1 h
        have hst := call_open_sep s s1 c v hcall (Or.inr (Or.inr h1)) h2 he hend
        exact hv (eof_of_stable s1 hwf1 hst)
      rw [indentLoop_cons [] indent s s1 ni d c v [] hcall hk he, hshape, hpost]
      simp [indentLoop]
    · have hl : (c :: rest).getLast? = rest.getLast? := getLast?_cons_of_ne_nil c rest hr
      rw [hl]
      by_cases hk : v = .skipSpace
      · subst hk
        rw [indentLoop_skip [] indent s s1 ni d c rest hcall]
        exact ih s1 ni d hwf1 hrest hv (fun b hb => hlast b (by rw [hl]; exact hb))
      · have h1 := ih s1 (indentStep [] indent ni d c v).2.1 (indentStep [] indent ni d c v).2.2
          hwf1 hrest hv (fun b hb => hlast b (by rw [hl]; exact hb))
        rw [indentLoop_cons [] indent s s1 ni d c v rest hcall hk he]
        have hne : (indentLoop [] indent s1 (indentStep [] indent ni d c v).2.1
            (indentStep [] indent ni d c v).2.2 rest).2 ≠ [] := by
          intro h
          rw [h, List.getLast?_eq_getLast rest hr] at h1
          cases h1
        rw [List.getLast?_append_of_ne_nil _ hne]
        exact h1

/-! ## Claims on the round trip -/

theorem valid_iff (src : GoString) :
    jsonValid src = true ↔ (checkValidLoop Scanner.reset src).eof.2 ≠ .error := by
  simp [jsonValid]

theorem trimmed_last (x : GoString) (h : Trimmed x) :
    ∀ b, x.getLast? = some b → isSpace b = false :=
  fun b hb => isSpace_false_of_unicode b (h.2 b hb)

theorem clean_of_trimmed_valid (t : GoString) (ht : Trimmed t) (hv : jsonValid t = true) :
    cleanRun Scanner.reset t = true :=
  clean_of_valid t Scanner.reset WF.reset ((valid_iff t).1 hv) (trimmed_last t ht)

/-- The outputs of compacting and of indenting a valid, trimmed text have no
white space at either end. -/
theorem output_trimmed (t i : GoString) (ht : Trimmed t) (hv : jsonValid t = true) :
    Trimmed (compactLoop Scanner.reset t).2 ∧
    Trimmed (indentLoop [] i Scanner.reset false 0 t).2 := by
  have hvalid := (valid_iff t).1 hv
  have hlast := trimmed_last t ht
  have hclean := clean_of_trimmed_valid t ht hv
  obtain ⟨a, rest, rfl⟩ : ∃ a rest, t = a :: rest := by
    cases t with
    | nil => exact absurd hv (by decide)
    | cons a rest => exact ⟨a, rest, rfl⟩
  have ha : isSpace a = false := isSpace_false_of_unicode a (ht.1 a rfl)
  refine ⟨⟨?_, ?_⟩, ⟨?_, ?_⟩⟩
  · intro x hx
    rw [head_compactLoop Scanner.reset a rest ha hclean] at hx
    cases hx
    exact ht.1 a rfl
  · intro x hx
    rw [last_compactLoop (a :: rest) Scanner.reset hclean hlast] at hx
    exact ht.2 x hx
  · intro x hx
    rw [head_indentLoop i Scanner.reset 0 a rest rfl ha hclean] at hx
    cases hx
    exact ht.1 a rfl
  · intro x hx
    rw [last_indentLoop i (a :: rest) Scanner.reset false 0 WF.reset hclean hvalid hlast] at hx
    exact ht.2 x hx

/-- The compacted form of a valid, trimmed text is valid, is its own
compacted form, and has the indented form of the text. -/
theorem compact_loops (t i : GoString) (ht : Trimmed t) (hv : jsonValid t = true) :
    jsonValid (compactLoop Scanner.reset t).2 = true ∧
    (compactLoop Scanner.reset (compactLoop Scanner.reset t).2).2
      = (compactLoop Scanner.reset t).2 ∧
    (indentLoop [] i Scanner.reset false 0 (compactLoop Scanner.reset t).2).2
      = (indentLoop [] i Scanner.reset false 0 t).2 := by
  have hvalid := (valid_iff t).1 hv
  have hclean := clean_of_trimmed_valid t ht hv
  have hc := compactLoop_compactLoop t Scanner.reset Scanner.reset (Sim.refl _) hclean
  have hd := indentLoop_compactLoop [] i t Scanner.reset Scanner.reset false 0
    (Sim.refl _) hclean
  refine ⟨?_, hc.1, hd.1⟩
  rw [valid_iff, ← compactLoop_scanner, eof_sim _ _ hc.2, compactLoop_scanner]
  exact hvalid

/-- The indented form, with an indent of white space, of a valid, trimmed
text is valid and has the compacted form of the text. -/
theorem indent_loops (t i : GoString) (ht : Trimmed t) (hv : jsonValid t = true)
    (hi : ∀ x ∈ i, isSpace x = true) :
    jsonValid (indentLoop [] i Scanner.reset false 0 t).2 = true ∧
    (compactLoop Scanner.reset (indentLoop [] i Scanner.reset false 0 t).2).2
      = (compactLoop Scanner.reset t).2 := by
  have hvalid := (valid_iff t).1 hv
  have hclean := clean_of_trimmed_valid t ht hv
  have hb := compactLoop_indentLoop i hi t Scanner.reset Scanner.reset false 0
    (Sim.refl _) hclean (fun h => by cases h)
  refine ⟨?_, hb.1⟩
  rw [valid_iff, ← compactLoop_scanner, eof_sim _ _ hb.2, compactLoop_scanner]
  exact hvalid

theorem formatInput_compact (input : GoString) (hv : jsonValid (bytesTrimSpace input) = true) :
    formatInput input formatCompact = .ok (compactLoop Scanner.reset (bytesTrimSpace input)).2 := by
  rw [formatInput_valid input _ hv, if_pos rfl, jsonCompact_valid _ _ hv]
  rfl

theorem formatInput_indent (input i : GoString) (hi : i ≠ formatCompact)
    (hv : jsonValid (bytesTrimSpace input) = true) :
    formatInput input i
      = .ok ((indentLoop [] i Scanner.reset false 0 (bytesTrimSpace input)).2 ++ ['\n']) := by
  rw [formatInput_valid input _ hv, if_neg hi, jsonIndent_valid _ _ _ _ hv]
  rfl

theorem indent_ne_compact (i : GoString) (hi : ∀ x ∈ i, isSpace x = true) :
    i ≠ formatCompact := by
  intro h
  have := hi 'c' (by rw [h]; exact List.mem_singleton.2 rfl)
  revert this
  decide

/-- C10, amended: for a valid JSON input and an indent that is the compact
marker `c` or is made of JSON white space only (space, tab, carriage return,
line feed), formatting with the indent, compacting the result and formatting
again with the indent all succeed, and the last output is the first one. -/
theorem roundTrip_space_indent (c i : GoString) (hv : jsonValid (bytesTrimSpace c) = true)
    (hi : i = formatCompact ∨ ∀ x ∈ i, isSpace x = true) : RoundTrip c i := by
  have ht := trimmed_trim c
  obtain ⟨hK, hR⟩ := output_trimmed (bytesTrimSpace c) i ht hv
  obtain ⟨hvK, hcc, hd⟩ := compact_loops (bytesTrimSpace c) i ht hv
  have htK := trim_of_trimmed _ hK
  have hvK' : jsonValid (bytesTrimSpace (compactLoop Scanner.reset (bytesTrimSpace c)).2)
      = true := by
    rw [htK]; exact hvK
  rcases hi with hi | hi
  · subst hi
    refine ⟨(compactLoop Scanner.reset (bytesTrimSpace c)).2,
      (compactLoop Scanner.reset (bytesTrimSpace c)).2, formatInput_compact c hv, ?_, ?_⟩
    · rw [formatInput_compact _ hvK', htK, hcc]
    · rw [formatInput_compact _ hvK', htK, hcc]
  · have hne := indent_ne_compact i hi
    obtain ⟨hvR, hb⟩ := indent_loops (bytesTrimSpace c) i ht hv hi
    have htR := trim_append_newline _ hR
    have hvR' : jsonValid (bytesTrimSpace
        ((indentLoop [] i Scanner.reset false 0 (bytesTrimSpace c)).2 ++ ['\n'])) = true := by
      rw [htR]; exact hvR
    refine ⟨(indentLoop [] i Scanner.reset false 0 (bytesTrimSpace c)).2 ++ ['\n'],
      (compactLoop Scanner.reset (bytesTrimSpace c)).2, formatInput_indent c i hne hv, ?_, ?_⟩
    · rw [formatInput_compact _ hvR', htR, hb]
    · rw [formatInput_indent _ i hne hvK', htK, hd]

theorem roundTrip_space_indent_witness :
    jsonValid (bytesTrimSpace icecream) = true ∧ RoundTrip icecream "  ".toList :=
  ⟨by decide, roundTrip_space_indent icecream "  ".toList (by decide) (Or.inr (by decide))⟩

/-- C10 as stated fails: `[1]` is valid JSON, and formatting it with the
indent `x` gives a text that `json.Compact` rejects. -/
theorem roundTrip_counterexample :
    jsonValid (bytesTrimSpace "[1]".toList) = true ∧ ¬ RoundTrip "[1]".toList "x".toList := by
  refine ⟨by decide, ?_⟩
  rintro ⟨p, k, h1, h2, _⟩
  have e1 : formatInput "[1]".toList "x".toList = .ok "[\nx1\n]\n".toList := by rfl
  rw [e1] at h1
  cases h1
  have e2 : formatInput "[\nx1\n]\n".toList formatCompact
      = .error (.syntaxError "invalid character x looking for beginning of value") := by rfl
  rw [e2] at h2
  cases h2

/-! ## The scanner against the grammar -/

theorem jsonWs_eq (c : Char) : jsonWs c = isSpace c := by
  unfold jsonWs isSpace
  cases (c == ' ') <;> cases (c == '\t') <;> cases (c == '\n') <;> cases (c == '\r') <;> rfl

theorem skipWs_cons_ws (c : Char) (y : GoString) (h : isSpace c = true) :
    skipWs (c :: y) = skipWs y := by
  unfold skipWs
  rw [List.dropWhile_cons, jsonWs_eq, h]
  rfl

theorem skipWs_cons_not (c : Char) (y : GoString) (h : isSpace c = false) :
    skipWs (c :: y) = c :: y := by
  unfold skipWs
  rw [List.dropWhile_cons, jsonWs_eq, h]
  rfl

theorem skipWs_head (y : GoString) (c : Char) (r : GoString) (h : skipWs y = c :: r) :
    isSpace c = false := by
  have := List.head_dropWhile_not jsonWs y (by unfold skipWs at h; rw [h]; simp)
  unfold skipWs at h
  simp only [h, List.head_cons] at this
  rw [← jsonWs_eq]
  simpa using this

theorem skipWs_suffix (y : GoString) : skipWs y <:+ y := List.dropWhile_suffix _

theorem skipWs_length (y : GoString) : (skipWs y).length ≤ y.length :=
  (skipWs_suffix y).length_le

theorem RunsTo.here (i : GoString) (s : Scanner) (ni : Bool) (d : Nat) (y : GoString) :
    RunsTo i s ni d y s ni d y [] [] :=
  ⟨rfl, rfl⟩

theorem RunsTo.trans {i : GoString} {s s' s2 : Scanner} {ni ni' ni2 : Bool} {d d' d2 : Nat}
    {y r r' oc oi oc' oi' : GoString}
    (h1 : RunsTo i s ni d y s' ni' d' r oc oi) (h2 : RunsTo i s' ni' d' r s2 ni2 d2 r' oc' oi') :
    RunsTo i s ni d y s2 ni2 d2 r' (oc ++ oc') (oi ++ oi') := by
  constructor
  · rw [h1.compact, h2.compact, List.append_assoc]
  · rw [h1.indent, h2.indent, List.append_assoc]

theorem RunsTo.skipOne (i : GoString) {s s1 : Scanner} (ni : Bool) (d : Nat) {c : Char}
    (z : GoString) (h : s.call c = (s1, .skipSpace)) :
    RunsTo i s ni d (c :: z) s1 ni d z [] [] :=
  ⟨by rw [compactLoop_skip_one s s1 c z h]; rfl, by rw [indentLoop_skip [] i s s1 ni _ c z h]; rfl⟩

theorem RunsTo.skipWs (i : GoString) {s : Scanner} (hs : s.Skips) (ni : Bool) (d : Nat)
    (y : GoString) : RunsTo i s ni d y s ni d (skipWs y) [] [] := by
  induction y with
  | nil => exact RunsTo.here i s ni d []
  | cons c rest ih =>
    by_cases hc : isSpace c = true
    · rw [skipWs_cons_ws c rest hc]
      exact (RunsTo.skipOne i ni d rest (hs c hc)).trans ih
    · rw [skipWs_cons_not c rest (by simpa using hc)]
      exact RunsTo.here i s ni d _

/-- One significant character. -/
theorem RunsTo.step (i : GoString) {s s1 : Scanner} (ni : Bool) (d : Nat) {c : Char} {v : Scan}
    (z : GoString) (h : s.call c = (s1, v)) (hk : v ≠ .skipSpace) (he : v ≠ .error)
    (hend : v ≠ .end_) (ni' : Bool) (d' : Nat) (oi : GoString)
    (hstep : indentStep [] i ni (d : Int) c v = (oi, ni', (d' : Int))) :
    RunsTo i s ni d (c :: z) s1 ni' d' z [c] oi := by
  constructor
  · rw [compactLoop_cons s s1 c v z h hk he hend]; rfl
  · rw [indentLoop_cons [] i s s1 ni _ c v z h hk he, hstep]

theorem Rejected.of_runs {i : GoString} {s s' : Scanner} {ni ni' : Bool} {d d' : Nat}
    {y r oc oi : GoString} (h1 : RunsTo i s ni d y s' ni' d' r oc oi) (h2 : Rejected s' r) :
    Rejected s y := by
  unfold Rejected at h2 ⊢
  rw [← compactLoop_scanner, h1.compact]
  simp only
  rw [compactLoop_scanner]
  exact h2

theorem Rejected.of_err {s : Scanner} (y : GoString) (h : s.err ≠ none) : Rejected s y := by
  unfold Rejected
  apply eof_of_err
  have := checkValidLoop_err y s h
  exact this

/-! ### Rejection -/

theorem error_err (s : Scanner) (c : Char) (m : String) : (s.error c m).1.err ≠ none := by
  simp [Scanner.error]

theorem Rejected.of_call {s s1 : Scanner} {c : Char} {v : Scan} (z : GoString)
    (h : s.call c = (s1, v)) (herr : s1.err ≠ none) : Rejected s (c :: z) := by
  by_cases hv : v = .error
  · subst hv
    unfold Rejected
    rw [checkValidLoop_error s s1 c z h]
    exact eof_of_err s1 herr
  · unfold Rejected
    rw [checkValidLoop_cons s s1 c v z h hv]
    exact Rejected.of_err z herr

theorem Rejected.of_call_error {s : Scanner} {c : Char} {m : String} (z : GoString)
    (h : s.call c = s.error c m) : Rejected s (c :: z) :=
  Rejected.of_call z (by rw [h]) (error_err s c m)

theorem Rejected.nil {s : Scanner} (h : s.eof.2 = .error) : Rejected s [] := h

theorem eof_of_call {s : Scanner} (h1 : s.endTop = false)
    (h2 : (s.call ' ').1.endTop = false) : s.eof.2 = .error := by
  unfold Scanner.eof
  by_cases he : s.err = none
  · simp only [he, ne_eq, not_true_eq_false, if_false, h1, Bool.false_eq_true, h2]
    split <;> rfl
  · simp [he]

theorem eof_inner (st : Step) (σ : List ParseState) (h : st.inner = true) :
    (scanAt st σ).eof.2 = .error := by
  apply eof_of_call rfl
  rcases call_inner (scanAt st σ) ' ' h with ⟨st1, _, h1⟩ | ⟨m, h1⟩ <;> rw [h1] <;> rfl

theorem eof_stable (st : Step) (σ : List ParseState) (h : st.stable = true) :
    (scanAt st σ).eof.2 = .error := by
  apply eof_of_call rfl
  rw [call_stable_space (scanAt st σ) ' ' h (by decide)]
  rfl

theorem eof_after_nested (st : Step) (p : ParseState) (τ : List ParseState)
    (h : st = .endValue ∨ st.numEnd = true) : (scanAt st (p :: τ)).eof.2 = .error := by
  apply eof_of_call rfl
  rcases h with h | h
  · subst h
    rw [call_endValue_space (scanAt .endValue (p :: τ)) ' ' rfl (by simp [scanAt]) (by decide)]
    rfl
  · rw [call_numEnd_space (scanAt st (p :: τ)) ' ' h (by simp [scanAt]) (by decide)]
    rfl

theorem eof_after_top (st : Step) (h : st = .endValue ∨ st.numEnd = true) :
    (scanAt st []).eof.2 = .end_ := by
  have hcall : (scanAt st []).call ' ' = stateEndValue (scanAt st []) ' ' := by
    rcases h with h | h
    · subst h; rfl
    · rcases call_numEnd (scanAt st []) ' ' h with ⟨h1, _⟩ | h1
      · cases h1
      · exact h1
  unfold Scanner.eof
  rw [hcall]
  rfl

theorem eof_done : scanDone.eof.2 = .end_ := rfl

/-! ### The calls of the scanner, step by step -/

theorem popParseState_scanAt (st : Step) (p : ParseState) (τ : List ParseState) :
    (scanAt st (p :: τ)).popParseState = afterPop τ := by
  unfold Scanner.popParseState afterPop scanAt scanDone
  cases τ <;> simp

theorem call_value (st : Step) (hst : st = .beginValue ∨ st = .beginValueOrEmpty)
    (σ : List ParseState) (c : Char) (hc : isSpace c = false)
    (hclose : st = .beginValueOrEmpty → c ≠ ']') :
    (scanAt st σ).call c = stateBeginValue (scanAt st σ) c := by
  rcases hst with h | h
  · subst h; rfl
  · subst h
    have h1 : (c == ']') = false := by simpa using hclose rfl
    simp only [Scanner.call, scanAt, stateBeginValueOrEmpty, hc, h1, Bool.false_eq_true, if_false]

theorem begin_push (st st' : Step) (σ : List ParseState) (c : Char) (p : ParseState) (v : Scan) :
    ({ scanAt st σ with step := st' }.pushParseState c p v)
      = if σ.length + 1 ≤ maxNestingDepth then (scanAt st' (p :: σ), v)
        else ((scanAt st' (p :: σ)).error c "exceeded max depth") := by
  unfold Scanner.pushParseState scanAt
  simp only [List.length_cons]

theorem begin_object (st : Step) (σ : List ParseState) :
    stateBeginValue (scanAt st σ) '\x7b'
      = if σ.length + 1 ≤ maxNestingDepth then
          (scanAt .beginStringOrEmpty (.objectKey :: σ), .beginObject)
        else ((scanAt .beginStringOrEmpty (.objectKey :: σ)).error '\x7b' "exceeded max depth") := by
  rw [← begin_push st]
  rfl

theorem begin_array (st : Step) (σ : List ParseState) :
    stateBeginValue (scanAt st σ) '['
      = if σ.length + 1 ≤ maxNestingDepth then
          (scanAt .beginValueOrEmpty (.arrayValue :: σ), .beginArray)
        else ((scanAt .beginValueOrEmpty (.arrayValue :: σ)).error '[' "exceeded max depth") := by
  rw [← begin_push st]
  rfl

theorem begin_quote (st : Step) (σ : List ParseState) :
    stateBeginValue (scanAt st σ) '"' = (scanAt .inString σ, .beginLiteral) := rfl

theorem begin_minus (st : Step) (σ : List ParseState) :
    stateBeginValue (scanAt st σ) '-' = (scanAt .neg σ, .beginLiteral) := rfl

theorem begin_zero (st : Step) (σ : List ParseState) :
    stateBeginValue (scanAt st σ) '0' = (scanAt .s0 σ, .beginLiteral) := rfl

theorem begin_t (st : Step) (σ : List ParseState) :
    stateBeginValue (scanAt st σ) 't' = (scanAt .t σ, .beginLiteral) := rfl

theorem begin_f (st : Step) (σ : List ParseState) :
    stateBeginValue (scanAt st σ) 'f' = (scanAt .f σ, .beginLiteral) := rfl

theorem begin_n (st : Step) (σ : List ParseState) :
    stateBeginValue (scanAt st σ) 'n' = (scanAt .n σ, .beginLiteral) := rfl

theorem digit_cases (c : Char) (h : isDigit c = true) :
    c = '0' ∨ ('1' ≤ c && c ≤ '9') = true := by
  by_cases h0 : c = '0'
  · exact Or.inl h0
  · right
    simp only [isDigit, Bool.and_eq_true, decide_eq_true_eq] at h ⊢
    refine ⟨?_, h.2⟩
    rcases lt_or_eq_of_le h.1 with h2 | h2
    · exact h2
    · exact absurd h2.symm h0

theorem isDigit_of_19 (c : Char) (h : ('1' ≤ c && c ≤ '9') = true) : isDigit c = true := by
  simp only [isDigit, Bool.and_eq_true, decide_eq_true_eq] at h ⊢
  exact ⟨le_trans (by decide) h.1, h.2⟩

theorem digit_ne (c d : Char) (h : isDigit c = true) (hd : isDigit d = false) : c ≠ d := by
  rintro rfl
  rw [h] at hd
  cases hd

theorem begin_digit19 (st : Step) (σ : List ParseState) (c : Char)
    (h : ('1' ≤ c && c ≤ '9') = true) :
    stateBeginValue (scanAt st σ) c = (scanAt .s1 σ, .beginLiteral) := by
  have hd := isDigit_of_19 c h
  have hne : ∀ d, isDigit d = false → (c == d) = false := fun d h1 => by
    simpa using digit_ne c d hd h1
  have hsp : isSpace c = false := (digit19_not_space_punct c h).1
  have h0 : (c == '0') = false := by
    rw [beq_eq_false_iff_ne]
    rintro rfl
    revert h
    decide
  unfold stateBeginValue
  rw [if_neg (by simp [hsp]), if_neg (by simp [hne '\x7b' (by decide)]),
    if_neg (by simp [hne '[' (by decide)]), if_neg (by simp [hne '"' (by decide)]),
    if_neg (by simp [hne '-' (by decide)]), if_neg (by simp [h0]),
    if_neg (by simp [hne 't' (by decide)]), if_neg (by simp [hne 'f' (by decide)]),
    if_neg (by simp [hne 'n' (by decide)]), if_pos h]
  rfl

theorem begin_other (st : Step) (σ : List ParseState) (c : Char) (hsp : isSpace c = false)
    (h1 : c ≠ '\x7b') (h2 : c ≠ '[') (h3 : c ≠ '"') (h4 : ¬ (c = '-' ∨ isDigit c = true))
    (h5 : c ≠ 't') (h6 : c ≠ 'f') (h7 : c ≠ 'n') :
    stateBeginValue (scanAt st σ) c
      = (scanAt st σ).error c "looking for beginning of value" := by
  have h8 : c ≠ '-' := fun h => h4 (Or.inl h)
  have h9 : c ≠ '0' := fun h => h4 (Or.inr (by rw [h]; decide))
  have h10 : ¬ (('1' ≤ c && c ≤ '9') = true) := fun h => h4 (Or.inr (isDigit_of_19 c h))
  unfold stateBeginValue
  rw [if_neg (by simp [hsp]), if_neg (by simpa using h1), if_neg (by simpa using h2),
    if_neg (by simpa using h3), if_neg (by simpa using h8), if_neg (by simpa using h9),
    if_neg (by simpa using h5), if_neg (by simpa using h6), if_neg (by simpa using h7),
    if_neg h10]

theorem newline_nat (i : GoString) (d : Nat) : newline [] i (d : Int) = indentedLine i d := by
  simp [newline, indentedLine]

theorem newline_succ (i : GoString) (d : Nat) :
    newline [] i ((d : Int) + 1) = indentedLine i (d + 1) := by
  rw [← newline_nat]; rfl

theorem indentStep_continue (i : GoString) (d : Int) (c : Char) :
    indentStep [] i false d c .continue_ = ([c], false, d) := by
  simp [indentStep]

theorem indentStep_literal (i : GoString) (ni : Bool) (d : Nat) (c : Char)
    (hc : isPunct c = false) :
    indentStep [] i ni (d : Int) c .beginLiteral = (lead i ni d ++ [c], false, ((bump ni d : Nat) : Int)) := by
  have h := (isPunct_iff c).not.1 (by simp [hc])
  simp only [not_or] at h
  obtain ⟨h1, h2, h3, h4, h5, h6⟩ := h
  rw [indentStep_eq]
  cases ni
  · simp [h1, h2, h3, h4, h5, h6, lead, bump]
  · simp [h1, h2, h3, h4, h5, h6, lead, bump, newline_succ]

theorem indentStep_open (i : GoString) (ni : Bool) (d : Nat) (c : Char) (v : Scan)
    (hc : c = '\x7b' ∨ c = '[') (hv : v = .beginObject ∨ v = .beginArray) :
    indentStep [] i ni (d : Int) c v = (lead i ni d ++ [c], true, ((bump ni d : Nat) : Int)) := by
  rw [indentStep_eq]
  cases ni <;> rcases hc with rfl | rfl <;> rcases hv with rfl | rfl <;>
    simp [lead, bump, newline_succ]

theorem indentStep_comma (i : GoString) (d : Nat) (v : Scan)
    (hv : v = .arrayValue ∨ v = .objectValue) :
    indentStep [] i false (d : Int) ',' v = (',' :: indentedLine i d, false, (d : Int)) := by
  rw [indentStep_eq]
  rcases hv with rfl | rfl <;> simp [newline_nat]

theorem indentStep_colon (i : GoString) (d : Nat) :
    indentStep [] i false (d : Int) ':' .objectKey = ([':', ' '], false, (d : Int)) := by
  rw [indentStep_eq]
  simp

theorem indentStep_close_empty (i : GoString) (d : Nat) (c : Char) (v : Scan)
    (hc : c = '\x7d' ∨ c = ']') (hv : v = .endObject ∨ v = .endArray) :
    indentStep [] i true (d : Int) c v = ([c], false, (d : Int)) := by
  rw [indentStep_eq]
  rcases hc with rfl | rfl <;> rcases hv with rfl | rfl <;> simp

theorem indentStep_close (i : GoString) (d : Nat) (c : Char) (v : Scan)
    (hc : c = '\x7d' ∨ c = ']') (hv : v = .endObject ∨ v = .endArray) :
    indentStep [] i false ((d + 1 : Nat) : Int) c v = (indentedLine i d ++ [c], false, (d : Int)) := by
  rw [indentStep_eq]
  rcases hc with rfl | rfl <;> rcases hv with rfl | rfl <;> simp [← newline_nat]

theorem RunsTo.cont (i : GoString) {s s1 : Scanner} (d : Nat) {c : Char} (z : GoString)
    (h : s.call c = (s1, .continue_)) : RunsTo i s false d (c :: z) s1 false d z [c] [c] :=
  RunsTo.step i false d z h (by decide) (by decide) (by decide) false d [c]
    (indentStep_continue i _ c)

theorem RunsTo.literal (i : GoString) {s s1 : Scanner} (ni : Bool) (d : Nat) {c : Char}
    (z : GoString) (h : s.call c = (s1, .beginLiteral)) (hc : isPunct c = false) :
    RunsTo i s ni d (c :: z) s1 false (bump ni d) z [c] (lead i ni d ++ [c]) :=
  RunsTo.step i ni d z h (by decide) (by decide) (by decide) false (bump ni d) _
    (indentStep_literal i ni d c hc)

/-! ### After a value -/

theorem endValue_array_comma (st : Step) (τ : List ParseState) :
    stateEndValue (scanAt st (.arrayValue :: τ)) ','
      = (scanAt .beginValue (.arrayValue :: τ), .arrayValue) := rfl

theorem endValue_array_close (st : Step) (τ : List ParseState) :
    stateEndValue (scanAt st (.arrayValue :: τ)) ']' = (afterPop τ, .endArray) := by
  rw [← popParseState_scanAt st .arrayValue]; rfl

theorem endValue_array_other (st : Step) (τ : List ParseState) (c : Char)
    (hsp : isSpace c = false) (h1 : c ≠ ',') (h2 : c ≠ ']') :
    stateEndValue (scanAt st (.arrayValue :: τ)) c
      = (scanAt st (.arrayValue :: τ)).error c "after array element" := by
  simp only [stateEndValue, scanAt]
  rw [if_neg (by simp [hsp]), if_neg (by simpa using h1), if_neg (by simpa using h2)]

theorem endValue_object_comma (st : Step) (τ : List ParseState) :
    stateEndValue (scanAt st (.objectValue :: τ)) ','
      = (scanAt .beginString (.objectKey :: τ), .objectValue) := rfl

theorem endValue_object_close (st : Step) (τ : List ParseState) :
    stateEndValue (scanAt st (.objectValue :: τ)) '\x7d' = (afterPop τ, .endObject) := by
  rw [← popParseState_scanAt st .objectValue]; rfl

theorem endValue_object_other (st : Step) (τ : List ParseState) (c : Char)
    (hsp : isSpace c = false) (h1 : c ≠ ',') (h2 : c ≠ '\x7d') :
    stateEndValue (scanAt st (.objectValue :: τ)) c
      = (scanAt st (.objectValue :: τ)).error c "after object key:value pair" := by
  simp only [stateEndValue, scanAt]
  rw [if_neg (by simp [hsp]), if_neg (by simpa using h1), if_neg (by simpa using h2)]

theorem endValue_key_colon (st : Step) (τ : List ParseState) :
    stateEndValue (scanAt st (.objectKey :: τ)) ':'
      = (scanAt .beginValue (.objectValue :: τ), .objectKey) := rfl

theorem endValue_key_other (st : Step) (τ : List ParseState) (c : Char)
    (hsp : isSpace c = false) (h1 : c ≠ ':') :
    stateEndValue (scanAt st (.objectKey :: τ)) c
      = (scanAt st (.objectKey :: τ)).error c "after object key" := by
  simp only [stateEndValue, scanAt]
  rw [if_neg (by simp [hsp]), if_neg (by simpa using h1)]

/-! ### Before a member name -/

theorem call_key (st : Step) (hst : st = .beginString ∨ st = .beginStringOrEmpty)
    (σ : List ParseState) (c : Char) (hc : isSpace c = false)
    (hclose : st = .beginStringOrEmpty → c ≠ '\x7d') :
    (scanAt st σ).call c = stateBeginString (scanAt st σ) c := by
  rcases hst with h | h
  · subst h; rfl
  · subst h
    have h1 : (c == '\x7d') = false := by simpa using hclose rfl
    simp only [Scanner.call, scanAt, stateBeginStringOrEmpty, hc, h1, Bool.false_eq_true, if_false]

theorem beginString_quote (st : Step) (σ : List ParseState) :
    stateBeginString (scanAt st σ) '"' = (scanAt .inString σ, .beginLiteral) := rfl

theorem beginString_other (st : Step) (σ : List ParseState) (c : Char)
    (hsp : isSpace c = false) (h1 : c ≠ '"') :
    stateBeginString (scanAt st σ) c
      = (scanAt st σ).error c "looking for beginning of object key string" := by
  unfold stateBeginString
  rw [if_neg (by simp [hsp]), if_neg (by simpa using h1)]

theorem call_empty_object (τ : List ParseState) :
    (scanAt .beginStringOrEmpty (.objectKey :: τ)).call '\x7d' = (afterPop τ, .endObject) := by
  rw [← popParseState_scanAt .beginStringOrEmpty .objectValue]; rfl

theorem call_empty_array (τ : List ParseState) :
    (scanAt .beginValueOrEmpty (.arrayValue :: τ)).call ']' = (afterPop τ, .endArray) := by
  rw [← popParseState_scanAt .beginValueOrEmpty .arrayValue]; rfl

/-! ### Strings -/

theorem call_inString_quote (σ : List ParseState) :
    (scanAt .inString σ).call '"' = (scanAt .endValue σ, .continue_) := rfl

theorem call_inString_backslash (σ : List ParseState) :
    (scanAt .inString σ).call '\\' = (scanAt .inStringEsc σ, .continue_) := rfl

theorem call_inString_control (σ : List ParseState) (c : Char) (h1 : c ≠ '"') (h2 : c ≠ '\\')
    (h3 : c.toNat < 0x20) :
    (scanAt .inString σ).call c = (scanAt .inString σ).error c "in string literal" := by
  simp only [Scanner.call, stateInString, scanAt]
  rw [if_neg (by simpa using h1), if_neg (by simpa using h2), if_pos h3]

theorem call_inString_char (σ : List ParseState) (c : Char) (h1 : c ≠ '"') (h2 : c ≠ '\\')
    (h3 : ¬ c.toNat < 0x20) :
    (scanAt .inString σ).call c = (scanAt .inString σ, .continue_) := by
  simp only [Scanner.call, stateInString, scanAt]
  rw [if_neg (by simpa using h1), if_neg (by simpa using h2), if_neg h3]

theorem escape_eq (c : Char) :
    (c == 'b' || c == 'f' || c == 'n' || c == 'r' || c == 't' || c == '\\' || c == '/'
      || c == '"') = isEscape c := by
  unfold isEscape
  cases (c == 'b') <;> cases (c == 'f') <;> cases (c == 'n') <;> cases (c == 'r') <;>
    cases (c == 't') <;> cases (c == '\\') <;> cases (c == '/') <;> cases (c == '"') <;> rfl

theorem call_esc_u (σ : List ParseState) :
    (scanAt .inStringEsc σ).call 'u' = (scanAt .inStringEscU σ, .continue_) := rfl

theorem call_esc_escape (σ : List ParseState) (c : Char) (h : isEscape c = true) :
    (scanAt .inStringEsc σ).call c = (scanAt .inString σ, .continue_) := by
  simp only [Scanner.call, stateInStringEsc, scanAt]
  rw [if_pos (by rw [escape_eq]; exact h)]

theorem call_esc_other (σ : List ParseState) (c : Char) (h : ¬ isEscape c = true)
    (hu : c ≠ 'u') :
    (scanAt .inStringEsc σ).call c = (scanAt .inStringEsc σ).error c "in string escape code" := by
  simp only [Scanner.call, stateInStringEsc, scanAt]
  rw [if_neg (by rw [escape_eq]; exact h), if_neg (by simpa using hu)]

theorem call_hex (st nx : Step) (h : hexNext st = some nx) (σ : List ParseState) (c : Char) :
    (scanAt st σ).call c
      = if isHexDigit c = true then (scanAt nx σ, .continue_)
        else (scanAt st σ).error c "in \\u hexadecimal character escape" := by
  cases st <;> simp only [hexNext, Option.some.injEq] at h <;> first | (cases h; done) | skip
  all_goals
    subst h
    rfl

theorem hex_run (i : GoString) (st nx : Step) (h : hexNext st = some nx) (σ : List ParseState)
    (d : Nat) (c : Char) (z : GoString) :
    (isHexDigit c = true ∧ RunsTo i (scanAt st σ) false d (c :: z) (scanAt nx σ) false d z [c] [c]) ∨
    (isHexDigit c = false ∧ Rejected (scanAt st σ) (c :: z)) := by
  have hc := call_hex st nx h σ c
  by_cases hx : isHexDigit c = true
  · rw [if_pos hx] at hc
    exact Or.inl ⟨hx, RunsTo.cont i d z hc⟩
  · rw [if_neg hx] at hc
    exact Or.inr ⟨by simpa using hx, Rejected.of_call_error z hc⟩

theorem StringGoal.prependBody (i : GoString) (σ : List ParseState) (d : Nat) (pre rest : GoString)
    (hpre : pre ≠ [])
    (hrun : RunsTo i (scanAt .inString σ) false d (pre ++ rest) (scanAt .inString σ) false d rest
      pre pre) :
    ∀ r : Option (GoString × GoString), StringGoal i σ d rest r →
    StringGoal i σ d (pre ++ rest)
      (match r with
       | none => none
       | some (b, r) => some (pre ++ b, r)) := by
  intro r h
  cases r with
  | none => exact Rejected.of_runs hrun h
  | some p =>
    obtain ⟨b, r⟩ := p
    obtain ⟨h1, h2, h3⟩ := h
    refine ⟨h1.trans (List.suffix_append _ _), ?_, ?_⟩
    · have := List.length_pos.2 hpre
      rw [List.length_append]; omega
    · have := hrun.trans h3
      rw [List.append_assoc]
      exact this

theorem string_sim (i : GoString) (σ : List ParseState) (d : Nat) (y : GoString) :
    StringGoal i σ d y (parseStringBody y) := by
  generalize hn : y.length = n
  induction n using Nat.strong_induction_on generalizing y with
  | _ n ih =>
  subst hn
  cases y with
  | nil => exact Rejected.nil (eof_inner _ _ rfl)
  | cons c rest =>
    unfold parseStringBody
    by_cases h1 : c = '"'
    · subst h1
      rw [if_pos rfl]
      refine ⟨List.suffix_cons _ _, by simp, ?_⟩
      exact RunsTo.cont i d rest (call_inString_quote σ)
    rw [if_neg h1]
    by_cases h2 : c = '\\'
    · subst h2
      rw [if_pos rfl]
      have hb := RunsTo.cont i d rest (call_inString_backslash σ)
      cases rest with
      | nil => exact Rejected.of_runs hb (Rejected.nil (eof_inner _ _ rfl))
      | cons e rest1 =>
        simp only
        by_cases hu : e = 'u'
        · subst hu
          rw [if_pos rfl]
          have hu := hb.trans (RunsTo.cont i d rest1 (call_esc_u σ))
          cases rest1 with
          | nil => exact Rejected.of_runs hu (Rejected.nil (eof_inner _ _ rfl))
          | cons x1 r1 =>
          rcases hex_run i .inStringEscU _ rfl σ d x1 r1 with ⟨hx1, hr1⟩ | ⟨hx1, hr1⟩
          swap
          · have : StringGoal i σ d ('\\' :: 'u' :: x1 :: r1) none := Rejected.of_runs hu hr1
            cases r1 with
            | nil => exact this
            | cons x2 r2 =>
              cases r2 with
              | nil => exact this
              | cons x3 r3 =>
                cases r3 with
                | nil => exact this
                | cons x4 r4 =>
                  simp only [hx1, Bool.false_and, Bool.false_eq_true, if_false]
                  exact this
          have hu1 := hu.trans hr1
          cases r1 with
          | nil => exact Rejected.of_runs hu1 (Rejected.nil (eof_inner _ _ rfl))
          | cons x2 r2 =>
          rcases hex_run i .inStringEscU1 _ rfl σ d x2 r2 with ⟨hx2, hr2⟩ | ⟨hx2, hr2⟩
          swap
          · have : StringGoal i σ d ('\\' :: 'u' :: x1 :: x2 :: r2) none :=
              Rejected.of_runs hu1 hr2
            cases r2 with
            | nil => exact this
            | cons x3 r3 =>
              cases r3 with
              | nil => exact this
              | cons x4 r4 =>
                simp only [hx2, Bool.false_and, Bool.and_false, Bool.false_eq_true, if_false]
                exact this
          have hu2 := hu1.trans hr2
          cases r2 with
          | nil => exact Rejected.of_runs hu2 (Rejected.nil (eof_inner _ _ rfl))
          | cons x3 r3 =>
          rcases hex_run i .inStringEscU12 _ rfl σ d x3 r3 with ⟨hx3, hr3⟩ | ⟨hx3, hr3⟩
          swap
          · have : StringGoal i σ d ('\\' :: 'u' :: x1 :: x2 :: x3 :: r3) none :=
              Rejected.of_runs hu2 hr3
            cases r3 with
            | nil => exact this
            | cons x4 r4 =>
              simp only [hx3, Bool.false_and, Bool.and_false, Bool.false_eq_true, if_false]
              exact this
          have hu3 := hu2.trans hr3
          cases r3 with
          | nil => exact Rejected.of_runs hu3 (Rejected.nil (eof_inner _ _ rfl))
          | cons x4 r4 =>
          rcases hex_run i .inStringEscU123 _ rfl σ d x4 r4 with ⟨hx4, hr4⟩ | ⟨hx4, hr4⟩
          swap
          · have : StringGoal i σ d ('\\' :: 'u' :: x1 :: x2 :: x3 :: x4 :: r4) none :=
              Rejected.of_runs hu3 hr4
            simp only [hx4, Bool.and_false, Bool.false_eq_true, if_false]
            exact this
          have hu4 := hu3.trans hr4
          simp only [hx1, hx2, hx3, hx4, Bool.and_self, if_true]
          exact StringGoal.prependBody i σ d ['\\', 'u', x1, x2, x3, x4] r4 (by simp) hu4 _
            (ih r4.length (by simp only [List.length_cons]; omega) r4 rfl)
        rw [if_neg hu]
        by_cases he : isEscape e = true
        · rw [if_pos he]
          have hr := hb.trans (RunsTo.cont i d rest1 (call_esc_escape σ e he))
          exact StringGoal.prependBody i σ d ['\\', e] rest1 (by simp) hr _
            (ih rest1.length (by simp only [List.length_cons]; omega) rest1 rfl)
        · rw [if_neg he]
          exact Rejected.of_runs hb (Rejected.of_call_error rest1 (call_esc_other σ e he hu))
    rw [if_neg h2]
    by_cases h3 : c.toNat < 0x20
    · rw [if_pos h3]
      exact Rejected.of_call_error rest (call_inString_control σ c h1 h2 h3)
    · rw [if_neg h3]
      exact StringGoal.prependBody i σ d [c] rest (by simp)
        (RunsTo.cont i d rest (call_inString_char σ c h1 h2 h3)) _
        (ih rest.length (by simp) rest rfl)

/-! ### Literal names -/

theorem litNext_inner (st : Step) (e : Char) (nx : Step) (h : litNext st = some (e, nx)) :
    st.inner = true := by
  cases st <;> first | rfl | (simp [litNext] at h)

theorem call_lit (st : Step) (e : Char) (nx : Step) (h : litNext st = some (e, nx))
    (σ : List ParseState) (c : Char) :
    (c = e → (scanAt st σ).call c = (scanAt nx σ, .continue_)) ∧
    (c ≠ e → ∃ m, (scanAt st σ).call c = (scanAt st σ).error c m) := by
  cases st <;> simp only [litNext, Option.some.injEq, Prod.mk.injEq] at h <;>
    first
      | (cases h; done)
      | (obtain ⟨rfl, rfl⟩ := h
         constructor
         · rintro rfl; rfl
         · intro hne
           exact ⟨_, by
             simp only [Scanner.call, stateLiteral, scanAt]
             rw [if_neg (by simpa using hne)]⟩)

theorem lit_run (i : GoString) (σ : List ParseState) (d : Nat) (es : List Char) :
    ∀ (st fin : Step), litChain st es fin → ∀ z : GoString,
    (es.isPrefixOf z = true ∧
      RunsTo i (scanAt st σ) false d z (scanAt fin σ) false d (z.drop es.length) es es) ∨
    (es.isPrefixOf z = false ∧ Rejected (scanAt st σ) z) := by
  induction es with
  | nil =>
    intro st fin h z
    cases h
    exact Or.inl ⟨by simp [List.isPrefixOf], RunsTo.here i _ false d z⟩
  | cons e es ih =>
    intro st fin h z
    obtain ⟨nx, h1, h2⟩ := h
    cases z with
    | nil => exact Or.inr ⟨rfl, Rejected.nil (eof_inner _ _ (litNext_inner st e nx h1))⟩
    | cons c z =>
      by_cases hc : c = e
      · subst hc
        have hstep := RunsTo.cont i d z ((call_lit st c nx h1 σ c).1 rfl)
        rcases ih nx fin h2 z with ⟨h3, h4⟩ | ⟨h3, h4⟩
        · exact Or.inl ⟨by simp [List.isPrefixOf, h3], hstep.trans h4⟩
        · exact Or.inr ⟨by simp [List.isPrefixOf, h3], Rejected.of_runs hstep h4⟩
      · obtain ⟨m, hm⟩ := (call_lit st e nx h1 σ c).2 hc
        refine Or.inr ⟨?_, Rejected.of_call_error z hm⟩
        simp only [List.isPrefixOf, Bool.and_eq_false_imp, beq_iff_eq]
        intro h; exact absurd h.symm hc

/-! ### Numbers -/

theorem parseNumber_eq (s : GoString) :
    parseNumber s =
      match parseInt (parseMinus s).2 with
      | none => none
      | some (int, s1) =>
        match parseFracExp s1 with
        | none => none
        | some (fe, s3) => some ((parseMinus s).1 ++ (int ++ fe), s3) := by
  unfold parseNumber parseFracExp
  cases parseInt (parseMinus s).2 with
  | none => rfl
  | some p =>
    obtain ⟨int, s1⟩ := p
    simp only
    cases parseFrac s1 with
    | none => rfl
    | some q =>
      obtain ⟨frac, s2⟩ := q
      simp only
      cases parseExp s2 with
      | none => rfl
      | some r => rfl

theorem NumGoal.prependText (i : GoString) (σ : List ParseState) (st st1 : Step) (d : Nat)
    (pre rest : GoString)
    (hrun : RunsTo i (scanAt st σ) false d (pre ++ rest) (scanAt st1 σ) false d rest pre pre) :
    ∀ r : Option (GoString × GoString), NumGoal i σ st1 d rest r →
    NumGoal i σ st d (pre ++ rest)
      (match r with
       | none => none
       | some (b, r) => some (pre ++ b, r)) := by
  intro r h
  cases r with
  | none => exact Rejected.of_runs hrun h
  | some p =>
    obtain ⟨b, r⟩ := p
    obtain ⟨h1, st', h2, h3, h4⟩ := h
    exact ⟨h1.trans (List.suffix_append _ _), st', h2, h3, hrun.trans h4⟩

theorem digits_run (i : GoString) (σ : List ParseState) (X : Step) (d : Nat)
    (hX : ∀ c, isDigit c = true → (scanAt X σ).call c = (scanAt X σ, .continue_))
    (r : GoString) :
    RunsTo i (scanAt X σ) false d r (scanAt X σ) false d (r.dropWhile isDigit)
      (r.takeWhile isDigit) (r.takeWhile isDigit) := by
  induction r with
  | nil => exact RunsTo.here i _ false d []
  | cons c r ih =>
    by_cases hc : isDigit c = true
    · rw [List.dropWhile_cons_of_pos hc, List.takeWhile_cons_of_pos hc]
      exact (RunsTo.cont i d r (hX c hc)).trans ih
    · rw [List.dropWhile_cons_of_neg hc, List.takeWhile_cons_of_neg hc]
      exact RunsTo.here i _ false d _

theorem dropWhile_digit_head (r : GoString) (c : Char) (r' : GoString)
    (h : r.dropWhile isDigit = c :: r') : isDigit c = false := by
  have := List.head_dropWhile_not isDigit r (by rw [h]; simp)
  simp only [h, List.head_cons] at this
  simpa using this

/-- From a step `Y` that needs a digit, to the step `Z` that loops on digits. -/
theorem need_digits (i : GoString) (σ : List ParseState) (Y Z : Step) (d : Nat) (z : GoString)
    (hin : Y.inner = true)
    (hY1 : ∀ c, isDigit c = true → (scanAt Y σ).call c = (scanAt Z σ, .continue_))
    (hY2 : ∀ c r, z = c :: r → isDigit c = false →
      ∃ m, (scanAt Y σ).call c = (scanAt Y σ).error c m)
    (hZ : ∀ c, isDigit c = true → (scanAt Z σ).call c = (scanAt Z σ, .continue_)) :
    (z.takeWhile isDigit = [] ∧ Rejected (scanAt Y σ) z) ∨
    (z.takeWhile isDigit ≠ [] ∧
      RunsTo i (scanAt Y σ) false d z (scanAt Z σ) false d (z.dropWhile isDigit)
        (z.takeWhile isDigit) (z.takeWhile isDigit)) := by
  cases z with
  | nil => exact Or.inl ⟨rfl, Rejected.nil (eof_inner _ _ hin)⟩
  | cons c r =>
    by_cases hc : isDigit c = true
    · right
      rw [List.dropWhile_cons_of_pos hc, List.takeWhile_cons_of_pos hc]
      exact ⟨by simp, (RunsTo.cont i d r (hY1 c hc)).trans (digits_run i σ Z d hZ r)⟩
    · left
      obtain ⟨m, hm⟩ := hY2 c r rfl (by simpa using hc)
      exact ⟨List.takeWhile_cons_of_neg hc, Rejected.of_call_error r hm⟩

theorem call_s1_digit (σ : List ParseState) (c : Char) (h : isDigit c = true) :
    (scanAt .s1 σ).call c = (scanAt .s1 σ, .continue_) := by
  simp only [Scanner.call, state1, scanAt]
  rw [if_pos (by exact h)]

theorem call_s1_other (σ : List ParseState) (c : Char) (h : isDigit c = false) :
    (scanAt .s1 σ).call c = state0 (scanAt .s1 σ) c := by
  simp only [Scanner.call, state1, scanAt]
  rw [if_neg (by rw [show ('0' ≤ c && c ≤ '9') = isDigit c from rfl, h]; simp)]

theorem call_dot0_digit (σ : List ParseState) (c : Char) (h : isDigit c = true) :
    (scanAt .dot0 σ).call c = (scanAt .dot0 σ, .continue_) := by
  simp only [Scanner.call, stateDot0, scanAt]
  rw [if_pos (by exact h)]

theorem call_e0_digit (σ : List ParseState) (c : Char) (h : isDigit c = true) :
    (scanAt .e0 σ).call c = (scanAt .e0 σ, .continue_) := by
  simp only [Scanner.call, stateE0, scanAt]
  rw [if_pos (by exact h)]

theorem call_dot_digit (σ : List ParseState) (c : Char) (h : isDigit c = true) :
    (scanAt .dot σ).call c = (scanAt .dot0 σ, .continue_) := by
  simp only [Scanner.call, stateDot, scanAt]
  rw [if_pos (by exact h)]

theorem call_dot_other (σ : List ParseState) (c : Char) (h : isDigit c = false) :
    ∃ m, (scanAt .dot σ).call c = (scanAt .dot σ).error c m := by
  exact ⟨_, by
    simp only [Scanner.call, stateDot, scanAt]
    rw [if_neg (by rw [show ('0' ≤ c && c ≤ '9') = isDigit c from rfl, h]; simp)]⟩

theorem call_eSign_digit (σ : List ParseState) (c : Char) (h : isDigit c = true) :
    (scanAt .eSign σ).call c = (scanAt .e0 σ, .continue_) := by
  simp only [Scanner.call, stateESign, scanAt]
  rw [if_pos (by exact h)]

theorem call_eSign_other (σ : List ParseState) (c : Char) (h : isDigit c = false) :
    ∃ m, (scanAt .eSign σ).call c = (scanAt .eSign σ).error c m := by
  exact ⟨_, by
    simp only [Scanner.call, stateESign, scanAt]
    rw [if_neg (by rw [show ('0' ≤ c && c ≤ '9') = isDigit c from rfl, h]; simp)]⟩

theorem call_e_digit (σ : List ParseState) (c : Char) (h : isDigit c = true) :
    (scanAt .e σ).call c = (scanAt .e0 σ, .continue_) := by
  have h1 : ¬ ((c == '+' || c == '-') = true) := by
    intro h2
    rcases (beq_or_iff c '+' '-').1 h2 with rfl | rfl <;> revert h <;> decide
  simp only [Scanner.call, stateE, stateESign, scanAt]
  rw [if_neg h1, if_pos (by exact h)]

theorem call_e_other (σ : List ParseState) (c : Char) (h : isDigit c = false)
    (hs : ¬ (c = '+' ∨ c = '-')) :
    ∃ m, (scanAt .e σ).call c = (scanAt .e σ).error c m := by
  exact ⟨_, by
    simp only [Scanner.call, stateE, stateESign, scanAt]
    rw [if_neg (by rw [beq_or_iff]; exact hs),
      if_neg (by rw [show ('0' ≤ c && c ≤ '9') = isDigit c from rfl, h]; simp)]⟩

theorem call_e_sign (σ : List ParseState) (c : Char) (hs : c = '+' ∨ c = '-') :
    (scanAt .e σ).call c = (scanAt .eSign σ, .continue_) := by
  rcases hs with rfl | rfl <;> rfl

theorem call_exp (X : Step) (hX : X.beforeExp = true) (σ : List ParseState) (c : Char)
    (hc : c = 'e' ∨ c = 'E') : (scanAt X σ).call c = (scanAt .e σ, .continue_) := by
  cases X <;> first | (cases hX; done) | skip
  all_goals rcases hc with rfl | rfl <;> rfl

theorem call_no_exp (X : Step) (hX : X.beforeExp = true) (σ : List ParseState) (c : Char)
    (hc : ¬ (c = 'e' ∨ c = 'E')) (hd : X = .s1 ∨ X = .dot0 → isDigit c = false)
    (hdot : X = .s0 ∨ X = .s1 → c ≠ '.') :
    (scanAt X σ).call c = stateEndValue (scanAt X σ) c := by
  have he : ¬ ((c == 'e' || c == 'E') = true) := by rw [beq_or_iff]; exact hc
  cases X <;> first | (cases hX; done) | skip
  · -- s1
    have h1 := hd (Or.inl rfl)
    have h2 := hdot (Or.inr rfl)
    rw [call_s1_other σ c h1]
    unfold state0
    rw [if_neg (by simpa using h2), if_neg he]
  · -- s0
    have h2 := hdot (Or.inl rfl)
    simp only [Scanner.call, state0, scanAt]
    rw [if_neg (by simpa using h2), if_neg he]
  · -- dot0
    have h1 := hd (Or.inr rfl)
    simp only [Scanner.call, stateDot0, scanAt]
    rw [if_neg (by rw [show ('0' ≤ c && c ≤ '9') = isDigit c from rfl, h1]; simp), if_neg he]

theorem beforeExp_numEnd (X : Step) (h : X.beforeExp = true) : X.numEnd = true := by
  cases X <;> first | rfl | cases h

theorem exp_sim (i : GoString) (σ : List ParseState) (X : Step) (d : Nat) (z : GoString)
    (hX : X.beforeExp = true)
    (hd : X = .s1 ∨ X = .dot0 → ∀ c r, z = c :: r → isDigit c = false)
    (hdot : X = .s0 ∨ X = .s1 → ∀ c r, z = c :: r → c ≠ '.') :
    NumGoal i σ X d z (parseExp z) := by
  cases z with
  | nil =>
    exact ⟨List.suffix_refl _, X, beforeExp_numEnd X hX, fun c r h => (by cases h),
      RunsTo.here i _ false d []⟩
  | cons c rest =>
    simp only [parseExp]
    by_cases he : c = 'e' ∨ c = 'E'
    · rw [if_pos he]
      have hrun := RunsTo.cont i d rest (call_exp X hX σ c he)
      have hfin : ∀ (Y : Step) (pre r : GoString), c :: rest = (c :: pre) ++ r →
          RunsTo i (scanAt .e σ) false d rest (scanAt Y σ) false d r pre pre →
          Y.inner = true →
          (∀ x, isDigit x = true → (scanAt Y σ).call x = (scanAt .e0 σ, .continue_)) →
          (∀ x r', r = x :: r' → isDigit x = false →
            ∃ m, (scanAt Y σ).call x = (scanAt Y σ).error x m) →
          NumGoal i σ X d (c :: rest)
            (if r.takeWhile isDigit = [] then none
             else some (c :: (pre ++ r.takeWhile isDigit), r.dropWhile isDigit)) := by
        intro Y pre r hsplit hpre hin hY1 hY2
        rcases need_digits i σ Y .e0 d r hin hY1 hY2 (call_e0_digit σ) with ⟨h1, h2⟩ | ⟨h1, h2⟩
        · rw [if_pos h1]
          exact Rejected.of_runs hrun (Rejected.of_runs hpre h2)
        · rw [if_neg h1]
          refine ⟨?_, .e0, rfl, ?_, ?_⟩
          · rw [hsplit]
            exact (List.dropWhile_suffix _).trans (List.suffix_append _ _)
          · intro x r' hx
            have hxd := dropWhile_digit_head r x r' hx
            simp only [Scanner.call, stateE0, scanAt]
            rw [if_neg (by rw [show ('0' ≤ x && x ≤ '9') = isDigit x from rfl, hxd]; simp)]
          · exact hrun.trans (hpre.trans h2)
      cases rest with
      | nil =>
        exact hfin .e [] [] rfl (RunsTo.here i _ false d []) rfl (call_e_digit σ)
          (fun x r' h => (by cases h))
      | cons g rest' =>
        simp only [parseSign]
        by_cases hg : g = '+' ∨ g = '-'
        · rw [if_pos hg]
          exact hfin .eSign [g] rest' rfl (RunsTo.cont i d rest' (call_e_sign σ g hg)) rfl
            (call_eSign_digit σ) (fun x r' _ hx => call_eSign_other σ x hx)
        · rw [if_neg hg]
          exact hfin .e [] (g :: rest') rfl (RunsTo.here i _ false d _) rfl (call_e_digit σ)
            (fun x r' hx hxd => by
              cases hx
              exact call_e_other σ g hxd hg)
    · rw [if_neg he]
      refine ⟨List.suffix_refl _, X, beforeExp_numEnd X hX, ?_, RunsTo.here i _ false d _⟩
      intro x r hx
      cases hx
      exact call_no_exp X hX σ c he (fun h => hd h c rest rfl) (fun h => hdot h c rest rfl)

theorem NumGoal.prepend_eq (i : GoString) (σ : List ParseState) (st st1 : Step) (d : Nat)
    (y pre rest : GoString) (hy : y = pre ++ rest)
    (hrun : RunsTo i (scanAt st σ) false d y (scanAt st1 σ) false d rest pre pre) :
    ∀ r : Option (GoString × GoString), NumGoal i σ st1 d rest r →
    NumGoal i σ st d y
      (match r with
       | none => none
       | some (b, r) => some (pre ++ b, r)) := by
  subst hy
  exact NumGoal.prependText i σ st st1 d pre rest hrun

theorem call_dot (X : Step) (hX : X = .s0 ∨ X = .s1) (σ : List ParseState) :
    (scanAt X σ).call '.' = (scanAt .dot σ, .continue_) := by
  rcases hX with rfl | rfl <;> rfl

theorem frac_exp_sim (i : GoString) (σ : List ParseState) (X : Step) (d : Nat) (z : GoString)
    (hX : X = .s0 ∨ X = .s1) (hd : X = .s1 → ∀ c r, z = c :: r → isDigit c = false) :
    NumGoal i σ X d z (parseFracExp z) := by
  have hbe : X.beforeExp = true := by rcases hX with rfl | rfl <;> rfl
  cases z with
  | nil =>
    exact ⟨List.suffix_refl _, X, beforeExp_numEnd X hbe, fun c r h => (by cases h),
      RunsTo.here i _ false d []⟩
  | cons c rest =>
    simp only [parseFracExp, parseFrac]
    by_cases hc : c = '.'
    · subst hc
      rw [if_pos rfl]
      have hrun := RunsTo.cont i d rest (call_dot X hX σ)
      rcases need_digits i σ .dot .dot0 d rest rfl (call_dot_digit σ)
        (fun x r' _ hx => call_dot_other σ x hx) (call_dot0_digit σ) with ⟨h1, h2⟩ | ⟨h1, h2⟩
      · rw [if_pos h1]
        exact Rejected.of_runs hrun h2
      · rw [if_neg h1]
        refine NumGoal.prepend_eq i σ X .dot0 d _ ('.' :: rest.takeWhile isDigit)
          (rest.dropWhile isDigit) (by simp [List.takeWhile_append_dropWhile]) ?_ _
          (exp_sim i σ .dot0 d _ rfl (fun _ x r' hx => dropWhile_digit_head rest x r' hx)
            (fun h => by rcases h with h | h <;> cases h))
        exact hrun.trans h2
    · rw [if_neg hc]
      refine NumGoal.prepend_eq i σ X X d _ [] (c :: rest) rfl (RunsTo.here i _ false d _) _
        (exp_sim i σ X d _ hbe ?_ ?_)
      · intro h x r' hx
        rcases h with h | h
        · exact hd h x r' hx
        · subst h; rcases hX with h | h <;> cases h
      · intro _ x r' hx
        cases hx
        exact hc

theorem parseNumber_minus (rest : GoString) :
    parseNumber ('-' :: rest) =
      match parseIntFracExp rest with
      | none => none
      | some (b, r) => some ('-' :: b, r) := by
  rw [parseNumber_eq]
  simp only [parseMinus, if_true, parseIntFracExp]
  cases parseInt rest with
  | none => rfl
  | some p =>
    obtain ⟨int, s1⟩ := p
    simp only
    cases parseFracExp s1 with
    | none => rfl
    | some q => rfl

theorem parseNumber_zero (rest : GoString) :
    parseNumber ('0' :: rest) =
      match parseFracExp rest with
      | none => none
      | some (b, r) => some ('0' :: b, r) := by
  rw [parseNumber_eq]
  simp only [parseMinus, parseInt]
  rw [if_neg (by decide)]
  simp only [if_true]
  cases parseFracExp rest with
  | none => rfl
  | some q => rfl

theorem parseNumber_digit (c : Char) (rest : GoString) (hc : ('1' ≤ c && c ≤ '9') = true) :
    parseNumber (c :: rest) =
      match parseFracExp (rest.dropWhile isDigit) with
      | none => none
      | some (b, r) => some (c :: (rest.takeWhile isDigit ++ b), r) := by
  have h1 : c ≠ '-' := by rintro rfl; revert hc; decide
  have h2 : c ≠ '0' := by rintro rfl; revert hc; decide
  rw [parseNumber_eq]
  simp only [parseMinus, parseInt]
  rw [if_neg h1]
  simp only
  rw [if_neg h2, if_pos hc]
  simp only
  cases parseFracExp (rest.dropWhile isDigit) with
  | none => rfl
  | some q => rfl

theorem call_neg_zero (σ : List ParseState) :
    (scanAt .neg σ).call '0' = (scanAt .s0 σ, .continue_) := rfl

theorem call_neg_digit (σ : List ParseState) (c : Char) (hc : ('1' ≤ c && c ≤ '9') = true) :
    (scanAt .neg σ).call c = (scanAt .s1 σ, .continue_) := by
  have h2 : c ≠ '0' := by rintro rfl; revert hc; decide
  simp only [Scanner.call, stateNeg, scanAt]
  rw [if_neg (by simpa using h2), if_pos hc]

theorem call_neg_other (σ : List ParseState) (c : Char) (h0 : c ≠ '0')
    (hc : ¬ ('1' ≤ c && c ≤ '9') = true) :
    ∃ m, (scanAt .neg σ).call c = (scanAt .neg σ).error c m :=
  ⟨_, by
    simp only [Scanner.call, stateNeg, scanAt]
    rw [if_neg (by simpa using h0), if_neg hc]⟩

/-- After the first digit `c` in 1..9, read in the step before `st`. -/
theorem digits_sim (i : GoString) (σ : List ParseState) (st : Step) (d : Nat) (c : Char)
    (rest : GoString)
    (hfirst : RunsTo i (scanAt st σ) false d (c :: rest) (scanAt .s1 σ) false d rest [c] [c]) :
    NumGoal i σ st d (c :: rest)
      (match parseFracExp (rest.dropWhile isDigit) with
       | none => none
       | some (b, r) => some (c :: (rest.takeWhile isDigit ++ b), r)) := by
  refine NumGoal.prepend_eq i σ st .s1 d _ (c :: rest.takeWhile isDigit)
    (rest.dropWhile isDigit) (by simp [List.takeWhile_append_dropWhile]) ?_ _
    (frac_exp_sim i σ .s1 d _ (Or.inr rfl) (fun _ x r' hx => dropWhile_digit_head rest x r' hx))
  exact hfirst.trans (digits_run i σ .s1 d (call_s1_digit σ) rest)

theorem int_sim (i : GoString) (σ : List ParseState) (d : Nat) (z : GoString) :
    NumGoal i σ .neg d z (parseIntFracExp z) := by
  cases z with
  | nil => exact Rejected.nil (eof_inner _ _ rfl)
  | cons c rest =>
    simp only [parseIntFracExp, parseInt]
    by_cases h0 : c = '0'
    · subst h0
      rw [if_pos rfl]
      exact NumGoal.prepend_eq i σ .neg .s0 d _ ['0'] rest rfl
        (RunsTo.cont i d rest (call_neg_zero σ)) _
        (frac_exp_sim i σ .s0 d rest (Or.inl rfl) (fun h => by cases h))
    · rw [if_neg h0]
      by_cases hc : ('1' ≤ c && c ≤ '9') = true
      · rw [if_pos hc]
        exact digits_sim i σ .neg d c rest (RunsTo.cont i d rest (call_neg_digit σ c hc))
      · rw [if_neg hc]
        obtain ⟨m, hm⟩ := call_neg_other σ c h0 hc
        exact Rejected.of_call_error rest hm

theorem ValueGoal.value_some (i : GoString) (s : Scanner) (σ : List ParseState) (ni : Bool)
    (d : Nat) (y : GoString) (v : JValue) (rest : GoString) :
    ValueGoal i s σ ni d y (some (v, rest)) =
      if σ.length + v.depth ≤ maxNestingDepth then
        rest <:+ y ∧ rest.length < y.length ∧ ∃ s', After s' σ rest ∧
          RunsTo i s ni d y s' false (bump ni d) rest (serializeCompact v)
            (lead i ni d ++ serializeIndented i (bump ni d) v)
      else Rejected s y := rfl

theorem ValueGoal.skipSpaces (i : GoString) (s : Scanner) (hs : s.Skips) (σ : List ParseState)
    (ni : Bool) (d : Nat) (y : GoString) (r : Option (JValue × GoString))
    (h : ValueGoal i s σ ni d (skipWs y) r) : ValueGoal i s σ ni d y r := by
  have hrun := RunsTo.skipWs i hs ni d y
  cases r with
  | none => exact Rejected.of_runs hrun h
  | some p =>
    obtain ⟨v, rest⟩ := p
    rw [ValueGoal.value_some] at h ⊢
    by_cases hd : σ.length + v.depth ≤ maxNestingDepth
    · rw [if_pos hd] at h ⊢
      obtain ⟨h1, h2, s', h4, h5⟩ := h
      exact ⟨h1.trans (skipWs_suffix y), lt_of_lt_of_le h2 (skipWs_length y), s', h4,
        by simpa using hrun.trans h5⟩
    · rw [if_neg hd] at h ⊢
      exact Rejected.of_runs hrun h

theorem NumberGoal.first (i : GoString) (s : Scanner) (σ : List ParseState) (st1 : Step)
    (ni : Bool) (d : Nat) (c : Char) (rest : GoString)
    (hfirst : RunsTo i s ni d (c :: rest) (scanAt st1 σ) false (bump ni d) rest [c]
      (lead i ni d ++ [c])) :
    ∀ r : Option (GoString × GoString), NumGoal i σ st1 (bump ni d) rest r →
    NumberGoal i s σ ni d (c :: rest)
      (match r with
       | none => none
       | some (b, r) => some (c :: b, r)) := by
  intro r h
  cases r with
  | none => exact Rejected.of_runs hfirst h
  | some p =>
    obtain ⟨b, r⟩ := p
    obtain ⟨h1, st', h2, h3, h4⟩ := h
    refine ⟨h1.trans (List.suffix_cons _ _), ?_, st', h2, h3, ?_⟩
    · have := h1.length_le
      simp only [List.length_cons]; omega
    · have := hfirst.trans h4
      simpa using this

theorem NumberGoal.toValue (i : GoString) (s : Scanner) (σ : List ParseState)
    (hσ : σ.length ≤ maxNestingDepth) (ni : Bool) (d : Nat) (y : GoString) :
    ∀ r : Option (GoString × GoString), NumberGoal i s σ ni d y r →
    ValueGoal i s σ ni d y
      (match r with
       | none => none
       | some (n, rest1) => some (.number n, rest1)) := by
  intro r h
  cases r with
  | none => exact h
  | some p =>
    obtain ⟨n, r⟩ := p
    obtain ⟨h1, h2, st', h3, h4, h5⟩ := h
    show ValueGoal i s σ ni d y (some (.number n, r))
    rw [ValueGoal.value_some, if_pos (by simpa [JValue.depth] using hσ)]
    exact ⟨h1, h2, scanAt st' σ, Or.inl ⟨st', rfl, Or.inr ⟨h3, h4⟩⟩, h5⟩

theorem parseNumber_digit_nested (c : Char) (rest : GoString)
    (hc : ('1' ≤ c && c ≤ '9') = true) :
    parseNumber (c :: rest) =
      match (match parseFracExp (rest.dropWhile isDigit) with
             | none => none
             | some (b, r) => some (rest.takeWhile isDigit ++ b, r)) with
      | none => none
      | some (b, r) => some (c :: b, r) := by
  rw [parseNumber_digit c rest hc]
  cases parseFracExp (rest.dropWhile isDigit) with
  | none => rfl
  | some q => rfl

theorem number_sim (i : GoString) (σ : List ParseState) (st0 : Step) (ni : Bool) (d : Nat)
    (c : Char) (rest : GoString) (hc : c = '-' ∨ isDigit c = true)
    (hbegin : (scanAt st0 σ).call c = stateBeginValue (scanAt st0 σ) c) :
    NumberGoal i (scanAt st0 σ) σ ni d (c :: rest) (parseNumber (c :: rest)) := by
  rcases hc with rfl | hd
  · rw [parseNumber_minus]
    exact NumberGoal.first i _ σ .neg ni d '-' rest
      (RunsTo.literal i ni d rest (hbegin.trans (begin_minus st0 σ)) (by decide)) _
      (int_sim i σ _ rest)
  · rcases digit_cases c hd with rfl | h19
    · rw [parseNumber_zero]
      exact NumberGoal.first i _ σ .s0 ni d '0' rest
        (RunsTo.literal i ni d rest (hbegin.trans (begin_zero st0 σ)) (by decide)) _
        (frac_exp_sim i σ .s0 _ rest (Or.inl rfl) (fun h => by cases h))
    · rw [parseNumber_digit_nested c rest h19]
      refine NumberGoal.first i _ σ .s1 ni d c rest
        (RunsTo.literal i ni d rest (hbegin.trans (begin_digit19 st0 σ c h19))
          (digit19_not_space_punct c h19).2) _ ?_
      exact NumGoal.prepend_eq i σ .s1 .s1 _ rest (rest.takeWhile isDigit)
        (rest.dropWhile isDigit) (List.takeWhile_append_dropWhile _ _).symm
        (digits_run i σ .s1 _ (call_s1_digit σ) rest) _
        (frac_exp_sim i σ .s1 _ _ (Or.inr rfl)
          (fun _ x r' hx => dropWhile_digit_head rest x r' hx))

theorem string_value (i : GoString) (s : Scanner) (σ : List ParseState)
    (hσ : σ.length ≤ maxNestingDepth) (ni : Bool) (d : Nat) (rest : GoString)
    (hfirst : s.call '"' = (scanAt .inString σ, .beginLiteral)) :
    ∀ r : Option (GoString × GoString), StringGoal i σ (bump ni d) rest r →
    ValueGoal i s σ ni d ('"' :: rest)
      (match r with
       | none => none
       | some (b, rest1) => some (.string b, rest1)) := by
  intro r h
  have hrun := RunsTo.literal i ni d rest hfirst (by decide)
  cases r with
  | none => exact Rejected.of_runs hrun h
  | some p =>
    obtain ⟨b, r⟩ := p
    obtain ⟨h1, h2, h3⟩ := h
    show ValueGoal i s σ ni d ('"' :: rest) (some (.string b, r))
    rw [ValueGoal.value_some, if_pos (by simpa [JValue.depth] using hσ)]
    refine ⟨h1.trans (List.suffix_cons _ _), ?_, ?_⟩
    · simp only [List.length_cons]; omega
    refine ⟨scanAt .endValue σ, Or.inl ⟨.endValue, rfl, Or.inl rfl⟩, ?_⟩
    have := hrun.trans h3
    simpa [serializeCompact, serializeIndented, quoted] using this

theorem literal_value (i : GoString) (s : Scanner) (σ : List ParseState)
    (hσ : σ.length ≤ maxNestingDepth) (ni : Bool) (d : Nat) (c : Char) (es rest : GoString)
    (v : JValue) (st1 : Step) (hfirst : s.call c = (scanAt st1 σ, .beginLiteral))
    (hc : isPunct c = false) (hchain : litChain st1 es .endValue) (hdepth : v.depth = 0)
    (hser : serializeCompact v = c :: es) (hind : serializeIndented i (bump ni d) v = c :: es) :
    ValueGoal i s σ ni d (c :: rest) (parseLiteral (c :: es) v (c :: rest)) := by
  have hrun := RunsTo.literal i ni d rest hfirst hc
  have hp : (c :: es).isPrefixOf (c :: rest) = es.isPrefixOf rest := by
    simp [List.isPrefixOf]
  unfold parseLiteral
  rw [hp]
  rcases lit_run i σ (bump ni d) es st1 .endValue hchain rest with ⟨h1, h2⟩ | ⟨h1, h2⟩
  · rw [if_pos h1]
    rw [ValueGoal.value_some, if_pos (by rw [hdepth]; simpa using hσ)]
    refine ⟨?_, ?_, ?_⟩
    · simp only [List.length_cons, List.drop_succ_cons]
      exact (List.drop_suffix _ _).trans (List.suffix_cons _ _)
    · simp only [List.length_cons, List.drop_succ_cons, List.length_drop]; omega
    refine ⟨scanAt .endValue σ, Or.inl ⟨.endValue, rfl, Or.inl rfl⟩, ?_⟩
    have := hrun.trans h2
    rw [hser, hind]
    simpa using this
  · rw [if_neg (by simp [h1])]
    exact Rejected.of_runs hrun h2

/-- After a value inside an array or object: the scanner skips the white
space and hands the next character to `stateEndValue`. -/
theorem After.sep (i : GoString) (s' : Scanner) (p : ParseState) (τ : List ParseState)
    (rest : GoString) (h : After s' (p :: τ) rest) (d : Nat) :
    ∃ s2, RunsTo i s' false d rest s2 false d (skipWs rest) [] [] ∧
      (skipWs rest = [] → Rejected s2 []) ∧
      (∀ c r, skipWs rest = c :: r →
        s2.call c = stateEndValue (scanAt .endValue (p :: τ)) c) := by
  rcases h with ⟨st, rfl, h1⟩ | ⟨h1, _⟩
  swap
  · cases h1
  have hskips : (scanAt .endValue (p :: τ)).Skips :=
    Skips.of_endValue _ rfl (by simp [scanAt])
  rcases h1 with rfl | ⟨h1, h2⟩
  · exact ⟨_, RunsTo.skipWs i hskips false d rest,
      fun _ => Rejected.nil (eof_after_nested _ p τ (Or.inl rfl)),
      fun c r _ => rfl⟩
  · cases rest with
    | nil =>
      exact ⟨_, RunsTo.here i _ false d [],
        fun _ => Rejected.nil (eof_after_nested _ p τ (Or.inr h1)),
        fun c r h => (by cases h)⟩
    | cons c r =>
      by_cases hc : isSpace c = true
      · rw [skipWs_cons_ws c r hc]
        have hcall := call_numEnd_space (scanAt st (p :: τ)) c h1 (by simp [scanAt]) hc
        exact ⟨_, (RunsTo.skipOne i false d r hcall).trans (RunsTo.skipWs i hskips false d r),
          fun _ => Rejected.nil (eof_after_nested _ p τ (Or.inl rfl)),
          fun c r _ => rfl⟩
      · rw [skipWs_cons_not c r (by simpa using hc)]
        refine ⟨_, RunsTo.here i _ false d _, fun h => (by cases h), ?_⟩
        intro x r' hx
        cases hx
        rw [h2 c r rfl]
        exact stateEndValue_step (scanAt .endValue (p :: τ)) st c

theorem ElementsGoal.elements_some (i : GoString) (s' : Scanner) (τ : List ParseState) (d : Nat)
    (y : GoString) (vs : List JValue) (rest : GoString) :
    ElementsGoal i s' τ d y (some (vs, rest)) =
      if τ.length + 1 + depthElements vs ≤ maxNestingDepth then
        rest <:+ y ∧ rest.length < y.length ∧
          RunsTo i s' false (d + 1) y (afterPop τ) false d rest (compactElements vs ++ [']'])
            (indentedElements i (d + 1) vs ++ (indentedLine i d ++ [']']))
      else Rejected s' y := rfl

theorem MemberGoal.member_some (i : GoString) (s : Scanner) (τ : List ParseState) (ni : Bool)
    (d : Nat) (y : GoString) (m : GoString × JValue) (rest : GoString) :
    MemberGoal i s τ ni d y (some (m, rest)) =
      if τ.length + 1 + m.2.depth ≤ maxNestingDepth then
        rest <:+ y ∧ rest.length < y.length ∧ ∃ s', After s' (.objectValue :: τ) rest ∧
          RunsTo i s ni d y s' false (bump ni d) rest
            (quoted m.1 ++ ':' :: serializeCompact m.2)
            (lead i ni d ++ (quoted m.1 ++ ':' :: ' ' :: serializeIndented i (bump ni d) m.2))
      else Rejected s y := rfl

theorem MembersGoal.members_some (i : GoString) (s' : Scanner) (τ : List ParseState) (d : Nat)
    (y : GoString) (ms : List (GoString × JValue)) (rest : GoString) :
    MembersGoal i s' τ d y (some (ms, rest)) =
      if τ.length + 1 + depthMembers ms ≤ maxNestingDepth then
        rest <:+ y ∧ rest.length < y.length ∧
          RunsTo i s' false (d + 1) y (afterPop τ) false d rest (compactMembers ms ++ ['\x7d'])
            (indentedMembers i (d + 1) ms ++ (indentedLine i d ++ ['\x7d']))
      else Rejected s' y := rfl

theorem bump_false (d : Nat) : bump false d = d := rfl

theorem bump_true (d : Nat) : bump true d = d + 1 := rfl

theorem lead_false (i : GoString) (d : Nat) : lead i false d = [] := rfl

theorem lead_true (i : GoString) (d : Nat) : lead i true d = indentedLine i (d + 1) := rfl

theorem RunsTo.congr {i : GoString} {s s' : Scanner} {ni ni' : Bool} {d d' : Nat}
    {y r oc oi oc' oi' : GoString} (h : RunsTo i s ni d y s' ni' d' r oc oi)
    (h1 : oc = oc') (h2 : oi = oi') : RunsTo i s ni d y s' ni' d' r oc' oi' := by
  subst h1 h2; exact h

theorem After.pop (τ : List ParseState) (rest : GoString) : After (afterPop τ) τ rest := by
  cases τ with
  | nil => exact Or.inr ⟨rfl, rfl⟩
  | cons p τ => exact Or.inl ⟨.endValue, rfl, Or.inl rfl⟩

theorem elements_step (i : GoString) (fuel : Nat) (hV : ValueSim i fuel)
    (hE : ElementsSim i fuel) : ElementsSim i (fuel + 1) := by
  intro y τ s' d hτ hafter hlen
  obtain ⟨s2, hrun, hnil, hcall⟩ := After.sep i s' .arrayValue τ y hafter (d + 1)
  rw [parseElements]
  cases hsk : skipWs y with
  | nil =>
    rw [hsk] at hrun
    exact Rejected.of_runs hrun (hnil hsk)
  | cons c rest =>
    rw [hsk] at hrun
    have hsp := skipWs_head y c rest hsk
    have hsuf : c :: rest <:+ y := hsk ▸ skipWs_suffix y
    have hlen' : rest.length < y.length := by
      have := hsuf.length_le
      simp only [List.length_cons] at this
      omega
    have hcall' := hcall c rest hsk
    simp only
    by_cases h1 : c = ']'
    · subst h1
      rw [if_pos rfl, ElementsGoal.elements_some, if_pos (by simpa [depthElements] using hτ)]
      refine ⟨(List.suffix_cons _ _).trans hsuf, hlen', ?_⟩
      have hstep := RunsTo.step i false (d + 1) rest
        (hcall'.trans (endValue_array_close _ τ)) (by decide) (by decide) (by decide) false d _
        (indentStep_close i d ']' .endArray (Or.inr rfl) (Or.inr rfl))
      exact (hrun.trans hstep).congr (by simp [compactElements]) (by simp [indentedElements])
    rw [if_neg h1]
    by_cases h2 : c = ','
    · subst h2
      rw [if_pos rfl]
      have hstep := RunsTo.step i false (d + 1) rest
        (hcall'.trans (endValue_array_comma _ τ)) (by decide) (by decide) (by decide) false
        (d + 1) _ (indentStep_comma i (d + 1) .arrayValue (Or.inl rfl))
      have hrun0 := hrun.trans hstep
      have hv := hV rest (.arrayValue :: τ) .beginValue false (d + 1) (by simpa using hτ)
        (Or.inl rfl) (by omega)
      cases hp : parseValue fuel rest with
      | none =>
        rw [hp] at hv
        exact Rejected.of_runs hrun0 hv
      | some p =>
        obtain ⟨v, rest1⟩ := p
        rw [hp, ValueGoal.value_some] at hv
        simp only
        by_cases hd : (ParseState.arrayValue :: τ).length + v.depth ≤ maxNestingDepth
        · rw [if_pos hd] at hv
          obtain ⟨hs1, hl1, s1, haft1, hrun1⟩ := hv
          have hrun2 := hrun0.trans hrun1
          have he := hE rest1 τ s1 d hτ haft1 (by omega)
          cases hq : parseElements fuel rest1 with
          | none =>
            rw [hq] at he
            exact Rejected.of_runs hrun2 he
          | some q =>
            obtain ⟨vs, rest2⟩ := q
            rw [hq, ElementsGoal.elements_some] at he
            simp only
            rw [ElementsGoal.elements_some]
            by_cases hd2 : τ.length + 1 + depthElements vs ≤ maxNestingDepth
            · rw [if_pos hd2] at he
              obtain ⟨hs2, hl2, hrun3⟩ := he
              have hd3 : τ.length + 1 + depthElements (v :: vs) ≤ maxNestingDepth := by
                simp only [List.length_cons] at hd
                simp only [depthElements]
                omega
              rw [if_pos hd3]
              refine ⟨hs2.trans (hs1.trans ((List.suffix_cons _ _).trans hsuf)), by omega, ?_⟩
              exact (hrun2.trans hrun3).congr
                (by simp [compactElements])
                (by simp [indentedElements, bump_false, lead_false])
            · rw [if_neg hd2] at he
              have hd3 : ¬ τ.length + 1 + depthElements (v :: vs) ≤ maxNestingDepth := by
                simp only [depthElements]
                omega
              rw [if_neg hd3]
              exact Rejected.of_runs hrun2 he
        · rw [if_neg hd] at hv
          have hrej := Rejected.of_runs hrun0 hv
          cases hq : parseElements fuel rest1 with
          | none => exact hrej
          | some q =>
            obtain ⟨vs, rest2⟩ := q
            simp only
            have hd3 : ¬ τ.length + 1 + depthElements (v :: vs) ≤ maxNestingDepth := by
              simp only [List.length_cons] at hd
              simp only [depthElements]
              omega
            rw [ElementsGoal.elements_some, if_neg hd3]
            exact hrej
    · rw [if_neg h2]
      exact Rejected.of_runs hrun (Rejected.of_call rest
        (hcall'.trans (endValue_array_other _ τ c hsp h2 h1)) (error_err _ _ _))

theorem members_step (i : GoString) (fuel : Nat) (hM : MemberSim i fuel)
    (hMS : MembersSim i fuel) : MembersSim i (fuel + 1) := by
  intro y τ s' d hτ hafter hlen
  obtain ⟨s2, hrun, hnil, hcall⟩ := After.sep i s' .objectValue τ y hafter (d + 1)
  rw [parseMembers]
  cases hsk : skipWs y with
  | nil =>
    rw [hsk] at hrun
    exact Rejected.of_runs hrun (hnil hsk)
  | cons c rest =>
    rw [hsk] at hrun
    have hsp := skipWs_head y c rest hsk
    have hsuf : c :: rest <:+ y := hsk ▸ skipWs_suffix y
    have hlen' : rest.length < y.length := by
      have := hsuf.length_le
      simp only [List.length_cons] at this
      omega
    have hcall' := hcall c rest hsk
    simp only
    by_cases h1 : c = '\x7d'
    · subst h1
      rw [if_pos rfl, MembersGoal.members_some, if_pos (by simpa [depthMembers] using hτ)]
      refine ⟨(List.suffix_cons _ _).trans hsuf, hlen', ?_⟩
      have hstep := RunsTo.step i false (d + 1) rest
        (hcall'.trans (endValue_object_close _ τ)) (by decide) (by decide) (by decide) false d _
        (indentStep_close i d '\x7d' .endObject (Or.inl rfl) (Or.inl rfl))
      exact (hrun.trans hstep).congr (by simp [compactMembers]) (by simp [indentedMembers])
    rw [if_neg h1]
    by_cases h2 : c = ','
    · subst h2
      rw [if_pos rfl]
      have hstep := RunsTo.step i false (d + 1) rest
        (hcall'.trans (endValue_object_comma _ τ)) (by decide) (by decide) (by decide) false
        (d + 1) _ (indentStep_comma i (d + 1) .objectValue (Or.inr rfl))
      have hrun0 := hrun.trans hstep
      have hv := hM rest τ .beginString false (d + 1) hτ (Or.inl rfl) (by omega)
      cases hp : parseMember fuel rest with
      | none =>
        rw [hp] at hv
        exact Rejected.of_runs hrun0 hv
      | some p =>
        obtain ⟨m, rest1⟩ := p
        obtain ⟨k, v⟩ := m
        rw [hp, MemberGoal.member_some] at hv
        simp only at hv ⊢
        by_cases hd : τ.length + 1 + v.depth ≤ maxNestingDepth
        · rw [if_pos hd] at hv
          obtain ⟨hs1, hl1, s1, haft1, hrun1⟩ := hv
          have hrun2 := hrun0.trans hrun1
          have he := hMS rest1 τ s1 d hτ haft1 (by omega)
          cases hq : parseMembers fuel rest1 with
          | none =>
            rw [hq] at he
            exact Rejected.of_runs hrun2 he
          | some q =>
            obtain ⟨ms, rest2⟩ := q
            rw [hq, MembersGoal.members_some] at he
            simp only
            rw [MembersGoal.members_some]
            by_cases hd2 : τ.length + 1 + depthMembers ms ≤ maxNestingDepth
            · rw [if_pos hd2] at he
              obtain ⟨hs2, hl2, hrun3⟩ := he
              have hd3 : τ.length + 1 + depthMembers ((k, v) :: ms) ≤ maxNestingDepth := by
                simp only [depthMembers]
                omega
              rw [if_pos hd3]
              refine ⟨hs2.trans (hs1.trans ((List.suffix_cons _ _).trans hsuf)), by omega, ?_⟩
              exact (hrun2.trans hrun3).congr
                (by simp [compactMembers])
                (by simp [indentedMembers, bump_false, lead_false])
            · rw [if_neg hd2] at he
              have hd3 : ¬ τ.length + 1 + depthMembers ((k, v) :: ms) ≤ maxNestingDepth := by
                simp only [depthMembers]
                omega
              rw [if_neg hd3]
              exact Rejected.of_runs hrun2 he
        · rw [if_neg hd] at hv
          have hrej := Rejected.of_runs hrun0 hv
          cases hq : parseMembers fuel rest1 with
          | none => exact hrej
          | some q =>
            obtain ⟨ms, rest2⟩ := q
            simp only
            have hd3 : ¬ τ.length + 1 + depthMembers ((k, v) :: ms) ≤ maxNestingDepth := by
              simp only [depthMembers]
              omega
            rw [MembersGoal.members_some, if_neg hd3]
            exact hrej
    · rw [if_neg h2]
      exact Rejected.of_runs hrun (Rejected.of_call rest
        (hcall'.trans (endValue_object_other _ τ c hsp h2 h1)) (error_err _ _ _))

theorem member_step (i : GoString) (fuel : Nat) (hV : ValueSim i fuel) :
    MemberSim i (fuel + 1) := by
  intro y τ st ni d hτ hst hlen
  have hstable : st.stable = true := by rcases hst with rfl | ⟨rfl, _⟩ <;> rfl
  have hrun := RunsTo.skipWs i (Skips.of_stable (scanAt st (.objectKey :: τ)) hstable) ni d y
  rw [parseMember]
  cases hsk : skipWs y with
  | nil =>
    rw [hsk] at hrun
    exact Rejected.of_runs hrun (Rejected.nil (eof_stable _ _ hstable))
  | cons c rest =>
    rw [hsk] at hrun
    have hsp := skipWs_head y c rest hsk
    have hsuf : c :: rest <:+ y := hsk ▸ skipWs_suffix y
    have hlen' : rest.length < y.length := by
      have := hsuf.length_le
      simp only [List.length_cons] at this
      omega
    have hclose : st = .beginStringOrEmpty → c ≠ '\x7d' := by
      intro h hc
      rcases hst with rfl | ⟨_, h2⟩
      · cases h
      · exact h2 rest (by rw [hsk, hc])
    have hcall := call_key st (by rcases hst with h | h; exact Or.inl h; exact Or.inr h.1)
      (.objectKey :: τ) c hsp hclose
    simp only
    by_cases h1 : c = '"'
    · subst h1
      rw [if_pos rfl]
      have hstep := RunsTo.literal i ni d rest (hcall.trans (beginString_quote st _))
        (by decide)
      have hrun0 := hrun.trans hstep
      have hs := string_sim i (.objectKey :: τ) (bump ni d) rest
      cases hp : parseStringBody rest with
      | none =>
        rw [hp] at hs
        exact Rejected.of_runs hrun0 hs
      | some p =>
        obtain ⟨k, rest1⟩ := p
        rw [hp] at hs
        obtain ⟨hs1, hl1, hrun1⟩ := hs
        have hrun2 := hrun0.trans hrun1
        obtain ⟨s2, hrun3, hnil, hcall3⟩ := After.sep i (scanAt .endValue (.objectKey :: τ))
          .objectKey τ rest1 (Or.inl ⟨.endValue, rfl, Or.inl rfl⟩) (bump ni d)
        have hrun4 := hrun2.trans hrun3
        simp only
        cases hsk1 : skipWs rest1 with
        | nil =>
          rw [hsk1] at hrun4
          exact Rejected.of_runs hrun4 (hnil hsk1)
        | cons c1 rest2 =>
          rw [hsk1] at hrun4
          have hsp1 := skipWs_head rest1 c1 rest2 hsk1
          have hsuf1 : c1 :: rest2 <:+ rest1 := hsk1 ▸ skipWs_suffix rest1
          have hlen1 : rest2.length < rest1.length := by
            have := hsuf1.length_le
            simp only [List.length_cons] at this
            omega
          simp only
          by_cases h2 : c1 = ':'
          · subst h2
            rw [if_pos rfl]
            have hstep5 := RunsTo.step i false (bump ni d) rest2
              ((hcall3 ':' rest2 hsk1).trans (endValue_key_colon _ τ)) (by decide) (by decide)
              (by decide) false (bump ni d) _ (indentStep_colon i (bump ni d))
            have hrun5 := hrun4.trans hstep5
            have hv := hV rest2 (.objectValue :: τ) .beginValue false (bump ni d)
              (by simpa using hτ) (Or.inl rfl) (by omega)
            cases hq : parseValue fuel rest2 with
            | none =>
              rw [hq] at hv
              exact Rejected.of_runs hrun5 hv
            | some q =>
              obtain ⟨v, rest3⟩ := q
              rw [hq, ValueGoal.value_some] at hv
              simp only
              rw [MemberGoal.member_some]
              simp only [List.length_cons] at hv
              by_cases hd : τ.length + 1 + v.depth ≤ maxNestingDepth
              · rw [if_pos hd] at hv ⊢
                obtain ⟨hs3, hl3, s3, haft3, hrun6⟩ := hv
                refine ⟨hs3.trans ((List.suffix_cons _ _).trans (hsuf1.trans (hs1.trans
                  ((List.suffix_cons _ _).trans hsuf)))), by omega, s3, haft3, ?_⟩
                exact (hrun5.trans hrun6).congr
                  (by simp [quoted])
                  (by simp [quoted, bump_false, lead_false])
              · rw [if_neg hd] at hv ⊢
                exact Rejected.of_runs hrun5 hv
          · rw [if_neg h2]
            exact Rejected.of_runs hrun4 (Rejected.of_call rest2
              ((hcall3 c1 rest2 hsk1).trans (endValue_key_other _ τ c1 hsp1 h2))
              (error_err _ _ _))
    · rw [if_neg h1]
      exact Rejected.of_runs hrun (Rejected.of_call rest
        (hcall.trans (beginString_other st _ c hsp h1)) (error_err _ _ _))

theorem ValueGoal.of_rejected (i : GoString) (s : Scanner) (σ : List ParseState) (ni : Bool)
    (d : Nat) (y : GoString) (hrej : Rejected s y) (hσ : ¬ σ.length + 1 ≤ maxNestingDepth)
    (r : Option (JValue × GoString)) (hr : ∀ v rest, r = some (v, rest) → 1 ≤ v.depth) :
    ValueGoal i s σ ni d y r := by
  cases r with
  | none => exact hrej
  | some p =>
    obtain ⟨v, rest⟩ := p
    have := hr v rest rfl
    rw [ValueGoal.value_some, if_neg (by omega)]
    exact hrej

theorem object_step (i : GoString) (fuel : Nat) (hM : MemberSim i fuel)
    (hMS : MembersSim i fuel) (σ : List ParseState) (st : Step) (ni : Bool) (d : Nat)
    (rest : GoString) (hlen : rest.length < fuel)
    (hbegin : (scanAt st σ).call '\x7b' = stateBeginValue (scanAt st σ) '\x7b') :
    ValueGoal i (scanAt st σ) σ ni d ('\x7b' :: rest)
      (match skipWs rest with
        | [] => none
        | c1 :: rest1 =>
          if c1 = '\x7d' then some (.object [], rest1)
          else
            match parseMember fuel rest with
            | none => none
            | some (m, rest2) =>
              match parseMembers fuel rest2 with
              | none => none
              | some (ms, rest3) => some (.object (m :: ms), rest3)) := by
  by_cases hdepth : σ.length + 1 ≤ maxNestingDepth
  swap
  · have hcall := hbegin.trans ((begin_object st σ).trans (if_neg hdepth))
    refine ValueGoal.of_rejected i _ σ ni d _ (Rejected.of_call rest hcall (error_err _ _ _))
      hdepth _ ?_
    intro v r' h
    split at h
    · cases h
    · split_ifs at h
      · cases h; simp [JValue.depth]
      · split at h
        · cases h
        · split at h
          · cases h
          · cases h; simp [JValue.depth]
  have hcall := hbegin.trans ((begin_object st σ).trans (if_pos hdepth))
  have hstep := RunsTo.step i ni d rest hcall (by decide) (by decide) (by decide) true
    (bump ni d) _ (indentStep_open i ni d '\x7b' .beginObject (Or.inl rfl) (Or.inl rfl))
  have hskip := RunsTo.skipWs i
    (Skips.of_stable (scanAt .beginStringOrEmpty (.objectKey :: σ)) rfl) true (bump ni d) rest
  have hrun0 := hstep.trans hskip
  cases hsk1 : skipWs rest with
  | nil =>
    rw [hsk1] at hrun0
    exact Rejected.of_runs hrun0 (Rejected.nil (eof_stable _ _ rfl))
  | cons c1 rest1 =>
    rw [hsk1] at hrun0
    have hsuf1 : c1 :: rest1 <:+ rest := hsk1 ▸ skipWs_suffix rest
    have hlen1 : rest1.length < rest.length := by
      have := hsuf1.length_le
      simp only [List.length_cons] at this
      omega
    simp only
    by_cases h2 : c1 = '\x7d'
    · subst h2
      rw [if_pos rfl, ValueGoal.value_some,
        if_pos (by simpa [JValue.depth, depthMembers] using hdepth)]
      refine ⟨(List.suffix_cons _ _).trans (hsuf1.trans (List.suffix_cons _ _)),
        by simp only [List.length_cons]; omega, afterPop σ, After.pop σ rest1, ?_⟩
      have hstep2 := RunsTo.step i true (bump ni d) rest1 (call_empty_object σ) (by decide)
        (by decide) (by decide) false (bump ni d) _
        (indentStep_close_empty i (bump ni d) '\x7d' .endObject (Or.inl rfl) (Or.inl rfl))
      exact (hrun0.trans hstep2).congr (by simp [serializeCompact])
        (by simp [serializeIndented])
    · rw [if_neg h2]
      have hm := hM rest σ .beginStringOrEmpty true (bump ni d) hdepth
        (Or.inr ⟨rfl, fun r hr => h2 (by rw [hsk1] at hr; exact (List.cons.inj hr).1)⟩) hlen
      cases hp : parseMember fuel rest with
      | none =>
        rw [hp] at hm
        exact Rejected.of_runs hstep hm
      | some p =>
        obtain ⟨m, rest2⟩ := p
        obtain ⟨k, v⟩ := m
        rw [hp, MemberGoal.member_some] at hm
        simp only at hm ⊢
        by_cases hd : σ.length + 1 + v.depth ≤ maxNestingDepth
        · rw [if_pos hd] at hm
          obtain ⟨hs2, hl2, s2, haft2, hrun2⟩ := hm
          have hrun3 := hstep.trans hrun2
          have hms := hMS rest2 σ s2 (bump ni d) hdepth haft2 (by omega)
          cases hq : parseMembers fuel rest2 with
          | none =>
            rw [hq] at hms
            exact Rejected.of_runs hrun3 hms
          | some q =>
            obtain ⟨ms, rest3⟩ := q
            rw [hq, MembersGoal.members_some] at hms
            simp only
            rw [ValueGoal.value_some]
            by_cases hd2 : σ.length + 1 + depthMembers ms ≤ maxNestingDepth
            · rw [if_pos hd2] at hms
              obtain ⟨hs3, hl3, hrun4⟩ := hms
              have hd3 : σ.length + (JValue.object ((k, v) :: ms)).depth ≤ maxNestingDepth := by
                simp only [JValue.depth, depthMembers]
                omega
              rw [if_pos hd3]
              refine ⟨hs3.trans (hs2.trans (List.suffix_cons _ _)),
                by simp only [List.length_cons]; omega, afterPop σ, After.pop σ rest3, ?_⟩
              exact (hrun3.trans hrun4).congr
                (by simp [serializeCompact])
                (by simp [serializeIndented, bump_true, lead_true])
            · rw [if_neg hd2] at hms
              have hd3 : ¬ σ.length + (JValue.object ((k, v) :: ms)).depth ≤ maxNestingDepth := by
                simp only [JValue.depth, depthMembers]
                omega
              rw [if_neg hd3]
              exact Rejected.of_runs hrun3 hms
        · rw [if_neg hd] at hm
          have hrej := Rejected.of_runs hstep hm
          cases hq : parseMembers fuel rest2 with
          | none => exact hrej
          | some q =>
            obtain ⟨ms, rest3⟩ := q
            simp only
            have hd3 : ¬ σ.length + (JValue.object ((k, v) :: ms)).depth ≤ maxNestingDepth := by
              simp only [JValue.depth, depthMembers]
              omega
            rw [ValueGoal.value_some, if_neg hd3]
            exact hrej

theorem array_step (i : GoString) (fuel : Nat) (hV : ValueSim i fuel)
    (hE : ElementsSim i fuel) (σ : List ParseState) (st : Step) (ni : Bool) (d : Nat)
    (rest : GoString) (hlen : rest.length < fuel)
    (hbegin : (scanAt st σ).call '[' = stateBeginValue (scanAt st σ) '[') :
    ValueGoal i (scanAt st σ) σ ni d ('[' :: rest)
      (match skipWs rest with
        | [] => none
        | c1 :: rest1 =>
          if c1 = ']' then some (.array [], rest1)
          else
            match parseValue fuel rest with
            | none => none
            | some (v, rest2) =>
              match parseElements fuel rest2 with
              | none => none
              | some (vs, rest3) => some (.array (v :: vs), rest3)) := by
  by_cases hdepth : σ.length + 1 ≤ maxNestingDepth
  swap
  · have hcall := hbegin.trans ((begin_array st σ).trans (if_neg hdepth))
    refine ValueGoal.of_rejected i _ σ ni d _ (Rejected.of_call rest hcall (error_err _ _ _))
      hdepth _ ?_
    intro v r' h
    split at h
    · cases h
    · split_ifs at h
      · cases h; simp [JValue.depth]
      · split at h
        · cases h
        · split at h
          · cases h
          · cases h; simp [JValue.depth]
  have hcall := hbegin.trans ((begin_array st σ).trans (if_pos hdepth))
  have hstep := RunsTo.step i ni d rest hcall (by decide) (by decide) (by decide) true
    (bump ni d) _ (indentStep_open i ni d '[' .beginArray (Or.inr rfl) (Or.inr rfl))
  have hskip := RunsTo.skipWs i
    (Skips.of_stable (scanAt .beginValueOrEmpty (.arrayValue :: σ)) rfl) true (bump ni d) rest
  have hrun0 := hstep.trans hskip
  cases hsk1 : skipWs rest with
  | nil =>
    rw [hsk1] at hrun0
    exact Rejected.of_runs hrun0 (Rejected.nil (eof_stable _ _ rfl))
  | cons c1 rest1 =>
    rw [hsk1] at hrun0
    have hsuf1 : c1 :: rest1 <:+ rest := hsk1 ▸ skipWs_suffix rest
    have hlen1 : rest1.length < rest.length := by
      have := hsuf1.length_le
      simp only [List.length_cons] at this
      omega
    simp only
    by_cases h2 : c1 = ']'
    · subst h2
      rw [if_pos rfl, ValueGoal.value_some,
        if_pos (by simpa [JValue.depth, depthElements] using hdepth)]
      refine ⟨(List.suffix_cons _ _).trans (hsuf1.trans (List.suffix_cons _ _)),
        by simp only [List.length_cons]; omega, afterPop σ, After.pop σ rest1, ?_⟩
      have hstep2 := RunsTo.step i true (bump ni d) rest1 (call_empty_array σ) (by decide)
        (by decide) (by decide) false (bump ni d) _
        (indentStep_close_empty i (bump ni d) ']' .endArray (Or.inr rfl) (Or.inr rfl))
      exact (hrun0.trans hstep2).congr (by simp [serializeCompact])
        (by simp [serializeIndented])
    · rw [if_neg h2]
      have hm := hV rest (.arrayValue :: σ) .beginValueOrEmpty true (bump ni d)
        (by simpa using hdepth)
        (Or.inr ⟨rfl, fun r hr => h2 (by rw [hsk1] at hr; exact (List.cons.inj hr).1)⟩) hlen
      cases hp : parseValue fuel rest with
      | none =>
        rw [hp] at hm
        exact Rejected.of_runs hstep hm
      | some p =>
        obtain ⟨v, rest2⟩ := p
        rw [hp, ValueGoal.value_some] at hm
        simp only [List.length_cons] at hm ⊢
        by_cases hd : σ.length + 1 + v.depth ≤ maxNestingDepth
        · rw [if_pos hd] at hm
          obtain ⟨hs2, hl2, s2, haft2, hrun2⟩ := hm
          have hrun3 := hstep.trans hrun2
          have hms := hE rest2 σ s2 (bump ni d) hdepth haft2 (by omega)
          cases hq : parseElements fuel rest2 with
          | none =>
            rw [hq] at hms
            exact Rejected.of_runs hrun3 hms
          | some q =>
            obtain ⟨vs, rest3⟩ := q
            rw [hq, ElementsGoal.elements_some] at hms
            simp only
            rw [ValueGoal.value_some]
            by_cases hd2 : σ.length + 1 + depthElements vs ≤ maxNestingDepth
            · rw [if_pos hd2] at hms
              obtain ⟨hs3, hl3, hrun4⟩ := hms
              have hd3 : σ.length + (JValue.array (v :: vs)).depth ≤ maxNestingDepth := by
                simp only [JValue.depth, depthElements]
                omega
              rw [if_pos hd3]
              refine ⟨hs3.trans (hs2.trans (List.suffix_cons _ _)),
                by simp only [List.length_cons]; omega, afterPop σ, After.pop σ rest3, ?_⟩
              exact (hrun3.trans hrun4).congr
                (by simp [serializeCompact])
                (by simp [serializeIndented, bump_true, lead_true])
            · rw [if_neg hd2] at hms
              have hd3 : ¬ σ.length + (JValue.array (v :: vs)).depth ≤ maxNestingDepth := by
                simp only [JValue.depth, depthElements]
                omega
              rw [if_neg hd3]
              exact Rejected.of_runs hrun3 hms
        · rw [if_neg hd] at hm
          have hrej := Rejected.of_runs hstep hm
          cases hq : parseElements fuel rest2 with
          | none => exact hrej
          | some q =>
            obtain ⟨vs, rest3⟩ := q
            simp only
            have hd3 : ¬ σ.length + (JValue.array (v :: vs)).depth ≤ maxNestingDepth := by
              simp only [JValue.depth, depthElements]
              omega
            rw [ValueGoal.value_some, if_neg hd3]
            exact hrej

theorem value_step (i : GoString) (fuel : Nat) (hV : ValueSim i fuel)
    (hE : ElementsSim i fuel) (hM : MemberSim i fuel) (hMS : MembersSim i fuel) :
    ValueSim i (fuel + 1) := by
  intro y σ st ni d hσ hst hlen
  have hstable : st.stable = true := by rcases hst with rfl | ⟨rfl, _⟩ <;> rfl
  apply ValueGoal.skipSpaces i _ (Skips.of_stable _ hstable)
  rw [parseValue]
  cases hsk : skipWs y with
  | nil => exact Rejected.nil (eof_stable _ _ hstable)
  | cons c rest =>
    have hsp := skipWs_head y c rest hsk
    have hsuf : c :: rest <:+ y := hsk ▸ skipWs_suffix y
    have hlen' : rest.length < fuel := by
      have := hsuf.length_le
      simp only [List.length_cons] at this
      omega
    have hclose : st = .beginValueOrEmpty → c ≠ ']' := by
      intro h hc
      rcases hst with rfl | ⟨_, h2⟩
      · cases h
      · exact h2 rest (by rw [hsk, hc])
    have hbegin := call_value st (by rcases hst with h | h; exact Or.inl h; exact Or.inr h.1)
      σ c hsp hclose
    simp only
    by_cases h1 : c = '\x7b'
    · subst h1
      rw [if_pos rfl]
      exact object_step i fuel hM hMS σ st ni d rest hlen' hbegin
    rw [if_neg h1]
    by_cases h2 : c = '['
    · subst h2
      rw [if_pos rfl]
      exact array_step i fuel hV hE σ st ni d rest hlen' hbegin
    rw [if_neg h2]
    by_cases h3 : c = '"'
    · subst h3
      rw [if_pos rfl]
      exact string_value i _ σ hσ ni d rest (hbegin.trans (begin_quote st σ)) _
        (string_sim i σ (bump ni d) rest)
    rw [if_neg h3]
    by_cases h4 : c = '-' ∨ isDigit c = true
    · rw [if_pos h4]
      exact NumberGoal.toValue i _ σ hσ ni d _ _ (number_sim i σ st ni d c rest h4 hbegin)
    rw [if_neg h4]
    by_cases h5 : c = 't'
    · subst h5
      rw [if_pos rfl]
      exact literal_value i _ σ hσ ni d 't' ['r', 'u', 'e'] rest .true_ .t
        (hbegin.trans (begin_t st σ)) (by decide) ⟨_, rfl, _, rfl, _, rfl, rfl⟩ rfl rfl rfl
    rw [if_neg h5]
    by_cases h6 : c = 'f'
    · subst h6
      rw [if_pos rfl]
      exact literal_value i _ σ hσ ni d 'f' ['a', 'l', 's', 'e'] rest .false_ .f
        (hbegin.trans (begin_f st σ)) (by decide) ⟨_, rfl, _, rfl, _, rfl, _, rfl, rfl⟩
        rfl rfl rfl
    rw [if_neg h6]
    by_cases h7 : c = 'n'
    · subst h7
      rw [if_pos rfl]
      exact literal_value i _ σ hσ ni d 'n' ['u', 'l', 'l'] rest .null .n
        (hbegin.trans (begin_n st σ)) (by decide) ⟨_, rfl, _, rfl, _, rfl, rfl⟩ rfl rfl rfl
    rw [if_neg h7]
    exact Rejected.of_call rest (hbegin.trans (begin_other st σ c hsp h1 h2 h3 h4 h5 h6 h7))
      (error_err _ _ _)

/-- The scanner follows the parser, whatever the fuel. -/
theorem sim_all (i : GoString) (fuel : Nat) :
    ValueSim i fuel ∧ ElementsSim i fuel ∧ MemberSim i fuel ∧ MembersSim i fuel := by
  induction fuel with
  | zero =>
    exact ⟨fun y _ _ _ _ _ _ h => absurd h (Nat.not_lt_zero _),
      fun y _ _ _ _ _ h => absurd h (Nat.not_lt_zero _),
      fun y _ _ _ _ _ _ h => absurd h (Nat.not_lt_zero _),
      fun y _ _ _ _ _ h => absurd h (Nat.not_lt_zero _)⟩
  | succ n ih =>
    obtain ⟨hV, hE, hM, hMS⟩ := ih
    exact ⟨value_step i n hV hE hM hMS, elements_step i n hV hE, member_step i n hV,
      members_step i n hM hMS⟩

/-! ### The top level -/

theorem done_rejected (rest : GoString) (h : skipWs rest ≠ []) : Rejected scanDone rest := by
  induction rest with
  | nil => exact absurd rfl h
  | cons c r ih =>
    by_cases hc : isSpace c = true
    · rw [skipWs_cons_ws c r hc] at h
      have hcall : scanDone.call c = (scanDone, .end_) := by
        simp only [Scanner.call, scanDone, stateEndTop, hc, Bool.not_true, Bool.false_eq_true,
          if_false]
      unfold Rejected
      rw [checkValidLoop_cons _ _ c _ r hcall (by decide)]
      exact ih h
    · have hcall : scanDone.call c = ((scanDone.error c "after top-level value").1, .end_) := by
        simp only [Scanner.call, scanDone, stateEndTop]
        rw [if_pos (by simpa using hc)]
      exact Rejected.of_call r hcall (error_err _ _ _)

theorem endValue_top (st : Step) (c : Char) :
    stateEndValue (scanAt st []) c = stateEndTop scanDone c := rfl

theorem After.top_rejected (s' : Scanner) (rest : GoString) (h : After s' [] rest)
    (hws : skipWs rest ≠ []) : Rejected s' rest := by
  cases rest with
  | nil => exact absurd rfl hws
  | cons c r =>
    have key : ∀ st, (scanAt st []).call c = stateEndValue (scanAt st []) c →
        Rejected (scanAt st []) (c :: r) := by
      intro st hcall
      rw [endValue_top] at hcall
      by_cases hc : isSpace c = true
      · rw [skipWs_cons_ws c r hc] at hws
        have hcall' : (scanAt st []).call c = (scanDone, .end_) := by
          rw [hcall]
          simp only [stateEndTop, hc, Bool.not_true, Bool.false_eq_true, if_false]
        unfold Rejected
        rw [checkValidLoop_cons _ _ c _ r hcall' (by decide)]
        exact done_rejected r hws
      · have hcall' : (scanAt st []).call c
            = ((scanDone.error c "after top-level value").1, .end_) := by
          rw [hcall]
          simp only [stateEndTop]
          rw [if_pos (by simpa using hc)]
        exact Rejected.of_call r hcall' (error_err _ _ _)
    rcases h with ⟨st, rfl, h1⟩ | ⟨_, rfl⟩
    · rcases h1 with rfl | ⟨_, h2⟩
      · exact key .endValue rfl
      · exact key st (h2 c r rfl)
    · exact done_rejected _ hws

theorem After.top_accepts (s' : Scanner) (h : After s' [] []) : s'.eof.2 = .end_ := by
  rcases h with ⟨st, rfl, h1⟩ | ⟨_, rfl⟩
  · exact eof_after_top st (by rcases h1 with h | h; exact Or.inl h; exact Or.inr h.1)
  · exact eof_done

theorem skipWs_nil_iff (rest : GoString) (h : skipWs rest = []) :
    ∀ x ∈ rest, isSpace x = true := by
  intro x hx
  have := List.dropWhile_eq_nil_iff.1 h x hx
  rw [← jsonWs_eq]; exact this

theorem suffix_trimmed_nil (t rest : GoString) (ht : Trimmed t) (hs : rest <:+ t)
    (hws : skipWs rest = []) : rest = [] := by
  by_contra hne
  obtain ⟨pre, rfl⟩ := hs
  have hlast : (pre ++ rest).getLast? = some (rest.getLast hne) := by
    rw [List.getLast?_append_of_ne_nil _ hne, List.getLast?_eq_getLast _ hne]
  have h1 := trimmed_last _ ht _ hlast
  have h2 := skipWs_nil_iff rest hws _ (List.getLast_mem hne)
  rw [h1] at h2
  cases h2

theorem rejected_invalid (t : GoString) (h : Rejected Scanner.reset t) : jsonValid t = false := by
  unfold Rejected at h
  simp [jsonValid, h]

/-- On a trimmed text, `Valid`, `Compact` and `Indent` follow the grammar. -/
theorem parse_sim (i t : GoString) (ht : Trimmed t) :
    (parseJSON t = none → jsonValid t = false) ∧
    (∀ v, parseJSON t = some v →
      if v.depth ≤ maxNestingDepth then
        jsonValid t = true ∧ (compactLoop Scanner.reset t).2 = serializeCompact v ∧
          (indentLoop [] i Scanner.reset false 0 t).2 = serializeIndented i 0 v
      else jsonValid t = false) := by
  have hv := (sim_all i (t.length + 1)).1 t [] .beginValue false 0 (by simp)
    (Or.inl rfl) (by omega)
  have hreset : scanAt .beginValue [] = Scanner.reset := rfl
  rw [hreset] at hv
  unfold parseJSON
  cases hp : parseValue (t.length + 1) t with
  | none =>
    rw [hp] at hv
    exact ⟨fun _ => rejected_invalid t hv, fun v h => by cases h⟩
  | some p =>
    obtain ⟨v, rest⟩ := p
    rw [hp, ValueGoal.value_some] at hv
    simp only [List.length_nil, zero_add] at hv
    simp only
    by_cases hd : v.depth ≤ maxNestingDepth
    · rw [if_pos hd] at hv
      obtain ⟨hsuf, _, s', hafter, hrun⟩ := hv
      by_cases hws : skipWs rest = []
      · rw [if_pos hws]
        have hnil := suffix_trimmed_nil t rest ht hsuf hws
        subst hnil
        refine ⟨fun h => (by cases h), fun w hw => ?_⟩
        cases hw
        rw [if_pos hd]
        have hc := hrun.compact
        have hi := hrun.indent
        simp only [compactLoop, indentLoop, List.append_nil, bump_false, lead_false,
          List.nil_append] at hc hi
        refine ⟨?_, congrArg Prod.snd hc, congrArg Prod.snd hi⟩
        rw [valid_iff, ← compactLoop_scanner, hc]
        simp only
        rw [After.top_accepts s' hafter]
        decide
      · rw [if_neg hws]
        exact ⟨fun _ => rejected_invalid t (Rejected.of_runs hrun
          (After.top_rejected s' rest hafter hws)), fun w hw => by cases hw⟩
    · rw [if_neg hd] at hv
      have := rejected_invalid t hv
      refine ⟨fun _ => this, fun w hw => ?_⟩
      split at hw
      · cases hw
        rw [if_neg hd]
        exact this
      · cases hw

theorem formatInput_error_iff (c i : GoString) :
    (∃ e, formatInput c i = .error e) ↔ jsonValid (bytesTrimSpace c) = false := by
  constructor
  · rintro ⟨e, he⟩
    by_contra hv
    rw [Bool.not_eq_false] at hv
    rw [formatInput_valid c i hv] at he
    split at he <;> cases he
  · exact formatInput_invalid c i

/-- The function `format` after the file is read, against the grammar. -/
theorem formatInput_parse (c i : GoString) :
    (∀ v, parseJSON (bytesTrimSpace c) = some v → v.depth ≤ maxNestingDepth →
      (i = formatCompact → formatInput c i = .ok (serializeCompact v) ∧
        Trimmed (serializeCompact v)) ∧
      (i ≠ formatCompact → formatInput c i = .ok (serializeIndented i 0 v ++ ['\n']) ∧
        Trimmed (serializeIndented i 0 v))) ∧
    ((∃ e, formatInput c i = .error e) ↔
      (parseJSON (bytesTrimSpace c) = none ∨
        ∃ v, parseJSON (bytesTrimSpace c) = some v ∧ maxNestingDepth < v.depth)) := by
  have ht := trimmed_trim c
  obtain ⟨h1, h2⟩ := parse_sim i (bytesTrimSpace c) ht
  constructor
  · intro v hv hd
    have h3 := h2 v hv
    rw [if_pos hd] at h3
    obtain ⟨hvalid, hc, hi⟩ := h3
    have htr := output_trimmed (bytesTrimSpace c) i ht hvalid
    rw [hc, hi] at htr
    constructor
    · rintro rfl
      rw [formatInput_compact c hvalid, hc]
      exact ⟨rfl, htr.1⟩
    · intro hne
      rw [formatInput_indent c i hne hvalid, hi]
      exact ⟨rfl, htr.2⟩
  · rw [formatInput_error_iff]
    constructor
    · intro hinv
      cases hp : parseJSON (bytesTrimSpace c) with
      | none => exact Or.inl rfl
      | some v =>
        right
        refine ⟨v, rfl, ?_⟩
        have h3 := h2 v hp
        by_contra hd
        rw [if_pos (by omega)] at h3
        rw [h3.1] at hinv
        cases hinv
    · rintro (hp | ⟨v, hp, hd⟩)
      · exact h1 hp
      · have h3 := h2 v hp
        rw [if_neg (by omega)] at h3
        exact h3

/-! ### A text nested too deep -/

theorem parseValue_deep (n : Nat) : ∀ (fuel : Nat) (tail : GoString), n + 2 ≤ fuel →
    parseValue fuel (List.replicate (n + 1) '[' ++ (List.replicate (n + 1) ']' ++ tail))
      = some (deepValue n, tail) := by
  have h1 : ∀ z, skipWs ('[' :: z) = '[' :: z := fun z => skipWs_cons_not _ _ (by decide)
  have h2 : ∀ z, skipWs (']' :: z) = ']' :: z := fun z => skipWs_cons_not _ _ (by decide)
  induction n with
  | zero =>
    intro fuel tail hf
    obtain ⟨f, rfl⟩ : ∃ f, fuel = f + 1 := ⟨fuel - 1, by omega⟩
    show parseValue (f + 1) ('[' :: ']' :: tail) = _
    rw [parseValue, h1]
    simp only
    rw [if_pos True.intro, h2]
    simp only
    rw [if_pos True.intro]
    rfl
  | succ n ih =>
    intro fuel tail hf
    obtain ⟨f, rfl⟩ : ∃ f, fuel = f + 1 + 1 := ⟨fuel - 2, by omega⟩
    have hrest : List.replicate (n + 1 + 1) ']' ++ tail
        = List.replicate (n + 1) ']' ++ (']' :: tail) := by
      rw [List.replicate_succ' (n + 1), List.append_assoc]
      rfl
    have htext : List.replicate (n + 1 + 1) '[' ++ (List.replicate (n + 1 + 1) ']' ++ tail)
        = '[' :: (List.replicate (n + 1) '[' ++ (List.replicate (n + 1) ']' ++ (']' :: tail))) := by
      rw [hrest, List.replicate_succ]
      rfl
    have hinner := ih (f + 1) (']' :: tail) (by omega)
    have h3 : skipWs (List.replicate (n + 1) '[' ++ (List.replicate (n + 1) ']' ++ (']' :: tail)))
        = '[' :: (List.replicate n '[' ++ (List.replicate (n + 1) ']' ++ (']' :: tail))) := by
      rw [List.replicate_succ]
      exact h1 _
    rw [htext, parseValue, h1]
    simp only
    rw [if_pos True.intro, h3]
    simp only
    rw [if_neg (by decide), hinner]
    simp only
    rw [parseElements, h2]
    simp only
    rw [if_pos True.intro]
    rfl

theorem deepValue_depth (n : Nat) : (deepValue n).depth = n + 1 := by
  induction n with
  | zero => rfl
  | succ n ih => simp [deepValue, JValue.depth, depthElements, ih]

theorem deep_trimmed (n : Nat) :
    Trimmed (List.replicate (n + 1) '[' ++ List.replicate (n + 1) ']') := by
  constructor
  · intro a ha
    rw [List.replicate_succ, List.cons_append, List.head?_cons] at ha
    cases ha
    decide
  · intro b hb
    rw [List.replicate_succ' n ']', ← List.append_assoc,
      List.getLast?_append_of_ne_nil _ (by simp)] at hb
    simp only [List.getLast?_singleton, Option.some.injEq] at hb
    subst hb; decide

theorem parseJSON_deep (n : Nat) :
    parseJSON (bytesTrimSpace (List.replicate (n + 1) '[' ++ List.replicate (n + 1) ']'))
      = some (deepValue n) := by
  rw [trim_of_trimmed _ (deep_trimmed n)]
  unfold parseJSON
  have h := parseValue_deep n
    ((List.replicate (n + 1) '[' ++ List.replicate (n + 1) ']').length + 1) [] (by
      rw [List.length_append, List.length_replicate, List.length_replicate]
      omega)
  rw [List.append_nil] at h
  rw [h]
  rfl

theorem parseJSON_deepArray : parseJSON (bytesTrimSpace deepArray) = some (deepValue 10000) :=
  parseJSON_deep 10000

theorem formatInput_deepArray (i : GoString) : ∃ e, formatInput deepArray i = .error e :=
  (formatInput_parse deepArray i).2.2 (Or.inr ⟨deepValue 10000, parseJSON_deepArray, by
    rw [deepValue_depth]; decide⟩)

/-! ## Claims on `format` -/

/-- C9, amended: for a file of content `c`, with `t` the content stripped of
leading and trailing white space.  When `t` is a JSON text, denoting the value
`v`, with arrays and objects nested no deeper than 10000 levels, `format`
returns the compact serialisation of `v` (which has no white space at either
end, so no trailing newline) if the indent is `"c"`, and otherwise the
serialisation of `v` indented with the indent, which has no white space at
either end, followed by one newline.  And `format` returns an error, and no
output, exactly when `t` is not a JSON text or nests arrays and objects deeper
than 10000 levels. -/
theorem format_spec (fs : FileSystem) (filename name c indent : GoString)
    (h : fs.stat filename = some (name, .file c)) :
    (∀ v, parseJSON (bytesTrimSpace c) = some v → v.depth ≤ maxNestingDepth →
      (indent = formatCompact →
        format fs filename indent = .ok (serializeCompact v) ∧ Trimmed (serializeCompact v)) ∧
      (indent ≠ formatCompact →
        format fs filename indent = .ok (serializeIndented indent 0 v ++ ['\n']) ∧
        Trimmed (serializeIndented indent 0 v))) ∧
    ((∃ e, format fs filename indent = .error e) ↔
      (parseJSON (bytesTrimSpace c) = none ∨
        ∃ v, parseJSON (bytesTrimSpace c) = some v ∧ maxNestingDepth < v.depth)) := by
  have hf : format fs filename indent = formatInput c indent := by
    simp [format, readFile, h]
  rw [hf]
  exact formatInput_parse c indent

set_option maxRecDepth 100000 in
theorem format_spec_witness :
    format icecreamFS "test-fixtures/icecream.json".toList "  ".toList
      = .ok expectedFormatSpaces ∧
    format icecreamFS "test-fixtures/icecream.json".toList "c".toList
      = .ok expectedFormatCompact ∧
    format spacedFS "spaced.json".toList "c".toList
      = .ok "\x7b\"a\":[1,-2.5e+3,true],\"b\\n\":\x7b\x7d\x7d".toList ∧
    format spacedFS "spaced.json".toList "\t".toList
      = .ok ("\x7b\n\t\"a\": [\n\t\t1,\n\t\t-2.5e+3,\n\t\ttrue\n\t],\n\t\"b\\n\": " ++
          "\x7b\x7d\n\x7d\n").toList ∧
    parseJSON (bytesTrimSpace "[1,]".toList) = none ∧
    (∃ e, format spacedFS "comma.json".toList "  ".toList = .error e) :=
  ⟨((((format_spec icecreamFS "test-fixtures/icecream.json".toList "icecream.json".toList
      icecream "  ".toList rfl).1 icecreamValue (by rfl) (by decide)).2 (by decide)).1).trans
      (by rfl),
   ((((format_spec icecreamFS "test-fixtures/icecream.json".toList "icecream.json".toList
      icecream "c".toList rfl).1 icecreamValue (by rfl) (by decide)).1 (by decide)).1).trans
      (by rfl),
   ((((format_spec spacedFS "spaced.json".toList "spaced.json".toList
      spaced "c".toList rfl).1 spacedValue (by rfl) (by decide)).1 (by decide)).1).trans
      (by rfl),
   ((((format_spec spacedFS "spaced.json".toList "spaced.json".toList
      spaced "\t".toList rfl).1 spacedValue (by rfl) (by decide)).2 (by decide)).1).trans
      (by rfl),
   (by rfl),
   (format_spec spacedFS "comma.json".toList "comma.json".toList "[1,]".toList "  ".toList
      rfl).2.2 (Or.inl (by rfl))⟩

/-- C9 as stated fails: the text of 10001 opening brackets and 10001 closing
brackets is a JSON text, an array in an array and so on, yet `format` returns
an error on a file that holds it, with the indent `c` and with the indent of
two spaces. -/
theorem format_deep_counterexample :
    (∃ v, parseJSON (bytesTrimSpace deepArray) = some v) ∧
    (∃ e, format deepFS "deep.json".toList formatCompact = .error e) ∧
    (∃ e, format deepFS "deep.json".toList "  ".toList = .error e) := by
  have hf : ∀ i, format deepFS "deep.json".toList i = formatInput deepArray i := by
    intro i
    simp [format, readFile, deepFS]
  rw [hf, hf]
  exact ⟨⟨_, parseJSON_deepArray⟩, formatInput_deepArray _, formatInput_deepArray _⟩

end Jsonf
